import Mathlib

/-!
# xng: chunk framing, CRC-32 and dispatch

A shallow embedding of `src/xng/xng.cpp` / `src/xng/xng.h`.

Conventions of the embedding.

* A byte is a `Nat`; a well-formed byte is `< 256` (`uint8_t`).
* A pointer `const uint8_t* filedata` is a pair of the addressable bytes
  `filedata : List Nat` and an offset into them.  The source never checks a
  bound: a read at an offset outside `filedata` is undefined behaviour there
  and is the result `fault.out_of_bounds` here.
* An out-parameter `const uint8_t** next_filedata` is an `Option Nat`:
  `none` is the null pointer, `some p` a slot that currently holds `p`.  Every
  reader returns the slot as it is after the call.
* `le` is `XNG_LITTLE_ENDIAN`, the byte order of the host.
* `ndebug` says whether `assert` is compiled out (`NDEBUG`).  With assertions
  compiled in, a false assertion ends the program: `fault.assert_failed`.
* `size_t` and `int` values are unbounded (`Nat`, `Int`); `uint32_t` results of
  shifts are reduced modulo `2 ^ 32`.  Where the width of `size_t` decides the
  result, in the termination of `xng_iterate_chunks`, the definitions named
  `..._w` take it as a parameter `bits` and reduce the sums of `size_t` and of
  the cursor modulo `2 ^ bits`; with a `size_t` wide enough for
  `length + 12 + 2 ^ 32` they are the unbounded ones (`xng_iterate_chunks_w_eq`).
-/

namespace xng

/-! ## Outcomes -/

/-- Ways in which a call does not return a value. -/
inductive fault where
  | out_of_bounds
  | assert_failed
deriving DecidableEq, Repr

/-! ## Data model (`xng.h`) -/

/-- The union `chunkid_t`: four bytes of storage, seen as `type[0..3]` or as the
host-order integer `_raw`. -/
structure chunkid_t where
  type0 : Nat
  type1 : Nat
  type2 : Nat
  type3 : Nat
deriving DecidableEq, Repr

/-- The struct `chunk_t`: `id`, `length`, `crc`, `data`. -/
structure chunk_t where
  id : chunkid_t
  length : Nat
  crc : Nat
  data : List Nat
deriving DecidableEq, Repr

/-- The constant `chunkheader_size = sizeof(chunkid_t) + sizeof(uint32_t)`. -/
def chunkheader_size : Nat := 4 + 4

/-- The function-pointer type `chunkhandlerfunc_t`: a handler receives the chunk
and what `target` points to, and returns its `int` status and the new content
of `target`. -/
abbrev chunkhandlerfunc_t (σ : Type) : Type := chunk_t → σ → Int × σ

/-- The struct `chunkhandler_t`. -/
structure chunkhandler_t (σ : Type) where
  id : chunkid_t
  func : chunkhandlerfunc_t σ

/-- The struct `chunkhandlerstate_t`. -/
structure chunkhandlerstate_t (σ : Type) where
  handlers : List (chunkhandler_t σ)

/-- The function-pointer type `crc32computationfunc_t`; the argument pair
`(data, length)` is the list of the `length` bytes at `data`. -/
abbrev crc32computationfunc_t : Type := List Nat → Nat

/-! ## Object representation of a 32-bit integer -/

/-- The `uint32_t` a host of byte order `le` loads from four consecutive bytes:
`*reinterpret_cast<const uint32_t*>(filedata)`. -/
def load_uint32 (le : Bool) (b0 b1 b2 b3 : Nat) : Nat :=
  if le then b0 + b1 * 2 ^ 8 + b2 * 2 ^ 16 + b3 * 2 ^ 24
  else b0 * 2 ^ 24 + b1 * 2 ^ 16 + b2 * 2 ^ 8 + b3

/-- Byte `i` (0..3) of the storage of the `uint32_t` `v` on a host of byte
order `le`: `reinterpret_cast<const uint8_t*>(&v)[i]`. -/
def byte_of_uint32 (le : Bool) (v i : Nat) : Nat :=
  if le then (v >>> (8 * i)) % 256 else (v >>> (8 * (3 - i))) % 256

/-- The member `_raw` of the union. -/
def chunkid_t.raw (le : Bool) (id : chunkid_t) : Nat :=
  load_uint32 le id.type0 id.type1 id.type2 id.type3

/-- The union after `val._raw = v`. -/
def chunkid_t.of_raw (le : Bool) (v : Nat) : chunkid_t :=
  { type0 := byte_of_uint32 le v 0, type1 := byte_of_uint32 le v 1,
    type2 := byte_of_uint32 le v 2, type3 := byte_of_uint32 le v 3 }

/-! ## Byte cursor (`xng.cpp`) -/

/-- The overload `endian_swap(const uint32_t v)`. -/
def endian_swap_uint32 (le : Bool) (v : Nat) : Nat :=
  ((byte_of_uint32 le v 0 <<< 24) ||| (byte_of_uint32 le v 1 <<< 16)
    ||| (byte_of_uint32 le v 2 <<< 8) ||| byte_of_uint32 le v 3) % 2 ^ 32

/-- The store `if (next_filedata) *next_filedata = p`. -/
def store_next (next_filedata : Option Nat) (p : Nat) : Option Nat :=
  next_filedata.map (fun _ => p)

/-- The function `read_uint32_t(filedata, next_filedata)`, reading at offset
`off`. -/
def read_uint32_t (le : Bool) (filedata : List Nat) (off : Nat)
    (next_filedata : Option Nat) : Except fault (Nat × Option Nat) :=
  match filedata[off]?, filedata[off + 1]?, filedata[off + 2]?, filedata[off + 3]? with
  | some b0, some b1, some b2, some b3 =>
    let val := load_uint32 le b0 b1 b2 b3
    let next_filedata := store_next next_filedata (off + 4)
    if le then .ok (endian_swap_uint32 le val, next_filedata)
    else .ok (val, next_filedata)
  | _, _, _, _ => .error .out_of_bounds

/-- The function `read_chunkid_t(filedata, next_filedata)`, reading at offset
`off`. -/
def read_chunkid_t (le : Bool) (filedata : List Nat) (off : Nat)
    (next_filedata : Option Nat) : Except fault (chunkid_t × Option Nat) :=
  match filedata[off]?, filedata[off + 1]?, filedata[off + 2]?, filedata[off + 3]? with
  | some b0, some b1, some b2, some b3 =>
    let val := chunkid_t.of_raw le (load_uint32 le b0 b1 b2 b3)
    .ok (val, store_next next_filedata (off + 4))
  | _, _, _, _ => .error .out_of_bounds

/-! ## Chunk codec (`xng.cpp`) -/

/-- The range constructor `std::vector<uint8_t>(first, first + n)` at offset
`first`. -/
def copy_range (filedata : List Nat) (first n : Nat) : Except fault (List Nat) :=
  if first + n ≤ filedata.length then .ok ((filedata.drop first).take n)
  else .error .out_of_bounds

/-- The function `read_chunk(filedata, next_filedata)`, reading at offset
`off`. -/
def read_chunk (le : Bool) (filedata : List Nat) (off : Nat)
    (next_filedata : Option Nat) : Except fault (chunk_t × Option Nat) :=
  let filedata_iter := off
  match read_uint32_t le filedata filedata_iter (some filedata_iter) with
  | .error e => .error e
  | .ok (length, slot) =>
    let filedata_iter := slot.getD filedata_iter
    match read_chunkid_t le filedata filedata_iter (some filedata_iter) with
    | .error e => .error e
    | .ok (id, slot) =>
      let filedata_iter := slot.getD filedata_iter
      match copy_range filedata filedata_iter length with
      | .error e => .error e
      | .ok data =>
        let filedata_iter := filedata_iter + length
        match read_uint32_t le filedata filedata_iter (some filedata_iter) with
        | .error e => .error e
        | .ok (crc, slot) =>
          let filedata_iter := slot.getD filedata_iter
          .ok ({ id := id, length := length, crc := crc, data := data },
            store_next next_filedata filedata_iter)

/-- The test `chunk.id.type[0] == 0 && ... && chunk.id.type[3] == 0`. -/
def chunkid_t.is_zero (id : chunkid_t) : Bool :=
  id.type0 == 0 && id.type1 == 0 && id.type2 == 0 && id.type3 == 0

/-- The `while (sum_read < filedata_size)` loop of `read_chunks`, with its
three variables.  `fuel` bounds the number of iterations; `none` means that the
bound was reached. -/
def read_chunks_loop (le : Bool) (filedata : List Nat) (filedata_size : Nat) :
    Nat → Nat → Nat → List chunk_t → Option (Except fault (List chunk_t))
  | 0, _, _, _ => none
  | fuel + 1, filedata_iter, sum_read, chunks =>
    if sum_read < filedata_size then
      match read_chunk le filedata filedata_iter (some filedata_iter) with
      | .error e => some (.error e)
      | .ok (chunk, slot) =>
        let filedata_iter := slot.getD filedata_iter
        if chunk.id.is_zero then some (.ok chunks)
        else
          read_chunks_loop le filedata filedata_size fuel filedata_iter
            (sum_read + chunk.length) (chunks ++ [chunk])
    else some (.ok chunks)

/-- The function `read_chunks(filedata, filedata_size)`.  Every iteration that
goes on has read at least twelve bytes inside `filedata`, so
`filedata.length + 1` iterations are never all used (`read_chunks_returns`). -/
def read_chunks (le : Bool) (filedata : List Nat) (filedata_size : Nat) :
    Option (Except fault (List chunk_t)) :=
  read_chunks_loop le filedata filedata_size (filedata.length + 1) 0 0 []

/-! ## Integrity checker (`xng.cpp`) -/

/-- The array `crc32_table[256]` of `compute_crc32`, literal by literal. -/
def crc32_table : List Nat :=
  [0, 1996959894, 3993919788, 2567524794, 124634137, 1886057615,
   3915621685, 2657392035, 249268274, 2044508324, 3772115230, 2547177864,
   162941995, 2125561021, 3887607047, 2428444049, 498536548, 1789927666,
   4089016648, 2227061214, 450548861, 1843258603, 4107580753, 2211677639,
   325883990, 1684777152, 4251122042, 2321926636, 335633487, 1661365465,
   4195302755, 2366115317, 997073096, 1281953886, 3579855332, 2724688242,
   1006888145, 1258607687, 3524101629, 2768942443, 901097722, 1119000684,
   3686517206, 2898065728, 853044451, 1172266101, 3705015759, 2882616665,
   651767980, 1373503546, 3369554304, 3218104598, 565507253, 1454621731,
   3485111705, 3099436303, 671266974, 1594198024, 3322730930, 2970347812,
   795835527, 1483230225, 3244367275, 3060149565, 1994146192, 31158534,
   2563907772, 4023717930, 1907459465, 112637215, 2680153253, 3904427059,
   2013776290, 251722036, 2517215374, 3775830040, 2137656763, 141376813,
   2439277719, 3865271297, 1802195444, 476864866, 2238001368, 4066508878,
   1812370925, 453092731, 2181625025, 4111451223, 1706088902, 314042704,
   2344532202, 4240017532, 1658658271, 366619977, 2362670323, 4224994405,
   1303535960, 984961486, 2747007092, 3569037538, 1256170817, 1037604311,
   2765210733, 3554079995, 1131014506, 879679996, 2909243462, 3663771856,
   1141124467, 855842277, 2852801631, 3708648649, 1342533948, 654459306,
   3188396048, 3373015174, 1466479909, 544179635, 3110523913, 3462522015,
   1591671054, 702138776, 2966460450, 3352799412, 1504918807, 783551873,
   3082640443, 3233442989, 3988292384, 2596254646, 62317068, 1957810842,
   3939845945, 2647816111, 81470997, 1943803523, 3814918930, 2489596804,
   225274430, 2053790376, 3826175755, 2466906013, 167816743, 2097651377,
   4027552580, 2265490386, 503444072, 1762050814, 4150417245, 2154129355,
   426522225, 1852507879, 4275313526, 2312317920, 282753626, 1742555852,
   4189708143, 2394877945, 397917763, 1622183637, 3604390888, 2714866558,
   953729732, 1340076626, 3518719985, 2797360999, 1068828381, 1219638859,
   3624741850, 2936675148, 906185462, 1090812512, 3747672003, 2825379669,
   829329135, 1181335161, 3412177804, 3160834842, 628085408, 1382605366,
   3423369109, 3138078467, 570562233, 1426400815, 3317316542, 2998733608,
   733239954, 1555261956, 3268935591, 3050360625, 752459403, 1541320221,
   2607071920, 3965973030, 1969922972, 40735498, 2617837225, 3943577151,
   1913087877, 83908371, 2512341634, 3803740692, 2075208622, 213261112,
   2463272603, 3855990285, 2094854071, 198958881, 2262029012, 4057260610,
   1759359992, 534414190, 2176718541, 4139329115, 1873836001, 414664567,
   2282248934, 4279200368, 1711684554, 285281116, 2405801727, 4167216745,
   1634467795, 376229701, 2685067896, 3608007406, 1308918612, 956543938,
   2808555105, 3495958263, 1231636301, 1047427035, 2932959818, 3654703836,
   1088359270, 936918000, 2847714899, 3736837829, 1202900863, 817233897,
   3183342108, 3401237130, 1404277552, 615818150, 3134207493, 3453421203,
   1423857449, 601450431, 3009837614, 3294710456, 1567103746, 711928724,
   3020668471, 3272380065, 1510334235, 755167117]

/-- The loop body `r = crc32_table[(r ^ data[i]) & 0xff] ^ (r >> 8)`. -/
def crc32_update (r byte : Nat) : Nat :=
  crc32_table.getD ((r ^^^ byte) &&& 0xff) 0 ^^^ (r >>> 8)

/-- The function `compute_crc32(data, length)` on the `length` bytes at `data`. -/
def compute_crc32 : crc32computationfunc_t := fun data =>
  data.foldl crc32_update 0xffffffff ^^^ 0xffffffff

/-- The function `check_chunk(chunk, crc32func)`; `none` is a null `crc32func`. -/
def check_chunk (ndebug : Bool) (chunk : chunk_t)
    (crc32func : Option crc32computationfunc_t) : Except fault Bool :=
  match crc32func with
  | none => if ndebug then .ok false else .error .assert_failed
  | some f =>
    let chunkdata : List Nat := []
    let chunkdata := chunkdata ++ [chunk.id.type0]
    let chunkdata := chunkdata ++ [chunk.id.type1]
    let chunkdata := chunkdata ++ [chunk.id.type2]
    let chunkdata := chunkdata ++ [chunk.id.type3]
    let chunkdata := chunkdata ++ chunk.data
    let computedCrc := f chunkdata
    .ok (chunk.crc == computedCrc)

/-- The algorithm `std::all_of` for a predicate that may fail: it stops at the
first element on which the predicate is false. -/
def all_of {α : Type} (p : α → Except fault Bool) : List α → Except fault Bool
  | [] => .ok true
  | x :: xs =>
    match p x with
    | .error e => .error e
    | .ok false => .ok false
    | .ok true => all_of p xs

/-- The function `check_chunks(chunks, crc32func)`. -/
def check_chunks (ndebug : Bool) (chunks : List chunk_t)
    (crc32func : Option crc32computationfunc_t) : Except fault Bool :=
  match crc32func with
  | none => if ndebug then .ok false else .error .assert_failed
  | some f => all_of (fun chunk => check_chunk ndebug chunk (some f)) chunks

/-! ## Handler registry and dispatcher (`xng.cpp`) -/

/-- The static `default_error` of `find_chunkhandler`: tag `"ERR"`, and a
handler that prints a warning and returns 0 (its `assert(chunk)` holds, the
chunk being passed by address; the output is not part of the embedding). -/
def default_error {σ : Type} : chunkhandler_t σ :=
  { id := { type0 := 69, type1 := 82, type2 := 82, type3 := 0 },
    func := fun _ target => (0, target) }

/-- The function `find_chunkhandler(id, state)`. -/
def find_chunkhandler {σ : Type} (le : Bool) (id : chunkid_t)
    (state : chunkhandlerstate_t σ) : chunkhandler_t σ :=
  match state.handlers.find? (fun handler => handler.id.raw le == id.raw le) with
  | some handler => handler
  | none => default_error

/-- The function `handle_chunk(chunk, state, target)`. -/
def handle_chunk {σ : Type} (le : Bool) (chunk : chunk_t)
    (state : chunkhandlerstate_t σ) (target : σ) : Int × σ :=
  (find_chunkhandler le chunk.id state).func chunk target

/-- The `for (auto& chunk : chunks)` loop of `handle_chunks` with its variable
`err`, followed by the final `return err`. -/
def handle_chunks_loop {σ : Type} (ndebug le : Bool) (state : chunkhandlerstate_t σ) :
    List chunk_t → Int → σ → Except fault Int × σ
  | [], err, target => (.ok err, target)
  | chunk :: rest, _, target =>
    let r := handle_chunk le chunk state target
    let err := r.1
    if !ndebug && err != 0 then (.error .assert_failed, r.2)
    else if err != 0 then (.ok err, r.2)
    else handle_chunks_loop ndebug le state rest err r.2

/-- The function `handle_chunks(chunks, state, target)`: the outcome of the
call and the content of `target` when it ends. -/
def handle_chunks {σ : Type} (ndebug le : Bool) (chunks : List chunk_t)
    (state : chunkhandlerstate_t σ) (target : σ) : Except fault Int × σ :=
  handle_chunks_loop ndebug le state chunks 0 target

/-! ## The wire format and the reference computations of the specification -/

/-- The big-endian value of four bytes. -/
def be32 (b0 b1 b2 b3 : Nat) : Nat :=
  b0 * 2 ^ 24 + b1 * 2 ^ 16 + b2 * 2 ^ 8 + b3

/-- The four bytes of a 32-bit value, most significant first. -/
def be32_bytes (v : Nat) : List Nat :=
  [v / 2 ^ 24 % 256, v / 2 ^ 16 % 256, v / 2 ^ 8 % 256, v % 256]

/-- Byte `i` of the addressable bytes, `0` outside them. -/
def byte_at (filedata : List Nat) (i : Nat) : Nat := filedata.getD i 0

/-- Every element is a byte. -/
def bytes_ok (bytes : List Nat) : Prop := ∀ b ∈ bytes, b < 256

instance (bytes : List Nat) : Decidable (bytes_ok bytes) := by
  unfold bytes_ok; infer_instance

/-- The tag bytes of a chunk followed by its payload bytes. -/
def chunk_t.tag_and_data (c : chunk_t) : List Nat :=
  [c.id.type0, c.id.type1, c.id.type2, c.id.type3] ++ c.data

/-- A chunk that a record can carry: byte-sized tag and payload bytes, a payload
of exactly `length` bytes, and 32-bit `length` and `crc`. -/
def chunk_t.well_formed (c : chunk_t) : Prop :=
  bytes_ok c.tag_and_data ∧ c.data.length = c.length ∧ c.length < 2 ^ 32 ∧ c.crc < 2 ^ 32

instance (c : chunk_t) : Decidable c.well_formed := by
  unfold chunk_t.well_formed; infer_instance

/-- The wire record of a chunk: 4-byte big-endian length, 4 raw tag bytes,
payload, 4-byte big-endian crc. -/
def wire_record (c : chunk_t) : List Nat :=
  be32_bytes c.length ++ [c.id.type0, c.id.type1, c.id.type2, c.id.type3] ++ c.data
    ++ be32_bytes c.crc

/-- The concatenation of the wire records of a chunk sequence. -/
def wire_records : List chunk_t → List Nat
  | [] => []
  | c :: cs => wire_record c ++ wire_records cs

/-- One step of the bit-at-a-time CRC-32: shift right by one, and XOR with
`0xEDB88320` when the bit shifted out was 1. -/
def crc32_bit_step (c : Nat) : Nat :=
  if c % 2 = 1 then (c >>> 1) ^^^ 0xEDB88320 else c >>> 1

/-- The bit-at-a-time CRC-32: register `0xFFFFFFFF`, each byte XORed into the low
8 bits and followed by 8 bit steps, final XOR with `0xFFFFFFFF`. -/
def crc32_bitwise (data : List Nat) : Nat :=
  data.foldl (fun r byte => crc32_bit_step^[8] (r ^^^ byte)) 0xFFFFFFFF ^^^ 0xFFFFFFFF

/-- The byte sequence with bit `p` flipped, bit `p % 8` of byte `p / 8`. -/
def flip_bit : List Nat → Nat → List Nat
  | [], _ => []
  | b :: bs, p => if p < 8 then (b ^^^ 2 ^ p) :: bs else b :: flip_bit bs (p - 8)

/-- The chunk with bit `p` of its tag-and-payload bytes flipped; `length` and
`crc` are left as they are. -/
def chunk_t.flip_bit (c : chunk_t) (p : Nat) : chunk_t :=
  match xng.flip_bit c.tag_and_data p with
  | t0 :: t1 :: t2 :: t3 :: data =>
    { c with id := { type0 := t0, type1 := t1, type2 := t2, type3 := t3 }, data := data }
  | _ => c

/-- Every handler run in sequence order, none skipped: the statuses returned and
the content of `target` at the end. -/
def run_handlers {σ : Type} (le : Bool) (state : chunkhandlerstate_t σ) :
    List chunk_t → σ → List Int × σ
  | [], target => ([], target)
  | chunk :: rest, target =>
    let r := handle_chunk le chunk state target
    let rs := run_handlers le state rest r.2
    (r.1 :: rs.1, rs.2)

/-- The statuses of the handlers of a sequence, each run on the context left by
the ones before it. -/
def statuses {σ : Type} (le : Bool) (state : chunkhandlerstate_t σ)
    (chunks : List chunk_t) (target : σ) : List Int :=
  (run_handlers le state chunks target).1

/-- The chunks up to and including the first one whose handler returns non-zero,
or all of them if none does. -/
def dispatched {σ : Type} (le : Bool) (state : chunkhandlerstate_t σ)
    (chunks : List chunk_t) (target : σ) : List chunk_t :=
  chunks.take ((statuses le state chunks target).findIdx (fun s => s != 0) + 1)

/-! ## Concrete data -/

/-- The chunk of the scenario: tag `TEST`, payload `DE AD BE EF`, and the CRC-32
of these eight bytes. -/
def test_chunk : chunk_t :=
  { id := { type0 := 84, type1 := 69, type2 := 83, type3 := 84 },
    length := 4, crc := 0xb82c179f, data := [0xDE, 0xAD, 0xBE, 0xEF] }

/-- The one-record buffer `00 00 00 04 'T' 'E' 'S' 'T' DE AD BE EF crc`. -/
def test_buffer : List Nat :=
  [0, 0, 0, 4, 84, 69, 83, 84, 0xDE, 0xAD, 0xBE, 0xEF, 0xb8, 0x2c, 0x17, 0x9f]

/-- A zero-tag terminator record with an empty payload. -/
def zero_chunk : chunk_t :=
  { id := { type0 := 0, type1 := 0, type2 := 0, type3 := 0 },
    length := 0, crc := 0, data := [] }

/-- The ASCII bytes of `123456789`. -/
def check_string : List Nat := [49, 50, 51, 52, 53, 54, 55, 56, 57]

/-- A chunk tagged `H1  `. -/
def h1_chunk : chunk_t :=
  { id := { type0 := 72, type1 := 49, type2 := 32, type3 := 32 },
    length := 0, crc := 0, data := [] }

/-- A chunk tagged `H2  `. -/
def h2_chunk : chunk_t :=
  { id := { type0 := 72, type1 := 50, type2 := 32, type3 := 32 },
    length := 0, crc := 0, data := [] }

/-- A registry over a log of handler calls: the handler of `H1  ` logs 1 and
returns 0, the handler of `H2  ` logs 2 and returns 5. -/
def h1_h2_registry : chunkhandlerstate_t (List Nat) :=
  { handlers :=
      [{ id := h1_chunk.id, func := fun _ log => (0, log ++ [1]) },
       { id := h2_chunk.id, func := fun _ log => (5, log ++ [2]) }] }

/-! ## Byte cursor, widths 1 and 2 (`xng.cpp`) -/

/-- The `uint16_t` a host of byte order `le` loads from two consecutive bytes:
`*reinterpret_cast<const uint16_t*>(filedata)`. -/
def load_uint16 (le : Bool) (b0 b1 : Nat) : Nat :=
  if le then b0 + b1 * 2 ^ 8 else b0 * 2 ^ 8 + b1

/-- Byte `i` (0..1) of the storage of the `uint16_t` `v` on a host of byte
order `le`. -/
def byte_of_uint16 (le : Bool) (v i : Nat) : Nat :=
  if le then (v >>> (8 * i)) % 256 else (v >>> (8 * (1 - i))) % 256

/-- The overload `endian_swap(const uint16_t v)`. -/
def endian_swap_uint16 (le : Bool) (v : Nat) : Nat :=
  ((byte_of_uint16 le v 0 <<< 8) ||| byte_of_uint16 le v 1) % 2 ^ 16

/-- The function `read_uint8_t(filedata, next_filedata)`, reading at offset
`off`. -/
def read_uint8_t (filedata : List Nat) (off : Nat) (next_filedata : Option Nat) :
    Except fault (Nat × Option Nat) :=
  match filedata[off]? with
  | some b0 =>
    let val := b0
    .ok (val, store_next next_filedata (off + 1))
  | none => .error .out_of_bounds

/-- The function `read_uint16_t(filedata, next_filedata)`, reading at offset
`off`. -/
def read_uint16_t (le : Bool) (filedata : List Nat) (off : Nat)
    (next_filedata : Option Nat) : Except fault (Nat × Option Nat) :=
  match filedata[off]?, filedata[off + 1]? with
  | some b0, some b1 =>
    let val := load_uint16 le b0 b1
    let next_filedata := store_next next_filedata (off + 2)
    if le then .ok (endian_swap_uint16 le val, next_filedata)
    else .ok (val, next_filedata)
  | _, _ => .error .out_of_bounds

/-! ## C interface (`xng.h`, `xng.cpp`) -/

/-- The struct `xng_chunk_t`: `id` (the union `xng_chunkid_t` has the layout of
`chunkid_t`), `length`, `crc`, and `data`, a position inside the bytes the view
was taken from. -/
structure xng_chunk_t where
  id : chunkid_t
  length : Nat
  crc : Nat
  data : Nat
deriving DecidableEq, Repr

/-- The constant `xng_chunkheader_size`. -/
def xng_chunkheader_size : Nat := 4 + 4

/-- The constant `xng_chunkheader_min_size`. -/
def xng_chunkheader_min_size : Nat := 4 + 4 + 4

/-- The function-pointer type `xng_chunk_iteration_func_t`: the callback
receives the view and what `context` points to, and returns its `int` and the
new content of `context`. -/
abbrev xng_chunk_iteration_func_t (σ : Type) : Type := xng_chunk_t → σ → Int × σ

/-- The function `xng_get_next_chunk(data, next_data)`, reading at offset
`off`. -/
def xng_get_next_chunk (le : Bool) (data : List Nat) (off : Nat) (next_data : Option Nat) :
    Except fault (xng_chunk_t × Option Nat) :=
  let data_iter := off
  match read_uint32_t le data data_iter (some data_iter) with
  | .error e => .error e
  | .ok (length, slot) =>
    let data_iter := slot.getD data_iter
    match read_chunkid_t le data data_iter (some data_iter) with
    | .error e => .error e
    | .ok (id, slot) =>
      let data_iter := slot.getD data_iter
      let id := chunkid_t.of_raw le (id.raw le)
      let chunk_data := data_iter
      let data_iter := data_iter + length
      match read_uint32_t le data data_iter (some data_iter) with
      | .error e => .error e
      | .ok (crc, slot) =>
        let data_iter := slot.getD data_iter
        .ok ({ id := id, length := length, crc := crc, data := chunk_data },
          store_next next_data data_iter)

/-- The `while (iter_length < length)` loop of `xng_iterate_chunks`, with its
variables and the content of `context`; `none` for `xng_chunk_iterator` is the
null pointer.  `fuel` bounds the number of iterations; `none` as result means
that the bound was reached. -/
def xng_iterate_chunks_loop {σ : Type} (le : Bool) (data : List Nat) (length : Nat)
    (xng_chunk_iterator : Option (xng_chunk_iteration_func_t σ)) :
    Nat → Nat → Nat → Nat → σ → Option (Except fault (Nat × σ))
  | 0, _, _, _, _ => none
  | fuel + 1, data_iter, iter_length, chunk_count, context =>
    if iter_length < length then
      match xng_get_next_chunk le data data_iter (some data_iter) with
      | .error e => some (.error e)
      | .ok (chunk, slot) =>
        let data_iter := slot.getD data_iter
        if chunk.id.is_zero then some (.ok (chunk_count, context))
        else
          let iter_length := iter_length + (xng_chunkheader_min_size + chunk.length)
          let chunk_count := chunk_count + 1
          let context :=
            match xng_chunk_iterator with
            | some f => (f chunk context).2
            | none => context
          xng_iterate_chunks_loop le data length xng_chunk_iterator fuel data_iter iter_length
            chunk_count context
    else some (.ok (chunk_count, context))

/-- The function `xng_iterate_chunks(data, length, xng_chunk_iterator, context)`:
the chunk count returned and the content of `context` at the end.  Every
iteration that goes on adds at least twelve to `iter_length`, so `length + 1`
iterations are never all used.  `size_t` and the cursor are taken without a
bound here; `xng_iterate_chunks_w` is the function with a `size_t` of a given
width. -/
def xng_iterate_chunks {σ : Type} (ndebug le : Bool) (data : List Nat) (length : Nat)
    (xng_chunk_iterator : Option (xng_chunk_iteration_func_t σ)) (context : σ) :
    Option (Except fault (Nat × σ)) :=
  if !ndebug && !(decide (length ≥ xng_chunkheader_min_size)) then some (.error .assert_failed)
  else xng_iterate_chunks_loop le data length xng_chunk_iterator (length + 1) 0 0 0 context

/-- The function `xng_check_chunk_crc(chunk, crc32)` for a view taken from
`data`: `crc32` is applied to the `chunk->length + 4` bytes at
`chunk->data - 4`.  The view is passed by address and its `data` lies inside
`data`, so both assertions hold. -/
def xng_check_chunk_crc (data : List Nat) (chunk : xng_chunk_t)
    (crc32 : crc32computationfunc_t) : Except fault Bool :=
  if chunk.data < 4 then .error .out_of_bounds
  else
    match copy_range data (chunk.data - 4) (chunk.length + 4) with
    | .error e => .error e
    | .ok bytes => .ok (chunk.crc == crc32 bytes)

/-! ## Further reference notions of the specification -/

/-- All four tag bytes are bytes. -/
def chunkid_t.bytes_ok (id : chunkid_t) : Prop :=
  id.type0 < 256 ∧ id.type1 < 256 ∧ id.type2 < 256 ∧ id.type3 < 256

instance (id : chunkid_t) : Decidable id.bytes_ok := by
  unfold chunkid_t.bytes_ok; infer_instance

/-- The views of the records of a chunk sequence whose first record starts at
`off`: `id`, `length` and `crc` of each record, and the position of its payload,
`8` behind the start of the record. -/
def views_from : Nat → List chunk_t → List xng_chunk_t
  | _, [] => []
  | off, c :: cs =>
    { id := c.id, length := c.length, crc := c.crc, data := off + 8 }
      :: views_from (off + (12 + c.length)) cs

/-- The content of `context` after one call of the callback on a view; a null
callback is not called. -/
def visit {σ : Type} (xng_chunk_iterator : Option (xng_chunk_iteration_func_t σ))
    (context : σ) (view : xng_chunk_t) : σ :=
  match xng_chunk_iterator with
  | some f => (f view context).2
  | none => context

/-- The offsets at which the loop of `read_chunks` invokes `read_chunk`, in
order: the loop of `read_chunks_loop`, keeping `filedata_iter` of each call. -/
def read_chunks_calls (le : Bool) (filedata : List Nat) (filedata_size : Nat) :
    Nat → Nat → Nat → List Nat
  | 0, _, _ => []
  | fuel + 1, filedata_iter, sum_read =>
    if sum_read < filedata_size then
      filedata_iter ::
        (match read_chunk le filedata filedata_iter (some filedata_iter) with
        | .error _ => []
        | .ok (chunk, slot) =>
          if chunk.id.is_zero then []
          else read_chunks_calls le filedata filedata_size fuel (slot.getD filedata_iter)
            (sum_read + chunk.length))
    else []

/-! ## Further concrete data -/

/-- A registry with two entries for the tag `H1  `: the first logs 1 and returns
3, the second logs 2 and returns 4. -/
def shadowing_registry : chunkhandlerstate_t (List Nat) :=
  { handlers :=
      [{ id := h2_chunk.id, func := fun _ log => (5, log ++ [9]) },
       { id := h1_chunk.id, func := fun _ log => (3, log ++ [1]) },
       { id := h1_chunk.id, func := fun _ log => (4, log ++ [2]) }] }

/-- A chunk tagged `ZZZZ`. -/
def zzzz_chunk : chunk_t :=
  { id := { type0 := 90, type1 := 90, type2 := 90, type3 := 90 },
    length := 0, crc := 0, data := [] }

/-- The tag `IHDR`. -/
def ihdr_id : chunkid_t := { type0 := 73, type1 := 72, type2 := 68, type3 := 82 }

/-- A chunk tagged `ihdr`, in lower case. -/
def ihdr_lower_chunk : chunk_t :=
  { id := { type0 := 105, type1 := 104, type2 := 100, type3 := 114 },
    length := 0, crc := 0, data := [] }

/-- A registry with one entry, for `IHDR`, whose handler returns 7. -/
def ihdr_registry : chunkhandlerstate_t Unit :=
  { handlers := [{ id := ihdr_id, func := fun _ u => (7, u) }] }

/-- A callback that appends the view to a log and returns 0. -/
def log_view : xng_chunk_iteration_func_t (List xng_chunk_t) :=
  fun chunk log => (0, log ++ [chunk])

/-! ## Byte cursor, signed reads (`xng.cpp`) -/

/-- The conversion of an integer value to the signed type of `w` bits, as in
`int16_t(x)`: the value congruent to `x` modulo `2 ^ w` that the type holds. -/
def to_signed (w : Nat) (x : Int) : Int :=
  (x + 2 ^ (w - 1)) % 2 ^ w - 2 ^ (w - 1)

/-- The unsigned integer of `w` bits that has the storage of the signed `v`. -/
def storage_of_signed (w : Nat) (v : Int) : Nat :=
  (v % 2 ^ w).toNat

/-- The overload `endian_swap(const int16_t v)`. -/
def endian_swap_int16 (le : Bool) (v : Int) : Int :=
  to_signed 16
    (((byte_of_uint16 le (storage_of_signed 16 v) 0 <<< 8)
      ||| byte_of_uint16 le (storage_of_signed 16 v) 1 : Nat) : Int)

/-- The overload `endian_swap(const int32_t v)`. -/
def endian_swap_int32 (le : Bool) (v : Int) : Int :=
  to_signed 32
    (((byte_of_uint32 le (storage_of_signed 32 v) 0 <<< 24)
      ||| (byte_of_uint32 le (storage_of_signed 32 v) 1 <<< 16)
      ||| (byte_of_uint32 le (storage_of_signed 32 v) 2 <<< 8)
      ||| byte_of_uint32 le (storage_of_signed 32 v) 3 : Nat) : Int)

/-- The function `read_int8_t(filedata, next_filedata)`, reading at offset
`off`. -/
def read_int8_t (filedata : List Nat) (off : Nat) (next_filedata : Option Nat) :
    Except fault (Int × Option Nat) :=
  match filedata[off]? with
  | some b0 =>
    let val := to_signed 8 (b0 : Int)
    .ok (val, store_next next_filedata (off + 1))
  | none => .error .out_of_bounds

/-- The function `read_int16_t(filedata, next_filedata)`, reading at offset
`off`. -/
def read_int16_t (le : Bool) (filedata : List Nat) (off : Nat)
    (next_filedata : Option Nat) : Except fault (Int × Option Nat) :=
  match filedata[off]?, filedata[off + 1]? with
  | some b0, some b1 =>
    let val := to_signed 16 (load_uint16 le b0 b1 : Nat)
    let next_filedata := store_next next_filedata (off + 2)
    if le then .ok (endian_swap_int16 le val, next_filedata)
    else .ok (val, next_filedata)
  | _, _ => .error .out_of_bounds

/-- The function `read_int32_t(filedata, next_filedata)`, reading at offset
`off`. -/
def read_int32_t (le : Bool) (filedata : List Nat) (off : Nat)
    (next_filedata : Option Nat) : Except fault (Int × Option Nat) :=
  match filedata[off]?, filedata[off + 1]?, filedata[off + 2]?, filedata[off + 3]? with
  | some b0, some b1, some b2, some b3 =>
    let val := to_signed 32 (load_uint32 le b0 b1 b2 b3 : Nat)
    let next_filedata := store_next next_filedata (off + 4)
    if le then .ok (endian_swap_int32 le val, next_filedata)
    else .ok (val, next_filedata)
  | _, _, _, _ => .error .out_of_bounds

/-! ## Reference notions for the last claims -/

/-- The two's-complement signed reading, at width `w`, of an unsigned value. -/
def twos_complement (w u : Nat) : Int :=
  if u < 2 ^ (w - 1) then (u : Int) else (u : Int) - 2 ^ w

/-- A function applied to the value a call returns; faults and the reached
iteration bound are kept. -/
def map_result {α β : Type} (f : α → β) :
    Option (Except fault α) → Option (Except fault β)
  | none => none
  | some (.error e) => some (.error e)
  | some (.ok a) => some (.ok (f a))

/-- A callback that leaves the context as it is and returns `status`. -/
def constant_status (status : Int) : xng_chunk_iteration_func_t Unit :=
  fun _ u => (status, u)

/-! ## The C interface with a `size_t` of a given width -/

/-- The function `xng_get_next_chunk` on a target whose pointers and `size_t`
have `bits` bits: the step `data_iter += chunk.length` is taken modulo
`2 ^ bits`.  The addressable bytes are fewer than `2 ^ bits`, so the steps by 4
behind a read inside them do not wrap. -/
def xng_get_next_chunk_w (bits : Nat) (le : Bool) (data : List Nat) (off : Nat)
    (next_data : Option Nat) : Except fault (xng_chunk_t × Option Nat) :=
  let data_iter := off
  match read_uint32_t le data data_iter (some data_iter) with
  | .error e => .error e
  | .ok (length, slot) =>
    let data_iter := slot.getD data_iter
    match read_chunkid_t le data data_iter (some data_iter) with
    | .error e => .error e
    | .ok (id, slot) =>
      let data_iter := slot.getD data_iter
      let id := chunkid_t.of_raw le (id.raw le)
      let chunk_data := data_iter
      let data_iter := (data_iter + length) % 2 ^ bits
      match read_uint32_t le data data_iter (some data_iter) with
      | .error e => .error e
      | .ok (crc, slot) =>
        let data_iter := slot.getD data_iter
        .ok ({ id := id, length := length, crc := crc, data := chunk_data },
          store_next next_data data_iter)

/-- The loop of `xng_iterate_chunks` on a target with a `size_t` of `bits` bits:
`iter_length += xng_chunkheader_min_size + chunk.length` and `++chunk_count` are
taken modulo `2 ^ bits`.  `fuel` bounds the number of iterations; `none` means
that the loop has not ended within the bound. -/
def xng_iterate_chunks_loop_w {σ : Type} (bits : Nat) (le : Bool) (data : List Nat)
    (length : Nat) (xng_chunk_iterator : Option (xng_chunk_iteration_func_t σ)) :
    Nat → Nat → Nat → Nat → σ → Option (Except fault (Nat × σ))
  | 0, _, _, _, _ => none
  | fuel + 1, data_iter, iter_length, chunk_count, context =>
    if iter_length < length then
      match xng_get_next_chunk_w bits le data data_iter (some data_iter) with
      | .error e => some (.error e)
      | .ok (chunk, slot) =>
        let data_iter := slot.getD data_iter
        if chunk.id.is_zero then some (.ok (chunk_count, context))
        else
          let iter_length :=
            (iter_length + (xng_chunkheader_min_size + chunk.length) % 2 ^ bits) % 2 ^ bits
          let chunk_count := (chunk_count + 1) % 2 ^ bits
          let context :=
            match xng_chunk_iterator with
            | some f => (f chunk context).2
            | none => context
          xng_iterate_chunks_loop_w bits le data length xng_chunk_iterator fuel data_iter
            iter_length chunk_count context
    else some (.ok (chunk_count, context))

/-- The function `xng_iterate_chunks` on a target with a `size_t` of `bits`
bits, run for at most `fuel` iterations of its loop. -/
def xng_iterate_chunks_w {σ : Type} (bits : Nat) (ndebug le : Bool) (data : List Nat)
    (length : Nat) (xng_chunk_iterator : Option (xng_chunk_iteration_func_t σ)) (context : σ)
    (fuel : Nat) : Option (Except fault (Nat × σ)) :=
  if !ndebug && !(decide (length ≥ xng_chunkheader_min_size)) then some (.error .assert_failed)
  else xng_iterate_chunks_loop_w bits le data length xng_chunk_iterator fuel 0 0 0 context

/-- The iterations of the loop of `xng_iterate_chunks`, on a target with a
`size_t` of `bits` bits, that go on to a next one, among the first `fuel`
iterations: for each of them the value of `iter_length` at its start and the view
read.  The recursion is that of `xng_iterate_chunks_loop_w`. -/
def xng_iterate_chunks_steps_w (bits : Nat) (le : Bool) (data : List Nat) (length : Nat) :
    Nat → Nat → Nat → List (Nat × xng_chunk_t)
  | 0, _, _ => []
  | fuel + 1, data_iter, iter_length =>
    if iter_length < length then
      match xng_get_next_chunk_w bits le data data_iter (some data_iter) with
      | .error _ => []
      | .ok (chunk, slot) =>
        let data_iter := slot.getD data_iter
        if chunk.id.is_zero then []
        else
          (iter_length, chunk) ::
            xng_iterate_chunks_steps_w bits le data length fuel data_iter
              ((iter_length + (xng_chunkheader_min_size + chunk.length) % 2 ^ bits) % 2 ^ bits)
    else []

/-- A buffer of 20 bytes: a record tagged `AAAA` with an empty payload, and the
header of a record tagged `BBBB` whose length field is `FF FF FF F4`. -/
def wrap_buffer : List Nat :=
  [0, 0, 0, 0, 65, 65, 65, 65, 0, 0, 0, 0, 0xFF, 0xFF, 0xFF, 0xF4, 66, 66, 66, 66]

/-! ## Byte cursor: the value read and the position stored -/

theorem byte_of_load (le : Bool) (b0 b1 b2 b3 : Nat)
    (h0 : b0 < 256) (h1 : b1 < 256) (h2 : b2 < 256) (h3 : b3 < 256) :
    byte_of_uint32 le (load_uint32 le b0 b1 b2 b3) 0 = b0 ∧
    byte_of_uint32 le (load_uint32 le b0 b1 b2 b3) 1 = b1 ∧
    byte_of_uint32 le (load_uint32 le b0 b1 b2 b3) 2 = b2 ∧
    byte_of_uint32 le (load_uint32 le b0 b1 b2 b3) 3 = b3 := by
  cases le <;> simp only [byte_of_uint32, load_uint32, Nat.shiftRight_eq_div_pow] <;>
    norm_num <;> refine ⟨?_, ?_, ?_, ?_⟩ <;> omega

theorem of_raw_load (le : Bool) (b0 b1 b2 b3 : Nat)
    (h0 : b0 < 256) (h1 : b1 < 256) (h2 : b2 < 256) (h3 : b3 < 256) :
    chunkid_t.of_raw le (load_uint32 le b0 b1 b2 b3)
      = { type0 := b0, type1 := b1, type2 := b2, type3 := b3 } := by
  obtain ⟨e0, e1, e2, e3⟩ := byte_of_load le b0 b1 b2 b3 h0 h1 h2 h3
  simp only [chunkid_t.of_raw, e0, e1, e2, e3]

theorem or_bytes_eq_be32 (b0 b1 b2 b3 : Nat)
    (h0 : b0 < 256) (h1 : b1 < 256) (h2 : b2 < 256) (h3 : b3 < 256) :
    ((b0 <<< 24) ||| (b1 <<< 16) ||| (b2 <<< 8) ||| b3) % 2 ^ 32 = be32 b0 b1 b2 b3 := by
  have s3 : b2 <<< 8 ||| b3 = 2 ^ 8 * b2 + b3 := by
    rw [Nat.shiftLeft_eq, Nat.mul_comm, ← Nat.mul_add_lt_is_or (by omega)]
  have s2 : b1 <<< 16 ||| (2 ^ 8 * b2 + b3) = 2 ^ 16 * b1 + (2 ^ 8 * b2 + b3) := by
    rw [Nat.shiftLeft_eq, Nat.mul_comm, ← Nat.mul_add_lt_is_or (by omega)]
  have s1 : b0 <<< 24 ||| (2 ^ 16 * b1 + (2 ^ 8 * b2 + b3))
      = 2 ^ 24 * b0 + (2 ^ 16 * b1 + (2 ^ 8 * b2 + b3)) := by
    rw [Nat.shiftLeft_eq, Nat.mul_comm, ← Nat.mul_add_lt_is_or (by omega)]
  rw [Nat.or_assoc, Nat.or_assoc, s3, s2, s1]
  simp only [be32]
  omega

theorem endian_swap_load (b0 b1 b2 b3 : Nat)
    (h0 : b0 < 256) (h1 : b1 < 256) (h2 : b2 < 256) (h3 : b3 < 256) :
    endian_swap_uint32 true (load_uint32 true b0 b1 b2 b3) = be32 b0 b1 b2 b3 := by
  obtain ⟨e0, e1, e2, e3⟩ := byte_of_load true b0 b1 b2 b3 h0 h1 h2 h3
  simp only [endian_swap_uint32, e0, e1, e2, e3]
  exact or_bytes_eq_be32 b0 b1 b2 b3 h0 h1 h2 h3

theorem byte_at_lt {filedata : List Nat} (hb : bytes_ok filedata) (i : Nat) :
    byte_at filedata i < 256 := by
  unfold byte_at
  by_cases h : i < filedata.length
  · rw [List.getD_eq_getElem _ _ h]
    exact hb _ (List.getElem_mem h)
  · rw [List.getD_eq_default _ _ (by omega)]
    decide

theorem getElem?_eq_byte_at {filedata : List Nat} {i : Nat} (h : i < filedata.length) :
    filedata[i]? = some (byte_at filedata i) := by
  unfold byte_at
  rw [List.getD_eq_getElem _ _ h, List.getElem?_eq_getElem h]

/-- `read_uint32_t` inside the addressable bytes returns the big-endian value and
stores `off + 4`. -/
theorem read_uint32_t_eq (le : Bool) (filedata : List Nat) (off : Nat) (slot : Option Nat)
    (hb : bytes_ok filedata) (h : off + 4 ≤ filedata.length) :
    read_uint32_t le filedata off slot
      = .ok (be32 (byte_at filedata off) (byte_at filedata (off + 1))
          (byte_at filedata (off + 2)) (byte_at filedata (off + 3)), store_next slot (off + 4)) := by
  have l0 := byte_at_lt hb off
  have l1 := byte_at_lt hb (off + 1)
  have l2 := byte_at_lt hb (off + 2)
  have l3 := byte_at_lt hb (off + 3)
  simp only [read_uint32_t, getElem?_eq_byte_at (show off < filedata.length by omega),
    getElem?_eq_byte_at (show off + 1 < filedata.length by omega),
    getElem?_eq_byte_at (show off + 2 < filedata.length by omega),
    getElem?_eq_byte_at (show off + 3 < filedata.length by omega)]
  cases le
  · simp [load_uint32, be32]
  · simp [endian_swap_load _ _ _ _ l0 l1 l2 l3]

theorem read_uint32_t_oob (le : Bool) (filedata : List Nat) (off : Nat) (slot : Option Nat)
    (h : filedata.length < off + 4) :
    read_uint32_t le filedata off slot = .error .out_of_bounds := by
  unfold read_uint32_t
  have : filedata[off + 3]? = none := List.getElem?_eq_none (by omega)
  rw [this]
  split
  · rename_i h3 ; exact absurd h3 (by simp)
  · rfl

theorem read_chunkid_t_eq (le : Bool) (filedata : List Nat) (off : Nat) (slot : Option Nat)
    (hb : bytes_ok filedata) (h : off + 4 ≤ filedata.length) :
    read_chunkid_t le filedata off slot
      = .ok ({ type0 := byte_at filedata off, type1 := byte_at filedata (off + 1),
               type2 := byte_at filedata (off + 2), type3 := byte_at filedata (off + 3) },
          store_next slot (off + 4)) := by
  simp only [read_chunkid_t, getElem?_eq_byte_at (show off < filedata.length by omega),
    getElem?_eq_byte_at (show off + 1 < filedata.length by omega),
    getElem?_eq_byte_at (show off + 2 < filedata.length by omega),
    getElem?_eq_byte_at (show off + 3 < filedata.length by omega),
    of_raw_load le _ _ _ _ (byte_at_lt hb off) (byte_at_lt hb (off + 1))
      (byte_at_lt hb (off + 2)) (byte_at_lt hb (off + 3))]

/-- The chunk that `read_chunk` assembles from the bytes at `o`. -/
theorem read_chunk_eq (le : Bool) (filedata : List Nat) (o : Nat) (slot : Option Nat)
    (hb : bytes_ok filedata)
    (h : o + 12 + be32 (byte_at filedata o) (byte_at filedata (o + 1))
          (byte_at filedata (o + 2)) (byte_at filedata (o + 3)) ≤ filedata.length) :
    read_chunk le filedata o slot
      = .ok ({ id := { type0 := byte_at filedata (o + 4), type1 := byte_at filedata (o + 5),
                       type2 := byte_at filedata (o + 6), type3 := byte_at filedata (o + 7) },
               length := be32 (byte_at filedata o) (byte_at filedata (o + 1))
                 (byte_at filedata (o + 2)) (byte_at filedata (o + 3)),
               crc := be32
                 (byte_at filedata (o + 8 + be32 (byte_at filedata o) (byte_at filedata (o + 1))
                   (byte_at filedata (o + 2)) (byte_at filedata (o + 3))))
                 (byte_at filedata (o + 9 + be32 (byte_at filedata o) (byte_at filedata (o + 1))
                   (byte_at filedata (o + 2)) (byte_at filedata (o + 3))))
                 (byte_at filedata (o + 10 + be32 (byte_at filedata o) (byte_at filedata (o + 1))
                   (byte_at filedata (o + 2)) (byte_at filedata (o + 3))))
                 (byte_at filedata (o + 11 + be32 (byte_at filedata o) (byte_at filedata (o + 1))
                   (byte_at filedata (o + 2)) (byte_at filedata (o + 3)))),
               data := (filedata.drop (o + 8)).take (be32 (byte_at filedata o)
                 (byte_at filedata (o + 1)) (byte_at filedata (o + 2)) (byte_at filedata (o + 3))) },
          store_next slot (o + 8 + be32 (byte_at filedata o) (byte_at filedata (o + 1))
            (byte_at filedata (o + 2)) (byte_at filedata (o + 3)) + 4)) := by
  generalize hL : be32 (byte_at filedata o) (byte_at filedata (o + 1))
          (byte_at filedata (o + 2)) (byte_at filedata (o + 3)) = L at h ⊢
  unfold read_chunk
  simp only [read_uint32_t_eq le filedata o _ hb (by omega), hL, store_next, Option.map_some',
    Option.getD_some, read_chunkid_t_eq le filedata (o + 4) _ hb (by omega), copy_range]
  rw [if_pos (by omega)]
  simp only [read_uint32_t_eq le filedata (o + 4 + 4 + L) _ hb (by omega), store_next,
    Option.map_some', Option.getD_some]
  have e1 : o + 4 + 4 = o + 8 := by omega
  have e2 : o + 4 + 1 = o + 5 := by omega
  have e3 : o + 4 + 2 = o + 6 := by omega
  have e4 : o + 4 + 3 = o + 7 := by omega
  have e5 : o + 8 + L + 1 = o + 9 + L := by omega
  have e6 : o + 8 + L + 2 = o + 10 + L := by omega
  have e7 : o + 8 + L + 3 = o + 11 + L := by omega
  simp only [e1, e2, e3, e4, e5, e6, e7]


/-! ## Wire records are read back -/

theorem byte_at_append_right (pre xs : List Nat) (i : Nat) :
    byte_at (pre ++ xs) (pre.length + i) = byte_at xs i := by
  unfold byte_at
  simp [List.getD_eq_getElem?_getD, List.getElem?_append_right]

theorem bytes_ok_append {xs ys : List Nat} :
    bytes_ok (xs ++ ys) ↔ bytes_ok xs ∧ bytes_ok ys := by
  simp only [bytes_ok, List.mem_append]
  constructor
  · intro h
    exact ⟨fun b hb => h b (Or.inl hb), fun b hb => h b (Or.inr hb)⟩
  · rintro ⟨h1, h2⟩ b (hb | hb)
    · exact h1 b hb
    · exact h2 b hb

theorem bytes_ok_be32_bytes (v : Nat) : bytes_ok (be32_bytes v) := by
  intro b hb
  simp only [be32_bytes, List.mem_cons, List.mem_singleton, List.not_mem_nil, or_false] at hb
  rcases hb with h | h | h | h <;> omega

theorem be32_be32_bytes (v : Nat) (h : v < 2 ^ 32) :
    be32 (v / 2 ^ 24 % 256) (v / 2 ^ 16 % 256) (v / 2 ^ 8 % 256) (v % 256) = v := by
  simp only [be32]
  omega

theorem wire_record_length (c : chunk_t) (h : c.data.length = c.length) :
    (wire_record c).length = 12 + c.length := by
  simp only [wire_record, be32_bytes, List.length_append, List.length_cons, List.length_nil, h]
  omega

theorem bytes_ok_wire_record (c : chunk_t) (h : c.well_formed) : bytes_ok (wire_record c) := by
  have hb := h.1
  simp only [chunk_t.tag_and_data] at hb
  obtain ⟨ht, hd⟩ := bytes_ok_append.1 hb
  simp only [wire_record]
  exact bytes_ok_append.2 ⟨bytes_ok_append.2 ⟨bytes_ok_append.2 ⟨bytes_ok_be32_bytes _, ht⟩, hd⟩,
    bytes_ok_be32_bytes _⟩

/-- A record inside the addressable bytes is read back as its chunk. -/
theorem read_chunk_wire_record (le : Bool) (pre post : List Nat) (c : chunk_t) (slot : Option Nat)
    (hpre : bytes_ok pre) (hpost : bytes_ok post) (hc : c.well_formed) :
    read_chunk le (pre ++ (wire_record c ++ post)) pre.length slot
      = .ok (c, store_next slot (pre.length + (12 + c.length))) := by
  obtain ⟨hb, hlen, hL, hcrc⟩ := hc
  have hw := bytes_ok_wire_record c ⟨hb, hlen, hL, hcrc⟩
  have hall : bytes_ok (pre ++ (wire_record c ++ post)) :=
    bytes_ok_append.2 ⟨hpre, bytes_ok_append.2 ⟨hw, hpost⟩⟩
  have hshape : wire_record c ++ post
      = (c.length / 2 ^ 24 % 256) :: (c.length / 2 ^ 16 % 256) :: (c.length / 2 ^ 8 % 256)
        :: (c.length % 256) :: c.id.type0 :: c.id.type1 :: c.id.type2 :: c.id.type3
        :: (c.data ++ ((c.crc / 2 ^ 24 % 256) :: (c.crc / 2 ^ 16 % 256) :: (c.crc / 2 ^ 8 % 256)
        :: (c.crc % 256) :: post)) := by
    simp [wire_record, be32_bytes]
  have b : ∀ i, byte_at (pre ++ (wire_record c ++ post)) (pre.length + i)
      = byte_at (wire_record c ++ post) i := byte_at_append_right pre _
  have hlenL : be32 (byte_at (pre ++ (wire_record c ++ post)) pre.length)
      (byte_at (pre ++ (wire_record c ++ post)) (pre.length + 1))
      (byte_at (pre ++ (wire_record c ++ post)) (pre.length + 2))
      (byte_at (pre ++ (wire_record c ++ post)) (pre.length + 3)) = c.length := by
    have b0 := b 0
    rw [Nat.add_zero] at b0
    rw [b0, b 1, b 2, b 3, hshape]
    simp only [byte_at, List.getD_cons_zero, List.getD_cons_succ]
    exact be32_be32_bytes _ hL
  have htail : ∀ j, byte_at (wire_record c ++ post) (8 + c.length + j)
      = byte_at ((c.crc / 2 ^ 24 % 256) :: (c.crc / 2 ^ 16 % 256) :: (c.crc / 2 ^ 8 % 256)
        :: (c.crc % 256) :: post) j := by
    intro j
    rw [hshape, ← hlen]
    have : 8 + c.data.length + j = (c.data.length + j) + 8 := by omega
    rw [this]
    simp only [byte_at, List.getD_cons_succ]
    simp [List.getD_eq_getElem?_getD, List.getElem?_append_right]
  have hrd := read_chunk_eq le (pre ++ (wire_record c ++ post)) pre.length slot hall (by
    rw [hlenL]
    simp only [List.length_append, wire_record_length c hlen]
    omega)
  rw [hrd, hlenL]
  have i4 : pre.length + 8 + c.length = pre.length + (8 + c.length + 0) := by omega
  have i5 : pre.length + 9 + c.length = pre.length + (8 + c.length + 1) := by omega
  have i6 : pre.length + 10 + c.length = pre.length + (8 + c.length + 2) := by omega
  have i7 : pre.length + 11 + c.length = pre.length + (8 + c.length + 3) := by omega
  rw [i4, i5, i6, i7]
  simp only [b, htail]
  have hdata : List.take c.length (List.drop (pre.length + 8) (pre ++ (wire_record c ++ post)))
      = c.data := by
    rw [List.drop_append, hshape, ← hlen]
    simp
  rw [hdata, hshape]
  simp only [byte_at, List.getD_cons_zero, List.getD_cons_succ, be32_be32_bytes _ hcrc]
  have e : pre.length + (8 + c.length + 0) + 4 = pre.length + (12 + c.length) := by omega
  rw [e]


theorem wire_records_length (cs : List chunk_t) (h : ∀ c ∈ cs, c.well_formed) :
    (wire_records cs).length = 12 * cs.length + (cs.map chunk_t.length).sum := by
  induction cs with
  | nil => rfl
  | cons c cs ih =>
    have hc := h c (List.mem_cons_self c cs)
    have ih := ih (fun d hd => h d (List.mem_cons_of_mem c hd))
    simp only [wire_records, List.length_append, wire_record_length c hc.2.1, ih,
      List.length_cons, List.map_cons, List.sum_cons]
    omega

theorem bytes_ok_wire_records (cs : List chunk_t) (h : ∀ c ∈ cs, c.well_formed) :
    bytes_ok (wire_records cs) := by
  induction cs with
  | nil => intro b hb; cases hb
  | cons c cs ih =>
    exact bytes_ok_append.2 ⟨bytes_ok_wire_record c (h c (List.mem_cons_self c cs)),
      ih (fun d hd => h d (List.mem_cons_of_mem c hd))⟩

theorem read_chunks_loop_succ (le : Bool) (filedata : List Nat) (filedata_size fuel
    filedata_iter sum_read : Nat) (chunks : List chunk_t) :
    read_chunks_loop le filedata filedata_size (fuel + 1) filedata_iter sum_read chunks
      = if sum_read < filedata_size then
          match read_chunk le filedata filedata_iter (some filedata_iter) with
          | .error e => some (.error e)
          | .ok (chunk, slot) =>
            if chunk.id.is_zero then some (.ok chunks)
            else read_chunks_loop le filedata filedata_size fuel (slot.getD filedata_iter)
              (sum_read + chunk.length) (chunks ++ [chunk])
        else some (.ok chunks) := rfl

/-- The loop of `read_chunks` over records followed by anything: as long as the
guard holds it appends the chunks of the records and goes on behind them. -/
theorem read_chunks_loop_records (le : Bool) (filedata_size : Nat) (cs : List chunk_t) :
    ∀ (pre post : List Nat) (fuel sum_read : Nat) (chunks : List chunk_t),
      bytes_ok pre → bytes_ok post →
      (∀ c ∈ cs, c.well_formed ∧ c.id.is_zero = false) →
      (cs ≠ [] → sum_read + (cs.map chunk_t.length).sum < filedata_size + (cs.getLast?.map chunk_t.length).getD 0) →
      read_chunks_loop le (pre ++ (wire_records cs ++ post)) filedata_size (fuel + cs.length)
          pre.length sum_read chunks
        = read_chunks_loop le (pre ++ (wire_records cs ++ post)) filedata_size fuel
          (pre.length + (wire_records cs).length) (sum_read + (cs.map chunk_t.length).sum)
          (chunks ++ cs) := by
  induction cs with
  | nil =>
    intro pre post fuel sum_read chunks _ _ _ _
    simp [wire_records]
  | cons c cs ih =>
    intro pre post fuel sum_read chunks hpre hpost hcs hsum
    obtain ⟨hc, hz⟩ := hcs c (List.mem_cons_self c cs)
    have hcs2 : ∀ d ∈ cs, d.well_formed ∧ d.id.is_zero = false :=
      fun d hd => hcs d (List.mem_cons_of_mem c hd)
    have hguard : sum_read < filedata_size := by
      have := hsum (by simp)
      cases cs with
      | nil => simpa using this
      | cons d ds =>
        have hle : ((d :: ds).getLast?.map chunk_t.length).getD 0 ≤ ((d :: ds).map chunk_t.length).sum := by
          rw [List.getLast?_eq_getLast _ (by simp)]
          simp only [Option.map_some', Option.getD_some]
          exact List.single_le_sum (by simp) _ (List.mem_map_of_mem _ (List.getLast_mem _))
        simp only [List.getLast?_cons_cons, List.map_cons, List.sum_cons] at this hle ⊢
        omega
    have hfuel : fuel + (c :: cs).length = (fuel + cs.length) + 1 := by
      simp only [List.length_cons]; omega
    have hmem : pre ++ (wire_records (c :: cs) ++ post)
        = pre ++ (wire_record c ++ (wire_records cs ++ post)) := by
      simp only [wire_records, List.append_assoc]
    rw [hfuel, hmem, read_chunks_loop_succ, if_pos hguard, read_chunk_wire_record le pre _ c _ hpre
      (bytes_ok_append.2 ⟨bytes_ok_wire_records cs (fun d hd => (hcs2 d hd).1), hpost⟩) hc]
    simp only [store_next, Option.map_some', Option.getD_some, hz, Bool.false_eq_true, if_false]
    have hpl : pre.length + (12 + c.length) = (pre ++ wire_record c).length := by
      rw [List.length_append, wire_record_length c hc.2.1]
    have hmem2 : pre ++ (wire_record c ++ (wire_records cs ++ post))
        = (pre ++ wire_record c) ++ (wire_records cs ++ post) := by
      simp only [List.append_assoc]
    rw [hpl, hmem2, ih (pre ++ wire_record c) post fuel (sum_read + c.length) (chunks ++ [c])
      (bytes_ok_append.2 ⟨hpre, bytes_ok_wire_record c hc⟩) hpost hcs2 (by
        intro hne
        have := hsum (by simp)
        cases cs with
        | nil => exact absurd rfl hne
        | cons d ds =>
          simp only [List.getLast?_cons_cons, List.map_cons, List.sum_cons] at this ⊢
          omega)]
    simp only [wire_records, List.length_append, List.map_cons, List.sum_cons, List.append_assoc,
      List.singleton_append, Nat.add_assoc]


/-! ## The loop of `read_chunks` -/

theorem is_zero_iff (id : chunkid_t) :
    id.is_zero = true ↔ id = { type0 := 0, type1 := 0, type2 := 0, type3 := 0 } := by
  cases id with
  | mk a b c d => simp [chunkid_t.is_zero, and_assoc]

theorem is_zero_eq_false {id : chunkid_t}
    (h : id ≠ { type0 := 0, type1 := 0, type2 := 0, type3 := 0 }) : id.is_zero = false := by
  cases hz : id.is_zero
  · rfl
  · exact absurd ((is_zero_iff id).1 hz) h

theorem read_uint32_t_cases (le : Bool) (filedata : List Nat) (off : Nat) (slot : Option Nat) :
    (off + 4 ≤ filedata.length ∧
      ∃ v, read_uint32_t le filedata off slot = .ok (v, store_next slot (off + 4))) ∨
    (filedata.length < off + 4 ∧ read_uint32_t le filedata off slot = .error .out_of_bounds) := by
  by_cases h : off + 4 ≤ filedata.length
  · left
    refine ⟨h, ?_⟩
    simp only [read_uint32_t, List.getElem?_eq_getElem (show off < filedata.length by omega),
      List.getElem?_eq_getElem (show off + 1 < filedata.length by omega),
      List.getElem?_eq_getElem (show off + 2 < filedata.length by omega),
      List.getElem?_eq_getElem (show off + 3 < filedata.length by omega)]
    cases le
    · exact ⟨_, rfl⟩
    · exact ⟨_, rfl⟩
  · right
    exact ⟨by omega, read_uint32_t_oob le filedata off slot (by omega)⟩

theorem read_chunkid_t_cases (le : Bool) (filedata : List Nat) (off : Nat) (slot : Option Nat) :
    (off + 4 ≤ filedata.length ∧
      ∃ v, read_chunkid_t le filedata off slot = .ok (v, store_next slot (off + 4))) ∨
    (filedata.length < off + 4 ∧ read_chunkid_t le filedata off slot = .error .out_of_bounds) := by
  by_cases h : off + 4 ≤ filedata.length
  · left
    refine ⟨h, ?_⟩
    simp only [read_chunkid_t, List.getElem?_eq_getElem (show off < filedata.length by omega),
      List.getElem?_eq_getElem (show off + 1 < filedata.length by omega),
      List.getElem?_eq_getElem (show off + 2 < filedata.length by omega),
      List.getElem?_eq_getElem (show off + 3 < filedata.length by omega)]
    exact ⟨_, rfl⟩
  · right
    refine ⟨by omega, ?_⟩
    unfold read_chunkid_t
    have : filedata[off + 3]? = none := List.getElem?_eq_none (by omega)
    rw [this]
    split
    · rename_i h3 ; exact absurd h3 (by simp)
    · rfl

theorem read_chunk_oob (le : Bool) (filedata : List Nat) (off : Nat) (slot : Option Nat)
    (h : filedata.length < off + 4) :
    read_chunk le filedata off slot = .error .out_of_bounds := by
  unfold read_chunk
  simp only [read_uint32_t_oob le filedata off _ h]

/-- A successful `read_chunk` has read at least twelve bytes, all of them inside
the addressable bytes, and stores the position behind them. -/
theorem read_chunk_advances (le : Bool) (filedata : List Nat) (off : Nat) (chunk : chunk_t)
    (slot0 slot : Option Nat) (h : read_chunk le filedata off slot0 = .ok (chunk, slot)) :
    ∃ n, slot = store_next slot0 n ∧ off + 12 ≤ n ∧ n ≤ filedata.length := by
  simp only [read_chunk] at h
  rcases read_uint32_t_cases le filedata off (some off) with ⟨-, v1, r1⟩ | ⟨-, r1⟩
  swap
  · rw [r1] at h; cases h
  rw [r1] at h
  simp only [store_next, Option.map_some', Option.getD_some] at h
  rcases read_chunkid_t_cases le filedata (off + 4) (some (off + 4)) with ⟨-, v2, r2⟩ | ⟨-, r2⟩
  swap
  · rw [r2] at h; cases h
  rw [r2] at h
  simp only [store_next, Option.map_some', Option.getD_some] at h
  cases r3 : copy_range filedata (off + 4 + 4) v1 with
  | error e => rw [r3] at h; cases h
  | ok data =>
    rw [r3] at h
    simp only at h
    rcases read_uint32_t_cases le filedata (off + 4 + 4 + v1) (some (off + 4 + 4 + v1))
      with ⟨h4, v4, r4⟩ | ⟨-, r4⟩
    swap
    · rw [r4] at h; cases h
    rw [r4] at h
    simp only [store_next, Option.map_some', Option.getD_some, Except.ok.injEq,
      Prod.mk.injEq] at h
    exact ⟨off + 4 + 4 + v1 + 4, h.2.symm, by omega, h4⟩

/-- The loop of `read_chunks` ends before its fuel does, when the fuel exceeds
the number of bytes behind the cursor. -/
theorem read_chunks_loop_returns (le : Bool) (filedata : List Nat) (filedata_size : Nat) :
    ∀ (fuel filedata_iter sum_read : Nat) (chunks : List chunk_t),
      filedata_iter ≤ filedata.length → filedata.length < fuel + filedata_iter →
      ∃ r, read_chunks_loop le filedata filedata_size fuel filedata_iter sum_read chunks
        = some r := by
  intro fuel
  induction fuel with
  | zero =>
    intro filedata_iter sum_read chunks hi hf
    omega
  | succ fuel ih =>
    intro filedata_iter sum_read chunks hi hf
    rw [read_chunks_loop_succ]
    by_cases hg : sum_read < filedata_size
    · rw [if_pos hg]
      cases hr : read_chunk le filedata filedata_iter (some filedata_iter) with
      | error e => exact ⟨_, rfl⟩
      | ok v =>
        obtain ⟨chunk, slot⟩ := v
        obtain ⟨n, hn, hlo, hhi⟩ := read_chunk_advances le filedata filedata_iter chunk _ slot hr
        subst hn
        simp only [store_next, Option.map_some', Option.getD_some]
        cases hz : chunk.id.is_zero
        · simp only [Bool.false_eq_true, if_false]
          exact ih n _ _ hhi (by omega)
        · exact ⟨_, rfl⟩
    · rw [if_neg hg]
      exact ⟨_, rfl⟩

/-- The function `read_chunks` returns or faults on every input: the iteration
bound of the embedding is never reached. -/
theorem read_chunks_returns (le : Bool) (filedata : List Nat) (filedata_size : Nat) :
    ∃ r, read_chunks le filedata filedata_size = some r :=
  read_chunks_loop_returns le filedata filedata_size _ 0 0 [] (Nat.zero_le _) (by omega)



/-! ## Claims on the chunk codec -/

/-- Reading the concatenation of the records of a non-empty chunk list, with the
length of the buffer as `filedata_size`, runs off the buffer: `sum_read` has
counted the payload bytes only, so the guard still holds behind the last
record. -/
theorem read_chunks_concat_overruns (le : Bool) (cs : List chunk_t) (hne : cs ≠ [])
    (hcs : ∀ c ∈ cs, c.well_formed ∧
      c.id ≠ { type0 := 0, type1 := 0, type2 := 0, type3 := 0 }) :
    read_chunks le (wire_records cs) (wire_records cs).length
      = some (.error .out_of_bounds) := by
  have hwf : ∀ c ∈ cs, c.well_formed := fun c hc => (hcs c hc).1
  have hlen := wire_records_length cs hwf
  have hpos : 0 < cs.length := List.length_pos.2 hne
  have hloop := read_chunks_loop_records le (wire_records cs).length cs [] []
    ((wire_records cs).length + 1 - cs.length) 0 []
    (by intro b hb; cases hb) (by intro b hb; cases hb)
    (fun c hc => ⟨(hcs c hc).1, is_zero_eq_false (hcs c hc).2⟩)
    (by intro _; omega)
  simp only [List.nil_append, List.append_nil, List.length_nil, Nat.zero_add] at hloop
  have hfuel : (wire_records cs).length + 1 - cs.length + cs.length
      = (wire_records cs).length + 1 := by omega
  rw [hfuel] at hloop
  unfold read_chunks
  rw [hloop]
  obtain ⟨f, hf⟩ : ∃ f, (wire_records cs).length + 1 - cs.length = f + 1 :=
    ⟨(wire_records cs).length - cs.length, by omega⟩
  rw [hf, read_chunks_loop_succ, if_pos (by omega),
    read_chunk_oob le _ _ _ (by omega)]

/-- C1, at the buffer of the scenario: `read_chunks` on the one-record buffer
`00 00 00 04 'T' 'E' 'S' 'T' DE AD BE EF crc` with its length 16 as
`filedata_size` does not yield the one chunk; in the source it reads a second
record behind the buffer.  When the memory goes on behind the 16 bytes with
further records, these are returned as well although they lie outside
`filedata_size`. -/
theorem read_chunks_test_buffer (le : Bool) :
    wire_records [test_chunk] = test_buffer ∧ test_buffer.length = 16 ∧
    read_chunks le test_buffer 16 = some (.error .out_of_bounds) ∧
    read_chunks le (test_buffer ++ test_buffer ++ wire_record zero_chunk) 16
      = some (.ok [test_chunk, test_chunk]) := by
  cases le <;> exact ⟨rfl, rfl, rfl, rfl⟩

/-- C2: when at least `12 + L` bytes are available from `o`, `L` being the
big-endian value of bytes `o..o+3`, `read_chunk` returns a chunk with length
`L`, with the bytes `o+4..o+7` as tag in buffer order, with exactly the bytes
`o+8..o+8+L-1` as data, and with the big-endian value of the bytes
`o+8+L..o+11+L` as crc. -/
theorem read_chunk_fields (le : Bool) (filedata : List Nat) (o L : Nat) (slot : Option Nat)
    (hb : bytes_ok filedata)
    (hL : L = be32 (byte_at filedata o) (byte_at filedata (o + 1)) (byte_at filedata (o + 2))
      (byte_at filedata (o + 3)))
    (h : o + 12 + L ≤ filedata.length) :
    ∃ chunk next, read_chunk le filedata o slot = .ok (chunk, next) ∧
      chunk.length = L ∧
      chunk.id = { type0 := byte_at filedata (o + 4), type1 := byte_at filedata (o + 5),
                   type2 := byte_at filedata (o + 6), type3 := byte_at filedata (o + 7) } ∧
      chunk.data.length = L ∧
      (∀ i, i < L → chunk.data[i]? = filedata[o + 8 + i]?) ∧
      chunk.crc = be32 (byte_at filedata (o + 8 + L)) (byte_at filedata (o + 9 + L))
        (byte_at filedata (o + 10 + L)) (byte_at filedata (o + 11 + L)) := by
  subst hL
  refine ⟨_, _, read_chunk_eq le filedata o slot hb h, rfl, rfl, ?_, ?_, rfl⟩
  · simp only [List.length_take, List.length_drop]
    omega
  · intro i hi
    simp only [List.getElem?_take, hi, if_true, List.getElem?_drop]

/-- Witness of C2: the record of the scenario at offset 0. -/
theorem read_chunk_fields_witness :
    ∃ chunk next, read_chunk true test_buffer 0 none = .ok (chunk, next) ∧
      chunk.length = 4 ∧
      chunk.id = { type0 := byte_at test_buffer (0 + 4), type1 := byte_at test_buffer (0 + 5),
                   type2 := byte_at test_buffer (0 + 6), type3 := byte_at test_buffer (0 + 7) } ∧
      chunk.data.length = 4 ∧
      (∀ i, i < 4 → chunk.data[i]? = test_buffer[0 + 8 + i]?) ∧
      chunk.crc = be32 (byte_at test_buffer (0 + 8 + 4)) (byte_at test_buffer (0 + 9 + 4))
        (byte_at test_buffer (0 + 10 + 4)) (byte_at test_buffer (0 + 11 + 4)) :=
  read_chunk_fields true test_buffer 0 4 none (by decide) (by decide) (by decide)

/-- C3: at an offset `o` where a complete record of declared length `L` starts,
`read_chunk` stores `o + chunkheader_size + L + 4`, the offset behind the crc,
as next position; with a null `next_filedata` it returns the same chunk and
stores nothing. -/
theorem read_chunk_next (le : Bool) (filedata : List Nat) (o L p : Nat)
    (hb : bytes_ok filedata)
    (hL : L = be32 (byte_at filedata o) (byte_at filedata (o + 1)) (byte_at filedata (o + 2))
      (byte_at filedata (o + 3)))
    (h : o + 12 + L ≤ filedata.length) :
    ∃ chunk, read_chunk le filedata o (some p) = .ok (chunk, some (o + chunkheader_size + L + 4)) ∧
      read_chunk le filedata o none = .ok (chunk, none) ∧
      o + chunkheader_size + L + 4 = o + 8 + L + 4 := by
  subst hL
  exact ⟨_, read_chunk_eq le filedata o (some p) hb h, read_chunk_eq le filedata o none hb h, rfl⟩

/-- Witness of C3: the record of the scenario at offset 0 ends at 16. -/
theorem read_chunk_next_witness :
    ∃ chunk, read_chunk true test_buffer 0 (some 0) = .ok (chunk, some (0 + chunkheader_size + 4 + 4)) ∧
      read_chunk true test_buffer 0 none = .ok (chunk, none) ∧
      0 + chunkheader_size + 4 + 4 = 0 + 8 + 4 + 4 :=
  read_chunk_next true test_buffer 0 4 0 (by decide) (by decide) (by decide)

/-- C4: on a buffer made of the records of `cs` (non-zero tags), one complete
record with an all-zero tag, and any trailing bytes, `read_chunks` returns
exactly `cs`, in order: the zero-tag record is not added and the bytes behind it
play no part. -/
theorem read_chunks_sentinel (le : Bool) (cs : List chunk_t) (z : chunk_t) (trailing : List Nat)
    (hcs : ∀ c ∈ cs, c.well_formed ∧
      c.id ≠ { type0 := 0, type1 := 0, type2 := 0, type3 := 0 })
    (hz : z.well_formed) (hz0 : z.id = { type0 := 0, type1 := 0, type2 := 0, type3 := 0 })
    (ht : bytes_ok trailing) :
    read_chunks le (wire_records cs ++ wire_record z ++ trailing)
      (wire_records cs ++ wire_record z ++ trailing).length = some (.ok cs) := by
  have hwf : ∀ c ∈ cs, c.well_formed := fun c hc => (hcs c hc).1
  have hlen := wire_records_length cs hwf
  have hzlen := wire_record_length z hz.2.1
  have htot : (wire_records cs ++ wire_record z ++ trailing).length
      = (wire_records cs).length + (12 + z.length) + trailing.length := by
    simp only [List.length_append, hzlen]
  have hlast : cs ≠ [] →
      (cs.getLast?.map chunk_t.length).getD 0 ≤ (cs.map chunk_t.length).sum := by
    intro hne
    rw [List.getLast?_eq_getLast _ hne]
    simp only [Option.map_some', Option.getD_some]
    exact List.single_le_sum (by simp) _ (List.mem_map_of_mem _ (List.getLast_mem _))
  have hloop := read_chunks_loop_records le
    (wire_records cs ++ wire_record z ++ trailing).length cs [] (wire_record z ++ trailing)
    ((wire_records cs ++ wire_record z ++ trailing).length + 1 - cs.length) 0 []
    (by intro b hb; cases hb) (bytes_ok_append.2 ⟨bytes_ok_wire_record z hz, ht⟩)
    (fun c hc => ⟨(hcs c hc).1, is_zero_eq_false (hcs c hc).2⟩)
    (by intro hne; have := hlast hne; omega)
  simp only [List.nil_append, List.length_nil, Nat.zero_add] at hloop
  have hfuel : (wire_records cs ++ wire_record z ++ trailing).length + 1 - cs.length + cs.length
      = (wire_records cs ++ wire_record z ++ trailing).length + 1 := by omega
  rw [hfuel] at hloop
  unfold read_chunks
  obtain ⟨f, hf⟩ : ∃ f, (wire_records cs ++ wire_record z ++ trailing).length + 1 - cs.length
      = f + 1 := ⟨(wire_records cs ++ wire_record z ++ trailing).length - cs.length, by omega⟩
  simp only [List.append_assoc] at hloop hf htot ⊢
  rw [hloop]
  rw [hf, read_chunks_loop_succ, if_pos (by omega),
    read_chunk_wire_record le (wire_records cs) trailing z _ (bytes_ok_wire_records cs hwf) ht hz]
  simp only [(is_zero_iff z.id).2 hz0, if_true]

/-- Witness of C4: the record of the scenario, a zero-tag record and three
trailing bytes. -/
theorem read_chunks_sentinel_witness :
    read_chunks true (wire_records [test_chunk] ++ wire_record zero_chunk ++ [1, 2, 3])
      (wire_records [test_chunk] ++ wire_record zero_chunk ++ [1, 2, 3]).length
      = some (.ok [test_chunk]) :=
  read_chunks_sentinel true [test_chunk] zero_chunk [1, 2, 3] (by decide) (by decide) rfl
    (by decide)



/-! ## The table-driven CRC-32 is the bit-at-a-time CRC-32 -/

set_option maxRecDepth 100000 in
/-- Every literal of `crc32_table` is eight bit steps applied to its index. -/
theorem crc32_table_eq : ∀ n, n < 256 → crc32_table.getD n 0 = crc32_bit_step^[8] n := by
  decide

theorem crc32_bit_step_eq (c : Nat) :
    crc32_bit_step c = (c / 2) ^^^ (if c % 2 = 1 then 0xEDB88320 else 0) := by
  unfold crc32_bit_step
  split <;> simp [Nat.shiftRight_eq_div_pow]

/-- A bit step is linear over XOR. -/
theorem crc32_bit_step_xor (a b : Nat) :
    crc32_bit_step (a ^^^ b) = crc32_bit_step a ^^^ crc32_bit_step b := by
  simp only [crc32_bit_step_eq, Nat.xor_div_two]
  have hp : (a ^^^ b) % 2 = 1 ↔ ¬ (a % 2 = 1 ↔ b % 2 = 1) := Nat.xor_mod_two_eq_one
  by_cases ha : a % 2 = 1 <;> by_cases hb : b % 2 = 1 <;>
    simp only [hp, ha, hb, iff_true, iff_false, not_true_eq_false, not_false_eq_true, if_true,
      if_false, Nat.xor_zero, true_iff, false_iff]
  · rw [Nat.xor_assoc (a / 2) 3988292384, ← Nat.xor_assoc 3988292384, Nat.xor_comm 3988292384 (b / 2),
      Nat.xor_assoc (b / 2), Nat.xor_self, Nat.xor_zero]
  · rw [Nat.xor_assoc, Nat.xor_comm (b / 2), ← Nat.xor_assoc]
  · rw [Nat.xor_assoc]

theorem crc32_bit_steps_xor (k a b : Nat) :
    crc32_bit_step^[k] (a ^^^ b) = crc32_bit_step^[k] a ^^^ crc32_bit_step^[k] b := by
  induction k generalizing a b with
  | zero => rfl
  | succ k ih => rw [Function.iterate_succ_apply, Function.iterate_succ_apply,
      Function.iterate_succ_apply, crc32_bit_step_xor, ih]

/-- Bit steps on a register whose low bits are clear only shift. -/
theorem crc32_bit_steps_shifted (k h : Nat) : crc32_bit_step^[k] (h * 2 ^ k) = h := by
  induction k with
  | zero => simp
  | succ k ih =>
    rw [Function.iterate_succ_apply]
    have e : h * 2 ^ (k + 1) = 2 * (h * 2 ^ k) := by rw [Nat.pow_succ]; ring
    have : crc32_bit_step (h * 2 ^ (k + 1)) = h * 2 ^ k := by
      rw [e, crc32_bit_step_eq, if_neg (by omega), Nat.xor_zero]
      omega
    rw [this, ih]

theorem split_low_byte (x : Nat) : x = (x &&& 0xff) ^^^ ((x / 256) * 2 ^ 8) := by
  apply Nat.eq_of_testBit_eq
  intro i
  have h255 : (255 : Nat) = 2 ^ 8 - 1 := by norm_num
  rw [Nat.testBit_xor, Nat.testBit_and, h255, Nat.testBit_two_pow_sub_one,
    ← Nat.shiftLeft_eq, Nat.testBit_shiftLeft]
  have h256 : (256 : Nat) = 2 ^ 8 := by norm_num
  rw [h256, ← Nat.shiftRight_eq_div_pow, Nat.testBit_shiftRight]
  by_cases hi : i < 8
  · have : ¬ (i ≥ 8) := by omega
    simp [hi, this]
  · have h8 : i ≥ 8 := by omega
    have e : 8 + (i - 8) = i := by omega
    simp [hi, h8, e]

/-- The table lookup of `compute_crc32` is eight bit steps on the register with
the byte XORed into its low 8 bits. -/
theorem crc32_update_eq (r byte : Nat) (hb : byte < 256) :
    crc32_update r byte = crc32_bit_step^[8] (r ^^^ byte) := by
  have hidx : (r ^^^ byte) &&& 0xff < 256 := by
    have h255 : (255 : Nat) = 2 ^ 8 - 1 := by norm_num
    rw [h255, Nat.and_pow_two_sub_one_eq_mod]
    exact Nat.mod_lt _ (by norm_num)
  have hhigh : (r ^^^ byte) / 256 = r >>> 8 := by
    have h256 : (256 : Nat) = 2 ^ 8 := by norm_num
    rw [h256, ← Nat.shiftRight_eq_div_pow]
    apply Nat.eq_of_testBit_eq
    intro i
    rw [Nat.testBit_shiftRight, Nat.testBit_shiftRight, Nat.testBit_xor,
      Nat.testBit_lt_two_pow (x := byte) (i := 8 + i)
        (lt_of_lt_of_le hb (by rw [h256]; exact Nat.pow_le_pow_right (by norm_num) (by omega)))]
    simp
  conv_rhs => rw [split_low_byte (r ^^^ byte)]
  rw [crc32_bit_steps_xor, crc32_bit_steps_shifted, ← crc32_table_eq _ hidx, hhigh]
  rfl

theorem foldl_crc32_update_eq (data : List Nat) (hd : bytes_ok data) (r : Nat) :
    data.foldl crc32_update r
      = data.foldl (fun r byte => crc32_bit_step^[8] (r ^^^ byte)) r := by
  induction data generalizing r with
  | nil => rfl
  | cons b bs ih =>
    simp only [List.foldl_cons]
    rw [crc32_update_eq r b (hd b (List.mem_cons_self b bs)),
      ih (fun x hx => hd x (List.mem_cons_of_mem b hx))]

/-- C5: on every byte sequence `compute_crc32` is the bit-at-a-time CRC-32
(register `0xFFFFFFFF`, each byte XORed into the low 8 bits, then 8 times a
right shift with an XOR of `0xEDB88320` when the bit shifted out was 1, final
XOR with `0xFFFFFFFF`); the empty sequence gives 0 and the ASCII bytes of
`123456789` give `0xCBF43926`. -/
theorem compute_crc32_eq_bitwise :
    (∀ data : List Nat, bytes_ok data → compute_crc32 data = crc32_bitwise data) ∧
    compute_crc32 [] = 0 ∧ compute_crc32 check_string = 0xCBF43926 := by
  refine ⟨?_, rfl, rfl⟩
  intro data hd
  simp only [compute_crc32, crc32_bitwise, foldl_crc32_update_eq data hd]

/-- Witness of C5: the eight bytes `TEST DE AD BE EF`. -/
theorem compute_crc32_eq_bitwise_witness :
    bytes_ok test_chunk.tag_and_data ∧
    compute_crc32 test_chunk.tag_and_data = crc32_bitwise test_chunk.tag_and_data :=
  ⟨by decide, compute_crc32_eq_bitwise.1 test_chunk.tag_and_data (by decide)⟩



/-! ## Claims on the integrity checker -/

theorem check_chunk_eq (ndebug : Bool) (chunk : chunk_t) (f : crc32computationfunc_t) :
    check_chunk ndebug chunk (some f) = .ok (chunk.crc == f chunk.tag_and_data) := rfl

/-- C6: for a chunk and a CRC function `f`, `check_chunk` returns, and returns
true exactly when `chunk.crc` equals `f` on the four tag bytes followed by the
payload bytes; a chunk whose crc was set to `compute_crc32 (tag ++ payload)`
passes with the default function. -/
theorem check_chunk_iff (ndebug : Bool) (chunk : chunk_t) (f : crc32computationfunc_t) :
    (∃ b, check_chunk ndebug chunk (some f) = .ok b) ∧
    (check_chunk ndebug chunk (some f) = .ok true ↔
      chunk.crc = f ([chunk.id.type0, chunk.id.type1, chunk.id.type2, chunk.id.type3]
        ++ chunk.data)) ∧
    check_chunk ndebug
      { chunk with crc := (compute_crc32
          ([chunk.id.type0, chunk.id.type1, chunk.id.type2, chunk.id.type3] ++ chunk.data)) }
      (some compute_crc32) = .ok true := by
  refine ⟨⟨_, check_chunk_eq ndebug chunk f⟩, ?_, ?_⟩
  · rw [check_chunk_eq]
    simp [chunk_t.tag_and_data]
  · rw [check_chunk_eq]
    simp [chunk_t.tag_and_data]

theorem crc32_bit_step_lt (c : Nat) (h : c < 2 ^ 32) : crc32_bit_step c < 2 ^ 32 := by
  rw [crc32_bit_step_eq]
  apply Nat.xor_lt_two_pow
  · omega
  · split <;> norm_num

/-- A bit step loses nothing of a 32-bit register: bit 31 of the result tells
the bit shifted out. -/
theorem crc32_bit_step_inj (a b : Nat) (ha : a < 2 ^ 32) (hb : b < 2 ^ 32)
    (h : crc32_bit_step a = crc32_bit_step b) : a = b := by
  rw [crc32_bit_step_eq, crc32_bit_step_eq] at h
  have hbit : ∀ c, c < 2 ^ 32 →
      ((c / 2) ^^^ (if c % 2 = 1 then 0xEDB88320 else 0)).testBit 31 = decide (c % 2 = 1) := by
    intro c hc
    have hP : Nat.testBit 3988292384 31 = true := by decide
    rw [Nat.testBit_xor, Nat.testBit_lt_two_pow (x := c / 2) (i := 31) (by omega)]
    split <;> simp_all
  have hpar : decide (a % 2 = 1) = decide (b % 2 = 1) := by
    rw [← hbit a ha, ← hbit b hb, h]
  have hpar2 : (a % 2 = 1) ↔ (b % 2 = 1) := by simpa using hpar
  have hhalf : a / 2 = b / 2 := by
    by_cases h1 : a % 2 = 1
    · rw [if_pos h1, if_pos (hpar2.1 h1)] at h
      exact Nat.xor_left_inj.1 h
    · rw [if_neg h1, if_neg (fun h2 => h1 (hpar2.2 h2))] at h
      simpa using h
  omega

theorem crc32_bit_steps_lt (k c : Nat) (h : c < 2 ^ 32) : crc32_bit_step^[k] c < 2 ^ 32 := by
  induction k generalizing c with
  | zero => exact h
  | succ k ih =>
    rw [Function.iterate_succ_apply]
    exact ih _ (crc32_bit_step_lt c h)

theorem crc32_bit_steps_inj (k a b : Nat) (ha : a < 2 ^ 32) (hb : b < 2 ^ 32)
    (h : crc32_bit_step^[k] a = crc32_bit_step^[k] b) : a = b := by
  induction k generalizing a b with
  | zero => exact h
  | succ k ih =>
    rw [Function.iterate_succ_apply, Function.iterate_succ_apply] at h
    exact crc32_bit_step_inj a b ha hb
      (ih _ _ (crc32_bit_step_lt a ha) (crc32_bit_step_lt b hb) h)

theorem xor_byte_lt (r byte : Nat) (hr : r < 2 ^ 32) (hb : byte < 256) : r ^^^ byte < 2 ^ 32 :=
  Nat.xor_lt_two_pow hr (by omega)

theorem crc32_update_lt (r byte : Nat) (hr : r < 2 ^ 32) (hb : byte < 256) :
    crc32_update r byte < 2 ^ 32 := by
  rw [crc32_update_eq r byte hb]
  exact crc32_bit_steps_lt 8 _ (xor_byte_lt r byte hr hb)

/-- The loop body of `compute_crc32` keeps two different registers different. -/
theorem crc32_update_inj (r s byte : Nat) (hr : r < 2 ^ 32) (hs : s < 2 ^ 32) (hb : byte < 256)
    (h : crc32_update r byte = crc32_update s byte) : r = s := by
  rw [crc32_update_eq r byte hb, crc32_update_eq s byte hb] at h
  exact Nat.xor_left_inj.1
    (crc32_bit_steps_inj 8 _ _ (xor_byte_lt r byte hr hb) (xor_byte_lt s byte hs hb) h)

theorem foldl_crc32_update_lt (data : List Nat) (hd : bytes_ok data) (r : Nat) (hr : r < 2 ^ 32) :
    data.foldl crc32_update r < 2 ^ 32 := by
  induction data generalizing r with
  | nil => exact hr
  | cons b bs ih =>
    exact ih (fun x hx => hd x (List.mem_cons_of_mem b hx)) _
      (crc32_update_lt r b hr (hd b (List.mem_cons_self b bs)))

theorem foldl_crc32_update_inj (data : List Nat) (hd : bytes_ok data) (r s : Nat)
    (hr : r < 2 ^ 32) (hs : s < 2 ^ 32)
    (h : data.foldl crc32_update r = data.foldl crc32_update s) : r = s := by
  induction data generalizing r s with
  | nil => exact h
  | cons b bs ih =>
    have hb := hd b (List.mem_cons_self b bs)
    exact crc32_update_inj r s b hr hs hb
      (ih (fun x hx => hd x (List.mem_cons_of_mem b hx)) _ _
        (crc32_update_lt r b hr hb) (crc32_update_lt s b hs hb) h)

theorem flip_byte_lt (b p : Nat) (hb : b < 256) (hp : p < 8) : b ^^^ 2 ^ p < 256 := by
  have h : b ^^^ 2 ^ p < 2 ^ 8 :=
    Nat.xor_lt_two_pow (by omega) (Nat.pow_lt_pow_right (by norm_num) hp)
  simpa using h

theorem flip_byte_ne (b p : Nat) : b ^^^ 2 ^ p ≠ b := by
  intro h
  have h2 : b ^^^ 2 ^ p = b ^^^ 0 := by rw [Nat.xor_zero]; exact h
  have := Nat.xor_right_inj.1 h2
  exact absurd this (by positivity)

theorem flip_bit_length (bytes : List Nat) (p : Nat) : (flip_bit bytes p).length = bytes.length := by
  induction bytes generalizing p with
  | nil => rfl
  | cons b bs ih =>
    unfold flip_bit
    split
    · rfl
    · simp [ih]

theorem bytes_ok_flip_bit (bytes : List Nat) (p : Nat) (h : bytes_ok bytes) :
    bytes_ok (flip_bit bytes p) := by
  induction bytes generalizing p with
  | nil => exact h
  | cons b bs ih =>
    have hb := h b (List.mem_cons_self b bs)
    have hbs : bytes_ok bs := fun x hx => h x (List.mem_cons_of_mem b hx)
    unfold flip_bit
    split
    · rename_i hp
      intro x hx
      rcases List.mem_cons.1 hx with rfl | hx
      · exact flip_byte_lt b p hb hp
      · exact hbs x hx
    · intro x hx
      rcases List.mem_cons.1 hx with rfl | hx
      · exact hb
      · exact ih _ hbs x hx

/-- One flipped bit changes the register at the end of the loop of
`compute_crc32`. -/
theorem foldl_crc32_update_flip_bit (data : List Nat) (hd : bytes_ok data) (p r : Nat)
    (hp : p < 8 * data.length) (hr : r < 2 ^ 32) :
    (flip_bit data p).foldl crc32_update r ≠ data.foldl crc32_update r := by
  induction data generalizing p r with
  | nil => simp at hp
  | cons b bs ih =>
    have hb := hd b (List.mem_cons_self b bs)
    have hbs : bytes_ok bs := fun x hx => hd x (List.mem_cons_of_mem b hx)
    unfold flip_bit
    split
    · rename_i hp8
      simp only [List.foldl_cons]
      intro h
      have hfb := flip_byte_lt b p hb hp8
      have h1 := foldl_crc32_update_inj bs hbs _ _ (crc32_update_lt r _ hr hfb)
        (crc32_update_lt r b hr hb) h
      rw [crc32_update_eq r _ hfb, crc32_update_eq r b hb] at h1
      have h2 := crc32_bit_steps_inj 8 _ _ (xor_byte_lt r _ hr hfb) (xor_byte_lt r b hr hb) h1
      exact flip_byte_ne b p (Nat.xor_right_inj.1 h2)
    · simp only [List.foldl_cons]
      exact ih hbs (p - 8) _ (by simp only [List.length_cons] at hp; omega)
        (crc32_update_lt r b hr hb)

theorem compute_crc32_flip_bit (data : List Nat) (hd : bytes_ok data) (p : Nat)
    (hp : p < 8 * data.length) : compute_crc32 (flip_bit data p) ≠ compute_crc32 data := by
  intro h
  exact foldl_crc32_update_flip_bit data hd p 0xffffffff hp (by norm_num)
    (Nat.xor_left_inj.1 h)

theorem flip_bit_tag_and_data (c : chunk_t) (p : Nat) :
    (c.flip_bit p).tag_and_data = flip_bit c.tag_and_data p ∧ (c.flip_bit p).crc = c.crc := by
  have hl := flip_bit_length c.tag_and_data p
  unfold chunk_t.flip_bit
  split
  · rename_i t0 t1 t2 t3 data heq
    rw [heq]
    exact ⟨rfl, rfl⟩
  · rename_i hne
    exfalso
    have h4 : 4 ≤ (xng.flip_bit c.tag_and_data p).length := by
      rw [hl]; simp [chunk_t.tag_and_data]
    match hx : xng.flip_bit c.tag_and_data p with
    | [] => rw [hx] at h4; simp at h4
    | [_] => rw [hx] at h4; simp at h4
    | [_, _] => rw [hx] at h4; simp at h4
    | [_, _, _] => rw [hx] at h4; simp at h4
    | t0 :: t1 :: t2 :: t3 :: data => exact hne t0 t1 t2 t3 data hx

/-- C7: a chunk whose crc is `compute_crc32 (tag ++ payload)` and of which then
exactly one bit of the tag or of the payload is flipped, the crc left as it is,
fails `check_chunk` with `compute_crc32`. -/
theorem check_chunk_single_bit (ndebug : Bool) (chunk : chunk_t) (p : Nat)
    (hb : bytes_ok ([chunk.id.type0, chunk.id.type1, chunk.id.type2, chunk.id.type3]
      ++ chunk.data))
    (hp : p < 8 * (4 + chunk.data.length))
    (hcrc : chunk.crc = compute_crc32
      ([chunk.id.type0, chunk.id.type1, chunk.id.type2, chunk.id.type3] ++ chunk.data)) :
    check_chunk ndebug (chunk.flip_bit p) (some compute_crc32) = .ok false := by
  obtain ⟨h1, h2⟩ := flip_bit_tag_and_data chunk p
  rw [check_chunk_eq, h1, h2, hcrc]
  have hne := compute_crc32_flip_bit chunk.tag_and_data hb p (by
    simp only [chunk_t.tag_and_data, List.length_append, List.length_cons, List.length_nil]
    omega)
  have : (compute_crc32 chunk.tag_and_data == compute_crc32 (flip_bit chunk.tag_and_data p))
      = false := by
    simpa using fun h => hne h.symm
  exact congrArg Except.ok this

/-- Witness of C7: bit 37 of the chunk of the scenario, a bit of the payload. -/
theorem check_chunk_single_bit_witness :
    check_chunk true (test_chunk.flip_bit 37) (some compute_crc32) = .ok false :=
  check_chunk_single_bit true test_chunk 37 (by decide) (by decide) (by decide)

/-- C8: for a CRC function `f`, `check_chunks` returns, and returns true exactly
when `check_chunk` returns true for every chunk of the sequence; for the empty
sequence it returns true. -/
theorem check_chunks_iff (ndebug : Bool) (chunks : List chunk_t) (f : crc32computationfunc_t) :
    (∃ b, check_chunks ndebug chunks (some f) = .ok b) ∧
    (check_chunks ndebug chunks (some f) = .ok true ↔
      ∀ c ∈ chunks, check_chunk ndebug c (some f) = .ok true) ∧
    check_chunks ndebug [] (some f) = .ok true := by
  have key : check_chunks ndebug chunks (some f)
      = .ok (chunks.all (fun c => c.crc == f c.tag_and_data)) := by
    simp only [check_chunks]
    induction chunks with
    | nil => rfl
    | cons c cs ih =>
      simp only [all_of, check_chunk_eq, List.all_cons]
      cases hc : (c.crc == f c.tag_and_data)
      · rfl
      · simpa using ih
  refine ⟨⟨_, key⟩, ?_, rfl⟩
  rw [key]
  simp [check_chunk_eq]



/-! ## Claims on the dispatcher -/

theorem handle_chunks_nil {σ : Type} (ndebug le : Bool) (state : chunkhandlerstate_t σ)
    (target : σ) : handle_chunks ndebug le [] state target = (.ok 0, target) := rfl

/-- One iteration of the loop of `handle_chunks`. -/
theorem handle_chunks_cons {σ : Type} (ndebug le : Bool) (state : chunkhandlerstate_t σ)
    (chunk : chunk_t) (rest : List chunk_t) (target : σ) :
    handle_chunks ndebug le (chunk :: rest) state target
      = if (handle_chunk le chunk state target).1 = 0 then
          handle_chunks ndebug le rest state (handle_chunk le chunk state target).2
        else if ndebug then
          (.ok (handle_chunk le chunk state target).1, (handle_chunk le chunk state target).2)
        else (.error .assert_failed, (handle_chunk le chunk state target).2) := by
  simp only [handle_chunks, handle_chunks_loop]
  by_cases h : (handle_chunk le chunk state target).1 = 0
  · simp [h]
  · cases ndebug <;> simp [h]

theorem statuses_cons {σ : Type} (le : Bool) (state : chunkhandlerstate_t σ)
    (chunk : chunk_t) (rest : List chunk_t) (target : σ) :
    statuses le state (chunk :: rest) target
      = (handle_chunk le chunk state target).1
        :: statuses le state rest (handle_chunk le chunk state target).2 := rfl

theorem dispatched_cons {σ : Type} (le : Bool) (state : chunkhandlerstate_t σ)
    (chunk : chunk_t) (rest : List chunk_t) (target : σ) :
    dispatched le state (chunk :: rest) target
      = if (handle_chunk le chunk state target).1 = 0 then
          chunk :: dispatched le state rest (handle_chunk le chunk state target).2
        else [chunk] := by
  simp only [dispatched, statuses_cons, List.findIdx_cons]
  by_cases h : (handle_chunk le chunk state target).1 = 0
  · simp [h]
  · have hne : ((handle_chunk le chunk state target).1 != 0) = true := by simpa using h
    simp [h, hne]

/-- The outcome of `handle_chunks` in terms of the statuses of the handlers. -/
theorem handle_chunks_outcome {σ : Type} (ndebug le : Bool) (chunks : List chunk_t)
    (state : chunkhandlerstate_t σ) (target : σ) :
    (handle_chunks ndebug le chunks state target).1
      = match (statuses le state chunks target).find? (fun s => s != 0) with
        | none => .ok 0
        | some s => if ndebug then .ok s else .error .assert_failed := by
  induction chunks generalizing target with
  | nil => rfl
  | cons chunk rest ih =>
    rw [handle_chunks_cons, statuses_cons, List.find?_cons]
    by_cases h : (handle_chunk le chunk state target).1 = 0
    · simp only [h, if_true, bne_self_eq_false]
      exact ih _
    · have hne : ((handle_chunk le chunk state target).1 != 0) = true := by simpa using h
      simp only [h, if_false, hne]
      cases ndebug <;> rfl

/-- Counterexample to C9 as stated: with assertions compiled in, the sequence
`[H1-chunk, H2-chunk, H1-chunk]` does not give 5; `assert(err == 0)` ends the
call at the second chunk. -/
theorem handle_chunks_assert_aborts :
    (handle_chunks false true [h1_chunk, h2_chunk, h1_chunk] h1_h2_registry []).1
      = .error .assert_failed ∧
    (handle_chunks false true [h1_chunk, h2_chunk, h1_chunk] h1_h2_registry []).1 ≠ .ok 5 :=
  ⟨rfl, by intro h; cases h⟩

/-- The call of `handle_chunks` is the call on the dispatched chunks alone, and
leaves the context that their handlers, all run in order, leave. -/
theorem handle_chunks_dispatched {σ : Type} (ndebug le : Bool) (chunks : List chunk_t)
    (state : chunkhandlerstate_t σ) (target : σ) :
    (handle_chunks ndebug le chunks state target).2
      = (run_handlers le state (dispatched le state chunks target) target).2 ∧
    handle_chunks ndebug le chunks state target
      = handle_chunks ndebug le (dispatched le state chunks target) state target := by
  induction chunks generalizing target with
  | nil => exact ⟨rfl, rfl⟩
  | cons chunk rest ih =>
    rw [dispatched_cons]
    by_cases h : (handle_chunk le chunk state target).1 = 0
    · simp only [h, if_true]
      obtain ⟨ih1, ih2⟩ := ih (handle_chunk le chunk state target).2
      refine ⟨?_, ?_⟩
      · rw [handle_chunks_cons, if_pos h, ih1]
        rfl
      · rw [handle_chunks_cons, if_pos h, handle_chunks_cons, if_pos h, ← ih2]
    · simp only [h, if_false]
      refine ⟨?_, ?_⟩
      · rw [handle_chunks_cons, if_neg h]
        cases ndebug <;> rfl
      · rw [handle_chunks_cons, if_neg h, handle_chunks_cons, if_neg h]

/-- C9, amended: `handle_chunks` returns 0 when every handler returns 0, also for
the empty sequence; when a handler returns non-zero, no later handler runs (the
context at the end is the one left by the handlers of the chunks up to and
including that one, and the call is the call on these chunks alone), and the
call returns the status of the first such chunk verbatim if assertions are
compiled out, and does not return if they are compiled in (`assert(err == 0)`
fails at that chunk).  With `H1` returning 0 and `H2` returning 5,
`[H1-chunk, H2-chunk, H1-chunk]` gives 5 when assertions are compiled out, and
the handlers called are those of the first two chunks. -/
theorem handle_chunks_fail_fast {σ : Type} (ndebug le : Bool) (chunks : List chunk_t)
    (state : chunkhandlerstate_t σ) (target : σ) :
    (handle_chunks ndebug le chunks state target).1
      = (match (statuses le state chunks target).find? (fun s => s != 0) with
        | none => .ok 0
        | some s => if ndebug then .ok s else .error .assert_failed) ∧
    (handle_chunks ndebug le [] state target).1 = .ok 0 ∧
    (handle_chunks true le [h1_chunk, h2_chunk, h1_chunk] h1_h2_registry []).1 = .ok 5 ∧
    (handle_chunks ndebug le chunks state target).2
      = (run_handlers le state
          (chunks.take ((statuses le state chunks target).findIdx (fun s => s != 0) + 1))
          target).2 ∧
    handle_chunks ndebug le chunks state target
      = handle_chunks ndebug le
          (chunks.take ((statuses le state chunks target).findIdx (fun s => s != 0) + 1))
          state target ∧
    handle_chunks true le [h1_chunk, h2_chunk, h1_chunk] h1_h2_registry []
      = (.ok 5, [1, 2]) ∧
    handle_chunks false le [h1_chunk, h2_chunk, h1_chunk] h1_h2_registry []
      = (.error .assert_failed, [1, 2]) := by
  refine ⟨handle_chunks_outcome ndebug le chunks state target, rfl, ?_,
    (handle_chunks_dispatched ndebug le chunks state target).1,
    (handle_chunks_dispatched ndebug le chunks state target).2, ?_, ?_⟩
  · cases le <;> rfl
  · cases le <;> rfl
  · cases le <;> rfl

/-- C10: with each handler a function from (chunk, context) to (status, new
context), the context after `handle_chunks` is the one obtained by running the
handlers, in sequence order, on exactly the chunks up to and including the first
one whose handler returns non-zero, or on all chunks if none does; the call is
the same as the call on these chunks alone, so the chunks behind them play no
part.  With `H1` logging 1 and `H2` logging 2 and returning 5, the log after
`[H1-chunk, H2-chunk, H1-chunk]` is `[1, 2]`. -/
theorem handle_chunks_no_handler_after_failure {σ : Type} (ndebug le : Bool)
    (chunks : List chunk_t) (state : chunkhandlerstate_t σ) (target : σ) :
    (handle_chunks ndebug le chunks state target).2
      = (run_handlers le state
          (chunks.take ((statuses le state chunks target).findIdx (fun s => s != 0) + 1))
          target).2 ∧
    handle_chunks ndebug le chunks state target
      = handle_chunks ndebug le
          (chunks.take ((statuses le state chunks target).findIdx (fun s => s != 0) + 1))
          state target ∧
    (handle_chunks ndebug le [h1_chunk, h2_chunk, h1_chunk] h1_h2_registry []).2 = [1, 2] := by
  refine ⟨(handle_chunks_dispatched ndebug le chunks state target).1,
    (handle_chunks_dispatched ndebug le chunks state target).2, ?_⟩
  cases ndebug <;> cases le <;> rfl



/-! ## Claims on the handler lookup -/

/-- Two byte-valued tags have the same `_raw` exactly when they are the same. -/
theorem raw_eq_iff (le : Bool) (a b : chunkid_t) (ha : a.bytes_ok) (hb : b.bytes_ok) :
    a.raw le = b.raw le ↔ a = b := by
  constructor
  · intro h
    obtain ⟨a0, a1, a2, a3⟩ := a
    obtain ⟨b0, b1, b2, b3⟩ := b
    obtain ⟨ha0, ha1, ha2, ha3⟩ := ha
    obtain ⟨hb0, hb1, hb2, hb3⟩ := hb
    simp only at ha0 ha1 ha2 ha3 hb0 hb1 hb2 hb3
    cases le <;> simp only [chunkid_t.raw, load_uint32] at h <;> norm_num at h <;>
      (simp only [chunkid_t.mk.injEq]; omega)
  · intro h
    rw [h]

theorem find_chunkhandler_first {σ : Type} (le : Bool) (id : chunkid_t)
    (pre post : List (chunkhandler_t σ)) (h : chunkhandler_t σ)
    (hid : id.bytes_ok) (hpre_ok : ∀ e ∈ pre, e.id.bytes_ok)
    (hpre : ∀ e ∈ pre, e.id ≠ id) (hh : h.id = id) :
    find_chunkhandler le id { handlers := pre ++ h :: post } = h := by
  unfold find_chunkhandler
  have : (pre ++ h :: post).find? (fun handler => handler.id.raw le == id.raw le) = some h := by
    induction pre with
    | nil => simp [hh]
    | cons e es ih =>
      have hne : ¬ (e.id.raw le = id.raw le) := fun heq =>
        hpre e (List.mem_cons_self e es)
          ((raw_eq_iff le e.id id (hpre_ok e (List.mem_cons_self e es)) hid).1 heq)
      simp only [List.cons_append, List.find?_cons]
      have hb : (e.id.raw le == id.raw le) = false := by simpa using hne
      rw [hb]
      exact ih (fun x hx => hpre_ok x (List.mem_cons_of_mem e hx))
        (fun x hx => hpre x (List.mem_cons_of_mem e hx))
  simp only [this]

theorem find_chunkhandler_none {σ : Type} (le : Bool) (id : chunkid_t)
    (state : chunkhandlerstate_t σ)
    (hid : id.bytes_ok) (hok : ∀ e ∈ state.handlers, e.id.bytes_ok)
    (hno : ∀ e ∈ state.handlers, e.id ≠ id) :
    find_chunkhandler le id state = default_error := by
  unfold find_chunkhandler
  have : state.handlers.find? (fun handler => handler.id.raw le == id.raw le) = none := by
    rw [List.find?_eq_none]
    intro e he
    have hne : ¬ (e.id.raw le = id.raw le) := fun heq =>
      hno e he ((raw_eq_iff le e.id id (hok e he) hid).1 heq)
    simpa using hne
  simp only [this]

/-- C11: when the registry has an entry whose tag equals the tag of the chunk,
`handle_chunk` is one call of the handler of the first such entry in registry
order, on the chunk and the context, and returns its status; the entries behind
it, also those with the same tag, play no part. -/
theorem handle_chunk_first_match {σ : Type} (le : Bool) (chunk : chunk_t)
    (pre post : List (chunkhandler_t σ)) (h : chunkhandler_t σ) (target : σ)
    (hid : chunk.id.bytes_ok) (hpre_ok : ∀ e ∈ pre, e.id.bytes_ok)
    (hpre : ∀ e ∈ pre, e.id ≠ chunk.id) (hh : h.id = chunk.id) :
    handle_chunk le chunk { handlers := pre ++ h :: post } target = h.func chunk target := by
  unfold handle_chunk
  rw [find_chunkhandler_first le chunk.id pre post h hid hpre_ok hpre hh]

/-- Witness of C11: of two entries for `H1  ` the first is called (status 3,
log `[1]`), the second is shadowed. -/
theorem handle_chunk_first_match_witness :
    handle_chunk true h1_chunk shadowing_registry [] = (3, [1]) :=
  handle_chunk_first_match true h1_chunk
    [{ id := h2_chunk.id, func := fun _ log => (5, log ++ [9]) }]
    [{ id := h1_chunk.id, func := fun _ log => (4, log ++ [2]) }]
    { id := h1_chunk.id, func := fun _ log => (3, log ++ [1]) } []
    (by decide) (by decide) (by decide) rfl

theorem handle_chunk_unregistered {σ : Type} (le : Bool) (chunk : chunk_t)
    (state : chunkhandlerstate_t σ) (target : σ)
    (hid : chunk.id.bytes_ok) (hok : ∀ e ∈ state.handlers, e.id.bytes_ok)
    (hno : ∀ e ∈ state.handlers, e.id ≠ chunk.id) :
    handle_chunk le chunk state target = (0, target) := by
  unfold handle_chunk
  rw [find_chunkhandler_none le chunk.id state hid hok hno]
  rfl

/-- C12: for a chunk whose tag no entry of the registry has, the empty registry
included, `handle_chunk` returns 0 and leaves the context as it is; so
`handle_chunks` over a sequence of such chunks returns 0, with the context
unchanged.  The tag `ZZZZ` with no matching entry gives 0. -/
theorem handle_chunk_unknown_tag {σ : Type} (ndebug le : Bool) (chunks : List chunk_t)
    (state : chunkhandlerstate_t σ) (target : σ)
    (hok : ∀ e ∈ state.handlers, e.id.bytes_ok)
    (hno : ∀ c ∈ chunks, c.id.bytes_ok ∧ ∀ e ∈ state.handlers, e.id ≠ c.id) :
    (∀ c ∈ chunks, handle_chunk le c state target = (0, target)) ∧
    handle_chunks ndebug le chunks state target = (.ok 0, target) ∧
    handle_chunk le zzzz_chunk h1_h2_registry [] = (0, []) ∧
    handle_chunk le zzzz_chunk ({ handlers := [] } : chunkhandlerstate_t σ) target
      = (0, target) := by
  refine ⟨fun c hc => handle_chunk_unregistered le c state target (hno c hc).1 hok (hno c hc).2,
    ?_, ?_, rfl⟩
  · induction chunks with
    | nil => rfl
    | cons c cs ih =>
      have hc := handle_chunk_unregistered le c state target
        (hno c (List.mem_cons_self c cs)).1 hok (hno c (List.mem_cons_self c cs)).2
      rw [handle_chunks_cons, hc]
      simp only [if_true]
      exact ih (fun d hd => hno d (List.mem_cons_of_mem c hd))
  · cases le <;> rfl

/-- Witness of C12: two chunks tagged `ZZZZ` on the registry of `H1  ` and
`H2  `. -/
theorem handle_chunk_unknown_tag_witness :
    handle_chunks false true [zzzz_chunk, zzzz_chunk] h1_h2_registry [] = (.ok 0, []) :=
  (handle_chunk_unknown_tag false true [zzzz_chunk, zzzz_chunk] h1_h2_registry []
    (by decide) (by decide)).2.1

/-- C20: for two tags, the comparison of the `_raw` values in the handler lookup
is true exactly when the four `type` bytes are pairwise equal, on a host of
either byte order; so a handler registered for `IHDR` is not selected for a
chunk tagged `ihdr`, which goes to the default handler. -/
theorem raw_comparison_is_byte_equality (le : Bool) (a b : chunkid_t)
    (ha : a.bytes_ok) (hb : b.bytes_ok) :
    ((a.raw le == b.raw le) = true ↔
      (a.type0 = b.type0 ∧ a.type1 = b.type1 ∧ a.type2 = b.type2 ∧ a.type3 = b.type3)) ∧
    (a.raw true == b.raw true) = (a.raw false == b.raw false) ∧
    (ihdr_id.raw le == ihdr_lower_chunk.id.raw le) = false ∧
    handle_chunk le ihdr_lower_chunk ihdr_registry () = (0, ()) ∧
    handle_chunk le { ihdr_lower_chunk with id := ihdr_id } ihdr_registry () = (7, ()) := by
  have key : ∀ l : Bool, (a.raw l == b.raw l) = decide (a = b) := by
    intro l
    by_cases h : a = b
    · simp [h]
    · have : ¬ a.raw l = b.raw l := fun heq => h ((raw_eq_iff l a b ha hb).1 heq)
      simp [h, this]
  refine ⟨?_, ?_, ?_, ?_, ?_⟩
  · rw [key le]
    obtain ⟨a0, a1, a2, a3⟩ := a
    obtain ⟨b0, b1, b2, b3⟩ := b
    simp
  · rw [key true, key false]
  · cases le <;> rfl
  · cases le <;> rfl
  · cases le <;> rfl

/-- Witness of C20: the tags `IHDR` and `ihdr`. -/
theorem raw_comparison_is_byte_equality_witness :
    ((ihdr_id.raw true == ihdr_lower_chunk.id.raw true) = true ↔
      (ihdr_id.type0 = ihdr_lower_chunk.id.type0 ∧ ihdr_id.type1 = ihdr_lower_chunk.id.type1 ∧
        ihdr_id.type2 = ihdr_lower_chunk.id.type2 ∧ ihdr_id.type3 = ihdr_lower_chunk.id.type3)) :=
  (raw_comparison_is_byte_equality true ihdr_id ihdr_lower_chunk.id (by decide) (by decide)).1



/-! ## Claims on the byte cursor and the chunk invariant -/

theorem endian_swap_load_uint16 (b0 b1 : Nat) (h0 : b0 < 256) (h1 : b1 < 256) :
    endian_swap_uint16 true (load_uint16 true b0 b1) = b0 * 2 ^ 8 + b1 := by
  have e0 : byte_of_uint16 true (load_uint16 true b0 b1) 0 = b0 := by
    simp only [byte_of_uint16, load_uint16, Nat.shiftRight_eq_div_pow]
    norm_num
    omega
  have e1 : byte_of_uint16 true (load_uint16 true b0 b1) 1 = b1 := by
    simp only [byte_of_uint16, load_uint16, Nat.shiftRight_eq_div_pow]
    norm_num
    omega
  simp only [endian_swap_uint16, e0, e1]
  rw [Nat.shiftLeft_eq, Nat.mul_comm, ← Nat.mul_add_lt_is_or (by omega)]
  omega

theorem read_uint16_t_eq (le : Bool) (filedata : List Nat) (off : Nat) (slot : Option Nat)
    (hb : bytes_ok filedata) (h : off + 2 ≤ filedata.length) :
    read_uint16_t le filedata off slot
      = .ok (byte_at filedata off * 2 ^ 8 + byte_at filedata (off + 1),
          store_next slot (off + 2)) := by
  have l0 := byte_at_lt hb off
  have l1 := byte_at_lt hb (off + 1)
  simp only [read_uint16_t, getElem?_eq_byte_at (show off < filedata.length by omega),
    getElem?_eq_byte_at (show off + 1 < filedata.length by omega)]
  cases le
  · simp [load_uint16]
  · simp [endian_swap_load_uint16 _ _ l0 l1]

theorem read_uint8_t_eq (filedata : List Nat) (off : Nat) (slot : Option Nat)
    (h : off + 1 ≤ filedata.length) :
    read_uint8_t filedata off slot = .ok (byte_at filedata off, store_next slot (off + 1)) := by
  simp only [read_uint8_t, getElem?_eq_byte_at (show off < filedata.length by omega)]

/-- C16: with enough bytes available at offset `o` of a buffer `b`,
`read_uint32_t` returns `b[o]*2^24 + b[o+1]*2^16 + b[o+2]*2^8 + b[o+3]`,
`read_uint16_t` returns `b[o]*2^8 + b[o+1]` and `read_uint8_t` returns `b[o]`,
for all byte values and on a host of either byte order, and they set the next
position to `o + 4`, `o + 2` and `o + 1`; a null `next_filedata` stays null. -/
theorem cursor_reads_big_endian (le : Bool) (b : List Nat) (o : Nat) (next_filedata : Option Nat)
    (hb : bytes_ok b) :
    (o + 4 ≤ b.length → read_uint32_t le b o next_filedata
      = .ok (byte_at b o * 2 ^ 24 + byte_at b (o + 1) * 2 ^ 16 + byte_at b (o + 2) * 2 ^ 8
          + byte_at b (o + 3), next_filedata.map (fun _ => o + 4))) ∧
    (o + 2 ≤ b.length → read_uint16_t le b o next_filedata
      = .ok (byte_at b o * 2 ^ 8 + byte_at b (o + 1), next_filedata.map (fun _ => o + 2))) ∧
    (o + 1 ≤ b.length → read_uint8_t b o next_filedata
      = .ok (byte_at b o, next_filedata.map (fun _ => o + 1))) :=
  ⟨fun h => read_uint32_t_eq le b o next_filedata hb h,
   fun h => read_uint16_t_eq le b o next_filedata hb h,
   fun h => read_uint8_t_eq b o next_filedata h⟩

/-- Witness of C16: four bytes with the top bit set, read at offset 1 on a
little-endian host. -/
theorem cursor_reads_big_endian_witness :
    read_uint32_t true [0, 0xFF, 0x80, 0xFE, 0x81] 1 (some 1) = .ok (0xFF80FE81, some 5) ∧
    read_uint16_t true [0, 0xFF, 0x80, 0xFE, 0x81] 1 (some 1) = .ok (0xFF80, some 3) ∧
    read_uint8_t [0, 0xFF, 0x80, 0xFE, 0x81] 1 (some 1) = .ok (0xFF, some 2) :=
  ⟨(cursor_reads_big_endian true [0, 0xFF, 0x80, 0xFE, 0x81] 1 (some 1) (by decide)).1
      (by decide),
   (cursor_reads_big_endian true [0, 0xFF, 0x80, 0xFE, 0x81] 1 (some 1) (by decide)).2.1
      (by decide),
   (cursor_reads_big_endian true [0, 0xFF, 0x80, 0xFE, 0x81] 1 (some 1) (by decide)).2.2
      (by decide)⟩

theorem copy_range_length (filedata : List Nat) (first n : Nat) (data : List Nat)
    (h : copy_range filedata first n = .ok data) : data.length = n := by
  unfold copy_range at h
  split at h
  · rename_i hle
    simp only [Except.ok.injEq] at h
    rw [← h, List.length_take, List.length_drop]
    omega
  · cases h

theorem read_chunk_data_length (le : Bool) (filedata : List Nat) (off : Nat) (chunk : chunk_t)
    (slot0 slot : Option Nat) (h : read_chunk le filedata off slot0 = .ok (chunk, slot)) :
    chunk.data.length = chunk.length := by
  simp only [read_chunk] at h
  rcases read_uint32_t_cases le filedata off (some off) with ⟨-, v1, r1⟩ | ⟨-, r1⟩
  swap
  · rw [r1] at h; cases h
  rw [r1] at h
  simp only [store_next, Option.map_some', Option.getD_some] at h
  rcases read_chunkid_t_cases le filedata (off + 4) (some (off + 4)) with ⟨-, v2, r2⟩ | ⟨-, r2⟩
  swap
  · rw [r2] at h; cases h
  rw [r2] at h
  simp only [store_next, Option.map_some', Option.getD_some] at h
  cases r3 : copy_range filedata (off + 4 + 4) v1 with
  | error e => rw [r3] at h; cases h
  | ok data =>
    rw [r3] at h
    simp only at h
    rcases read_uint32_t_cases le filedata (off + 4 + 4 + v1) (some (off + 4 + 4 + v1))
      with ⟨-, v4, r4⟩ | ⟨-, r4⟩
    swap
    · rw [r4] at h; cases h
    rw [r4] at h
    simp only [store_next, Option.map_some', Option.getD_some, Except.ok.injEq,
      Prod.mk.injEq] at h
    rw [← h.1]
    exact copy_range_length filedata _ _ data r3

theorem read_chunks_loop_data_length (le : Bool) (filedata : List Nat) (filedata_size : Nat) :
    ∀ (fuel filedata_iter sum_read : Nat) (chunks cs : List chunk_t),
      (∀ c ∈ chunks, c.data.length = c.length) →
      read_chunks_loop le filedata filedata_size fuel filedata_iter sum_read chunks
        = some (.ok cs) →
      ∀ c ∈ cs, c.data.length = c.length := by
  intro fuel
  induction fuel with
  | zero =>
    intro filedata_iter sum_read chunks cs _ h
    cases h
  | succ fuel ih =>
    intro filedata_iter sum_read chunks cs hacc h
    rw [read_chunks_loop_succ] at h
    by_cases hg : sum_read < filedata_size
    · rw [if_pos hg] at h
      cases hr : read_chunk le filedata filedata_iter (some filedata_iter) with
      | error e => rw [hr] at h; cases h
      | ok v =>
        obtain ⟨chunk, slot⟩ := v
        rw [hr] at h
        simp only at h
        cases hz : chunk.id.is_zero
        · rw [hz] at h
          simp only [Bool.false_eq_true, if_false] at h
          refine ih _ _ _ cs ?_ h
          intro c hc
          rcases List.mem_append.1 hc with hc | hc
          · exact hacc c hc
          · rw [List.mem_singleton.1 hc]
            exact read_chunk_data_length le filedata filedata_iter chunk _ slot hr
        · rw [hz] at h
          simp only [if_true, Option.some.injEq, Except.ok.injEq] at h
          rw [← h]
          exact hacc
    · rw [if_neg hg] at h
      simp only [Option.some.injEq, Except.ok.injEq] at h
      rw [← h]
      exact hacc

/-- C17: every chunk that `read_chunk` returns, and every element of a sequence
that `read_chunks` returns, has a payload of as many bytes as its `length` field
says. -/
theorem chunk_payload_size_is_length (le : Bool) (filedata : List Nat) :
    (∀ (o : Nat) (next_filedata next : Option Nat) (chunk : chunk_t),
      read_chunk le filedata o next_filedata = .ok (chunk, next) →
      chunk.data.length = chunk.length) ∧
    (∀ (filedata_size : Nat) (chunks : List chunk_t),
      read_chunks le filedata filedata_size = some (.ok chunks) →
      ∀ chunk ∈ chunks, chunk.data.length = chunk.length) :=
  ⟨fun o nf next chunk h => read_chunk_data_length le filedata o chunk nf next h,
   fun size chunks h => read_chunks_loop_data_length le filedata size _ 0 0 [] chunks
     (fun c hc => by cases hc) h⟩

/-- Witness of C17: the chunk read from the buffer of the scenario, and the
sequence read from that buffer followed by a zero-tag record. -/
theorem chunk_payload_size_is_length_witness :
    test_chunk.data.length = test_chunk.length ∧
    ∀ chunk ∈ [test_chunk], chunk.data.length = chunk.length :=
  ⟨(chunk_payload_size_is_length true test_buffer).1 0 (some 0) (some 16) test_chunk rfl,
   (chunk_payload_size_is_length true (test_buffer ++ wire_record zero_chunk)).2 28
     [test_chunk] rfl⟩



/-! ## Claims on truncated input -/

theorem byte_at_take (filedata : List Nat) (n i : Nat) (h : i < n) :
    byte_at (filedata.take n) i = byte_at filedata i := by
  unfold byte_at
  simp [List.getD_eq_getElem?_getD, List.getElem?_take, h]

/-- When fewer than `12 + L` bytes are addressable at `o`, `L` being the declared
length, `read_chunk` leaves the addressable bytes. -/
theorem read_chunk_incomplete (le : Bool) (filedata : List Nat) (o : Nat) (slot : Option Nat)
    (hb : bytes_ok filedata)
    (h : filedata.length < o + 12 + be32 (byte_at filedata o) (byte_at filedata (o + 1))
          (byte_at filedata (o + 2)) (byte_at filedata (o + 3))) :
    read_chunk le filedata o slot = .error .out_of_bounds := by
  generalize hL : be32 (byte_at filedata o) (byte_at filedata (o + 1))
          (byte_at filedata (o + 2)) (byte_at filedata (o + 3)) = L at h
  by_cases h4 : o + 4 ≤ filedata.length
  swap
  · exact read_chunk_oob le filedata o slot (by omega)
  simp only [read_chunk, read_uint32_t_eq le filedata o _ hb h4, hL, store_next,
    Option.map_some', Option.getD_some]
  rcases read_chunkid_t_cases le filedata (o + 4) (some (o + 4)) with ⟨-, v2, r2⟩ | ⟨-, r2⟩
  swap
  · rw [r2]
  rw [r2]
  simp only [store_next, Option.map_some', Option.getD_some, copy_range]
  by_cases h8 : o + 4 + 4 + L ≤ filedata.length
  · rw [if_pos h8]
    simp only [read_uint32_t_oob le filedata (o + 4 + 4 + L) _ (by omega)]
  · rw [if_neg h8]

/-- Counterexample to C13 as stated: the buffer is the first 10 bytes of the 16
bytes of the scenario, so the declared length 4 exceeds the 2 bytes that remain
in the buffer behind the header; `read_chunk` returns a chunk all the same,
with payload and crc taken from behind the buffer, and advances to 16. -/
theorem read_chunk_truncated_returns :
    (test_buffer.take 10).length - 8
      < be32 (byte_at (test_buffer.take 10) 0) (byte_at (test_buffer.take 10) 1)
          (byte_at (test_buffer.take 10) 2) (byte_at (test_buffer.take 10) 3) ∧
    read_chunk true test_buffer 0 (some 0) = .ok (test_chunk, some 16) ∧
    ¬ ∃ e, read_chunk true test_buffer 0 (some 0) = .error e := by
  refine ⟨by decide, rfl, ?_⟩
  rintro ⟨e, he⟩
  cases he

/-- C13, amended: `read_chunk` is not told where the buffer ends and checks
nothing.  When the declared length `L` exceeds the bytes that remain in the
buffer (the first `n` addressable bytes) behind the 8-byte header, it reads the
payload and the crc from behind the buffer: if `12 + L` bytes are addressable at
`o` it returns the chunk made of them and stores `o + 12 + L`; if not, the read
leaves the addressable bytes, which is undefined in the source and not an error
that it reports. -/
theorem read_chunk_no_bounds_check (le : Bool) (filedata : List Nat) (n o L : Nat)
    (next_filedata : Option Nat) (hb : bytes_ok filedata) (hn : n ≤ filedata.length)
    (ho : o + 8 ≤ n)
    (hL : L = be32 (byte_at (filedata.take n) o) (byte_at (filedata.take n) (o + 1))
      (byte_at (filedata.take n) (o + 2)) (byte_at (filedata.take n) (o + 3)))
    (htrunc : n - (o + 8) < L) :
    (o + 12 + L ≤ filedata.length →
      ∃ chunk, read_chunk le filedata o next_filedata
          = .ok (chunk, next_filedata.map (fun _ => o + 12 + L)) ∧
        chunk.length = L ∧ chunk.data = (filedata.drop (o + 8)).take L ∧
        n < o + 8 + chunk.data.length) ∧
    (filedata.length < o + 12 + L →
      read_chunk le filedata o next_filedata = .error .out_of_bounds) := by
  rw [byte_at_take filedata n o (by omega), byte_at_take filedata n (o + 1) (by omega),
    byte_at_take filedata n (o + 2) (by omega), byte_at_take filedata n (o + 3) (by omega)] at hL
  subst hL
  constructor
  · intro h
    have hrd := read_chunk_eq le filedata o next_filedata hb h
    have e : ∀ x, o + 8 + x + 4 = o + 12 + x := by intro x; omega
    simp only [store_next, e] at hrd
    refine ⟨_, hrd, rfl, rfl, ?_⟩
    simp only [List.length_take, List.length_drop]
    omega
  · intro h
    exact read_chunk_incomplete le filedata o next_filedata hb h

/-- Witness of C13, amended: the first 10 of the 16 bytes of the scenario. -/
theorem read_chunk_no_bounds_check_witness :
    (∃ chunk, read_chunk true test_buffer 0 (some 0) = .ok (chunk, some 16) ∧
        chunk.length = 4 ∧ chunk.data = (test_buffer.drop (0 + 8)).take 4 ∧
        10 < 0 + 8 + chunk.data.length) :=
  (read_chunk_no_bounds_check true test_buffer 10 0 4 (some 0) (by decide) (by decide)
    (by decide) (by decide) (by decide)).1 (by decide)

theorem read_chunk_oob_header (le : Bool) (filedata : List Nat) (off : Nat) (slot : Option Nat)
    (h : filedata.length < off + 8) :
    read_chunk le filedata off slot = .error .out_of_bounds := by
  simp only [read_chunk]
  rcases read_uint32_t_cases le filedata off (some off) with ⟨-, v1, r1⟩ | ⟨-, r1⟩
  swap
  · rw [r1]
  rw [r1]
  simp only [store_next, Option.map_some', Option.getD_some]
  rcases read_chunkid_t_cases le filedata (off + 4) (some (off + 4)) with ⟨h2, -, -⟩ | ⟨-, r2⟩
  · omega
  · rw [r2]

theorem last_length_le_sum (cs : List chunk_t) (hne : cs ≠ []) :
    (cs.getLast?.map chunk_t.length).getD 0 ≤ (cs.map chunk_t.length).sum := by
  rw [List.getLast?_eq_getLast _ hne]
  simp only [Option.map_some', Option.getD_some]
  exact List.single_le_sum (by simp) _ (List.mem_map_of_mem _ (List.getLast_mem _))

/-- The loop of `read_chunks` on memory that starts with the records of `cs`,
for a `filedata_size` of at least their total length: the call goes on behind
the records with one more iteration. -/
theorem read_chunks_after_records (le : Bool) (cs : List chunk_t) (post : List Nat)
    (filedata_size : Nat)
    (hcs : ∀ c ∈ cs, c.well_formed ∧
      c.id ≠ { type0 := 0, type1 := 0, type2 := 0, type3 := 0 })
    (hpost : bytes_ok post) (hpos : 0 < post.length)
    (hsize : (wire_records cs).length ≤ filedata_size) :
    ∃ fuel, read_chunks le (wire_records cs ++ post) filedata_size
      = read_chunks_loop le (wire_records cs ++ post) filedata_size (fuel + 1)
          (wire_records cs).length (cs.map chunk_t.length).sum cs := by
  have hwf : ∀ c ∈ cs, c.well_formed := fun c hc => (hcs c hc).1
  have hlen := wire_records_length cs hwf
  have hloop := read_chunks_loop_records le filedata_size cs [] post
    ((wire_records cs ++ post).length + 1 - cs.length) 0 []
    (by intro b hb; cases hb) hpost
    (fun c hc => ⟨(hcs c hc).1, is_zero_eq_false (hcs c hc).2⟩)
    (by intro hne; have := last_length_le_sum cs hne; have := List.length_pos.2 hne; omega)
  simp only [List.nil_append, List.length_nil, Nat.zero_add] at hloop
  have htot : (wire_records cs ++ post).length = (wire_records cs).length + post.length :=
    List.length_append _ _
  have hfuel : (wire_records cs ++ post).length + 1 - cs.length + cs.length
      = (wire_records cs ++ post).length + 1 := by omega
  rw [hfuel] at hloop
  refine ⟨(wire_records cs ++ post).length - cs.length, ?_⟩
  have hf : (wire_records cs ++ post).length + 1 - cs.length
      = (wire_records cs ++ post).length - cs.length + 1 := by omega
  unfold read_chunks
  rw [hloop, hf]

/-- Counterexample to C14 as stated: the buffer is the record of the scenario
followed by 7 bytes, a partial header; the memory goes on behind the buffer.
`read_chunks` reads the header across the end of the buffer and returns a chunk
sequence. -/
theorem read_chunks_partial_header_returns :
    (wire_record test_chunk ++ [0, 0, 0, 0, 0, 0, 0]).length = 23 ∧
    read_chunks true (wire_record test_chunk ++ [0, 0, 0, 0, 0, 0, 0] ++ [0, 0, 0, 0, 0]) 23
      = some (.ok [test_chunk]) ∧
    ¬ ∃ e, read_chunks true
        (wire_record test_chunk ++ [0, 0, 0, 0, 0, 0, 0] ++ [0, 0, 0, 0, 0]) 23
      = some (.error e) := by
  refine ⟨rfl, rfl, ?_⟩
  rintro ⟨e, he⟩
  cases he

/-- C14, amended: `read_chunks` reports no error.  When, behind the complete
records of `cs`, between 1 and 7 bytes remain in the buffer, the guard of the
loop still holds and `read_chunk` is invoked on the partial header, reading
behind `filedata_size`: if the addressable bytes end with the buffer the read
leaves them (undefined in the source), and if they go on so as to complete a
zero-tag record the call returns the chunks of the complete records. -/
theorem read_chunks_partial_header (le : Bool) (cs : List chunk_t) (z : chunk_t)
    (rest : List Nat) (r : Nat)
    (hcs : ∀ c ∈ cs, c.well_formed ∧
      c.id ≠ { type0 := 0, type1 := 0, type2 := 0, type3 := 0 })
    (hrest : bytes_ok rest) (h1 : 1 ≤ rest.length) (h7 : rest.length ≤ 7)
    (hz : z.well_formed) (hz0 : z.id = { type0 := 0, type1 := 0, type2 := 0, type3 := 0 })
    (hr1 : 1 ≤ r) (hr7 : r ≤ 7) :
    read_chunks le (wire_records cs ++ rest) (wire_records cs ++ rest).length
      = some (.error .out_of_bounds) ∧
    read_chunks le (wire_records cs ++ wire_record z) ((wire_records cs).length + r)
      = some (.ok cs) := by
  have hwf : ∀ c ∈ cs, c.well_formed := fun c hc => (hcs c hc).1
  have hlen := wire_records_length cs hwf
  constructor
  · obtain ⟨fuel, hf⟩ := read_chunks_after_records le cs rest (wire_records cs ++ rest).length
      hcs hrest (by omega) (by simp)
    rw [hf, read_chunks_loop_succ, if_pos (by simp only [List.length_append]; omega),
      read_chunk_oob_header le _ _ _ (by simp only [List.length_append]; omega)]
  · have hzlen := wire_record_length z hz.2.1
    obtain ⟨fuel, hf⟩ := read_chunks_after_records le cs (wire_record z)
      ((wire_records cs).length + r) hcs (bytes_ok_wire_record z hz) (by omega) (by omega)
    have hrd := read_chunk_wire_record le (wire_records cs) [] z
      (some (wire_records cs).length) (bytes_ok_wire_records cs hwf)
      (by intro b hb; cases hb) hz
    rw [List.append_nil] at hrd
    rw [hf, read_chunks_loop_succ, if_pos (by omega), hrd]
    simp only [(is_zero_iff z.id).2 hz0, if_true]

/-- Witness of C14, amended: the record of the scenario and 7 bytes. -/
theorem read_chunks_partial_header_witness :
    read_chunks true (wire_records [test_chunk] ++ [0, 0, 0, 0, 0, 0, 0])
        (wire_records [test_chunk] ++ [0, 0, 0, 0, 0, 0, 0]).length
      = some (.error .out_of_bounds) ∧
    read_chunks true (wire_records [test_chunk] ++ wire_record zero_chunk)
        ((wire_records [test_chunk]).length + 7)
      = some (.ok [test_chunk]) :=
  read_chunks_partial_header true [test_chunk] zero_chunk [0, 0, 0, 0, 0, 0, 0] 7
    (by decide) (by decide) (by decide) (by decide) (by decide) rfl (by decide) (by decide)

/-- C15, on the buffer made of the record of the scenario twice (32 bytes, an
exact concatenation of complete records): `read_chunks` invokes `read_chunk` at
the offsets 0, 16 and 32, the last one being `filedata_size`, and the read there
is outside the buffer. -/
theorem read_chunks_calls_behind_size (le : Bool) :
    wire_records [test_chunk, test_chunk] = test_buffer ++ test_buffer ∧
    (test_buffer ++ test_buffer).length = 32 ∧
    read_chunks_calls le (test_buffer ++ test_buffer) 32
      ((test_buffer ++ test_buffer).length + 1) 0 0 = [0, 16, 32] ∧
    read_chunks le (test_buffer ++ test_buffer) 32 = some (.error .out_of_bounds) := by
  cases le <;> exact ⟨rfl, rfl, rfl, rfl⟩



/-! ## Claims on the C interface -/

theorem byte_of_uint32_lt (le : Bool) (v i : Nat) : byte_of_uint32 le v i < 256 := by
  unfold byte_of_uint32
  split <;> exact Nat.mod_lt _ (by norm_num)

/-- A tag that went through `_raw` once is unchanged by going through it again. -/
theorem of_raw_raw_of_raw (le : Bool) (v : Nat) :
    chunkid_t.of_raw le ((chunkid_t.of_raw le v).raw le) = chunkid_t.of_raw le v := by
  simp only [chunkid_t.raw]
  exact of_raw_load le _ _ _ _ (byte_of_uint32_lt le v 0) (byte_of_uint32_lt le v 1)
    (byte_of_uint32_lt le v 2) (byte_of_uint32_lt le v 3)

theorem read_chunkid_t_raw (le : Bool) (filedata : List Nat) (off : Nat) (slot0 slot : Option Nat)
    (id : chunkid_t) (h : read_chunkid_t le filedata off slot0 = .ok (id, slot)) :
    chunkid_t.of_raw le (id.raw le) = id := by
  unfold read_chunkid_t at h
  split at h
  · simp only [Except.ok.injEq, Prod.mk.injEq] at h
    rw [← h.1]
    exact of_raw_raw_of_raw le _
  · cases h

/-- Where `read_chunk` returns a chunk, `xng_get_next_chunk` returns the view of
the same record and stores the same position. -/
theorem xng_get_next_chunk_of_read_chunk (le : Bool) (filedata : List Nat) (off : Nat)
    (chunk : chunk_t) (slot0 slot : Option Nat)
    (h : read_chunk le filedata off slot0 = .ok (chunk, slot)) :
    xng_get_next_chunk le filedata off slot0
      = .ok ({ id := chunk.id, length := chunk.length, crc := chunk.crc, data := off + 8 },
          slot) := by
  simp only [read_chunk] at h
  simp only [xng_get_next_chunk]
  rcases read_uint32_t_cases le filedata off (some off) with ⟨-, v1, r1⟩ | ⟨-, r1⟩
  swap
  · rw [r1] at h; cases h
  rw [r1] at h ⊢
  simp only [store_next, Option.map_some', Option.getD_some] at h ⊢
  rcases read_chunkid_t_cases le filedata (off + 4) (some (off + 4)) with ⟨-, w, r2⟩ | ⟨-, r2⟩
  swap
  · rw [r2] at h; cases h
  have hraw := read_chunkid_t_raw le filedata (off + 4) _ _ w r2
  rw [r2] at h ⊢
  simp only [store_next, Option.map_some', Option.getD_some] at h ⊢
  cases r3 : copy_range filedata (off + 4 + 4) v1 with
  | error e => rw [r3] at h; cases h
  | ok data =>
    rw [r3] at h
    simp only at h
    cases r4 : read_uint32_t le filedata (off + 4 + 4 + v1) (some (off + 4 + 4 + v1)) with
    | error e => rw [r4] at h; cases h
    | ok v4 =>
      obtain ⟨crc, s4⟩ := v4
      rw [r4] at h
      simp only [Except.ok.injEq, Prod.mk.injEq] at h
      obtain ⟨hc, hs⟩ := h
      rw [← hc, ← hs, hraw]

theorem take_drop_tag_and_data (filedata : List Nat) (o L : Nat) (h : o + 8 ≤ filedata.length) :
    (filedata.drop (o + 4)).take (L + 4)
      = [byte_at filedata (o + 4), byte_at filedata (o + 5), byte_at filedata (o + 6),
          byte_at filedata (o + 7)] ++ (filedata.drop (o + 8)).take L := by
  have g : ∀ i, i < filedata.length → filedata.drop i = byte_at filedata i :: filedata.drop (i + 1) := by
    intro i hi
    rw [List.drop_eq_getElem_cons hi]
    simp only [byte_at, List.getD_eq_getElem _ _ hi]
  rw [g (o + 4) (by omega), g (o + 4 + 1) (by omega), g (o + 4 + 1 + 1) (by omega),
    g (o + 4 + 1 + 1 + 1) (by omega)]
  have e : L + 4 = L + 1 + 1 + 1 + 1 := by omega
  rw [e]
  simp only [List.take_succ_cons, List.cons_append, List.nil_append]

/-- C19: at an offset `o` where a complete record starts, `xng_get_next_chunk`
and `read_chunk` return the same id, length, crc and next position, the slice of
the buffer that the view designates is the data of the owning chunk, and
`xng_check_chunk_crc` on the view returns what `check_chunk` returns on the
owning chunk, for every CRC function. -/
theorem view_is_owning_chunk (ndebug le : Bool) (filedata : List Nat) (o L : Nat)
    (next_filedata : Option Nat) (f : crc32computationfunc_t) (hb : bytes_ok filedata)
    (hL : L = be32 (byte_at filedata o) (byte_at filedata (o + 1)) (byte_at filedata (o + 2))
      (byte_at filedata (o + 3)))
    (h : o + 12 + L ≤ filedata.length) :
    ∃ chunk view next result,
      read_chunk le filedata o next_filedata = .ok (chunk, next) ∧
      xng_get_next_chunk le filedata o next_filedata = .ok (view, next) ∧
      view.id = chunk.id ∧ view.length = chunk.length ∧ view.crc = chunk.crc ∧
      (filedata.drop view.data).take view.length = chunk.data ∧
      check_chunk ndebug chunk (some f) = .ok result ∧
      xng_check_chunk_crc filedata view f = .ok result := by
  subst hL
  have hrd := read_chunk_eq le filedata o next_filedata hb h
  have hview := xng_get_next_chunk_of_read_chunk le filedata o _ next_filedata _ hrd
  refine ⟨_, _, _, _, hrd, hview, rfl, rfl, rfl, rfl, check_chunk_eq ndebug _ f, ?_⟩
  simp only [xng_check_chunk_crc, copy_range]
  have e : o + 8 - 4 = o + 4 := by omega
  rw [if_neg (by omega), e, if_pos (by omega),
    take_drop_tag_and_data filedata o _ (by omega)]
  rfl

/-- Witness of C19: the record of the scenario at offset 0, with
`compute_crc32`. -/
theorem view_is_owning_chunk_witness :
    ∃ chunk view next result,
      read_chunk true test_buffer 0 (some 0) = .ok (chunk, next) ∧
      xng_get_next_chunk true test_buffer 0 (some 0) = .ok (view, next) ∧
      view.id = chunk.id ∧ view.length = chunk.length ∧ view.crc = chunk.crc ∧
      (test_buffer.drop view.data).take view.length = chunk.data ∧
      check_chunk false chunk (some compute_crc32) = .ok result ∧
      xng_check_chunk_crc test_buffer view compute_crc32 = .ok result :=
  view_is_owning_chunk false true test_buffer 0 4 (some 0) compute_crc32 (by decide)
    (by decide) (by decide)



theorem xng_iterate_chunks_loop_succ {σ : Type} (le : Bool) (data : List Nat) (length : Nat)
    (cb : Option (xng_chunk_iteration_func_t σ)) (fuel data_iter iter_length chunk_count : Nat)
    (context : σ) :
    xng_iterate_chunks_loop le data length cb (fuel + 1) data_iter iter_length chunk_count context
      = if iter_length < length then
          match xng_get_next_chunk le data data_iter (some data_iter) with
          | .error e => some (.error e)
          | .ok (chunk, slot) =>
            if chunk.id.is_zero then some (.ok (chunk_count, context))
            else xng_iterate_chunks_loop le data length cb fuel (slot.getD data_iter)
              (iter_length + (xng_chunkheader_min_size + chunk.length)) (chunk_count + 1)
              (visit cb context chunk)
        else some (.ok (chunk_count, context)) := by
  cases cb <;> rfl

/-- The loop of `xng_iterate_chunks` over records that lie inside `length`: it
visits the view of each record in order and goes on behind them. -/
theorem xng_iterate_chunks_loop_records {σ : Type} (le : Bool) (length : Nat)
    (cb : Option (xng_chunk_iteration_func_t σ)) (cs : List chunk_t) :
    ∀ (pre post : List Nat) (fuel iter_length chunk_count : Nat) (context : σ),
      bytes_ok pre → bytes_ok post →
      (∀ c ∈ cs, c.well_formed ∧ c.id.is_zero = false) →
      iter_length + (wire_records cs).length ≤ length →
      xng_iterate_chunks_loop le (pre ++ (wire_records cs ++ post)) length cb (fuel + cs.length)
          pre.length iter_length chunk_count context
        = xng_iterate_chunks_loop le (pre ++ (wire_records cs ++ post)) length cb fuel
          (pre.length + (wire_records cs).length) (iter_length + (wire_records cs).length)
          (chunk_count + cs.length) ((views_from pre.length cs).foldl (visit cb) context) := by
  induction cs with
  | nil =>
    intro pre post fuel iter_length chunk_count context _ _ _ _
    simp [wire_records, views_from]
  | cons c cs ih =>
    intro pre post fuel iter_length chunk_count context hpre hpost hcs hlen
    obtain ⟨hc, hz⟩ := hcs c (List.mem_cons_self c cs)
    have hcs2 : ∀ d ∈ cs, d.well_formed ∧ d.id.is_zero = false :=
      fun d hd => hcs d (List.mem_cons_of_mem c hd)
    have hwl := wire_record_length c hc.2.1
    have hlen2 : iter_length + ((wire_record c).length + (wire_records cs).length) ≤ length := by
      simpa only [wire_records, List.length_append] using hlen
    have hfuel : fuel + (c :: cs).length = (fuel + cs.length) + 1 := by
      simp only [List.length_cons]; omega
    have hmem : pre ++ (wire_records (c :: cs) ++ post)
        = pre ++ (wire_record c ++ (wire_records cs ++ post)) := by
      simp only [wire_records, List.append_assoc]
    have hrd := read_chunk_wire_record le pre (wire_records cs ++ post) c (some pre.length) hpre
      (bytes_ok_append.2 ⟨bytes_ok_wire_records cs (fun d hd => (hcs2 d hd).1), hpost⟩) hc
    rw [hfuel, hmem, xng_iterate_chunks_loop_succ, if_pos (by omega),
      xng_get_next_chunk_of_read_chunk le _ _ _ _ _ hrd]
    simp only [store_next, Option.map_some', Option.getD_some, hz, Bool.false_eq_true, if_false]
    have hpl : pre.length + (12 + c.length) = (pre ++ wire_record c).length := by
      rw [List.length_append, hwl]
    have hmem2 : pre ++ (wire_record c ++ (wire_records cs ++ post))
        = (pre ++ wire_record c) ++ (wire_records cs ++ post) := by
      simp only [List.append_assoc]
    rw [hpl, hmem2, ih (pre ++ wire_record c) post fuel _ _ _
      (bytes_ok_append.2 ⟨hpre, bytes_ok_wire_record c hc⟩) hpost hcs2 (by
        simp only [xng_chunkheader_min_size]; omega)]
    have h12 : xng_chunkheader_min_size = 12 := rfl
    simp only [wire_records, views_from, List.length_append, List.length_cons, List.foldl_cons,
      hwl, h12, Nat.add_assoc]
    rw [Nat.add_comm 1 cs.length]

theorem views_from_payload (cs : List chunk_t) (post : List Nat)
    (hcs : ∀ c ∈ cs, c.well_formed) :
    ∀ pre : List Nat, (views_from pre.length cs).map
        (fun v => ((pre ++ (wire_records cs ++ post)).drop v.data).take v.length)
      = cs.map chunk_t.data := by
  induction cs with
  | nil => intro pre; rfl
  | cons c cs ih =>
    intro pre
    have hc := hcs c (List.mem_cons_self c cs)
    have hpl : pre.length + (12 + c.length) = (pre ++ wire_record c).length := by
      rw [List.length_append, wire_record_length c hc.2.1]
    have hmem : pre ++ (wire_records (c :: cs) ++ post)
        = (pre ++ wire_record c) ++ (wire_records cs ++ post) := by
      simp only [wire_records, List.append_assoc]
    simp only [views_from, List.map_cons]
    rw [hmem, hpl, ih (fun d hd => hcs d (List.mem_cons_of_mem c hd)) (pre ++ wire_record c)]
    congr 1
    rw [List.append_assoc, List.drop_append, ← hc.2.1]
    simp [wire_record, be32_bytes]


/-- C18: on a buffer that is the exact concatenation of the records of `k >= 1`
chunks with non-zero tags, `xng_iterate_chunks` with the length of the buffer
returns `k` and calls the callback `k` times, in file order, the i-th time on the
view with the id, length and crc of the i-th record and with the position of
its payload in the buffer (record offset + 8) as data; whatever lies behind the
buffer plays no part. -/
theorem xng_iterate_chunks_records {σ : Type} (ndebug le : Bool) (cs : List chunk_t)
    (post : List Nat) (cb : xng_chunk_iteration_func_t σ) (context : σ)
    (hne : cs ≠ [])
    (hcs : ∀ c ∈ cs, c.well_formed ∧
      c.id ≠ { type0 := 0, type1 := 0, type2 := 0, type3 := 0 })
    (hpost : bytes_ok post) :
    xng_iterate_chunks ndebug le (wire_records cs ++ post) (wire_records cs).length (some cb)
        context
      = some (.ok (cs.length, (views_from 0 cs).foldl (fun s v => (cb v s).2) context)) ∧
    xng_iterate_chunks ndebug le (wire_records cs ++ post) (wire_records cs).length
        (some log_view) []
      = some (.ok (cs.length, views_from 0 cs)) ∧
    (views_from 0 cs).length = cs.length ∧
    (views_from 0 cs).map (fun v => ((wire_records cs).drop v.data).take v.length)
      = cs.map chunk_t.data := by
  have hwf : ∀ c ∈ cs, c.well_formed := fun c hc => (hcs c hc).1
  have hlen := wire_records_length cs hwf
  have hpos : 0 < cs.length := List.length_pos.2 hne
  have key : ∀ (τ : Type) (f : xng_chunk_iteration_func_t τ) (ctx : τ),
      xng_iterate_chunks ndebug le (wire_records cs ++ post) (wire_records cs).length (some f) ctx
        = some (.ok (cs.length, (views_from 0 cs).foldl (visit (some f)) ctx)) := by
    intro τ f ctx
    have hassert : (!ndebug && !(decide ((wire_records cs).length ≥ xng_chunkheader_min_size)))
        = false := by
      have : (wire_records cs).length ≥ xng_chunkheader_min_size := by
        simp only [xng_chunkheader_min_size]; omega
      simp [this]
    have hloop := xng_iterate_chunks_loop_records le (wire_records cs).length (some f) cs [] post
      ((wire_records cs).length + 1 - cs.length) 0 0 ctx
      (by intro b hb; cases hb) hpost
      (fun c hc => ⟨(hcs c hc).1, is_zero_eq_false (hcs c hc).2⟩) (by omega)
    simp only [List.nil_append, List.length_nil, Nat.zero_add] at hloop
    have hfuel : (wire_records cs).length + 1 - cs.length + cs.length
        = (wire_records cs).length + 1 := by omega
    rw [hfuel] at hloop
    obtain ⟨g, hg⟩ : ∃ g, (wire_records cs).length + 1 - cs.length = g + 1 :=
      ⟨(wire_records cs).length - cs.length, by omega⟩
    unfold xng_iterate_chunks
    rw [hassert]
    simp only [Bool.false_eq_true, if_false]
    rw [hloop, hg, xng_iterate_chunks_loop_succ, if_neg (by omega)]
  refine ⟨key σ cb context, ?_, ?_, ?_⟩
  · rw [key (List xng_chunk_t) log_view []]
    have hfold : ∀ (vs acc : List xng_chunk_t),
        vs.foldl (visit (some log_view)) acc = acc ++ vs := by
      intro vs
      induction vs with
      | nil => intro acc; simp
      | cons v vs ih =>
        intro acc
        simp only [List.foldl_cons, ih, visit, log_view, List.append_assoc, List.singleton_append]
    rw [hfold, List.nil_append]
  · have hl : ∀ (cs : List chunk_t) (off : Nat), (views_from off cs).length = cs.length := by
      intro cs
      induction cs with
      | nil => intro off; rfl
      | cons c cs ih => intro off; simp only [views_from, List.length_cons, ih]
    exact hl cs 0
  · have h := views_from_payload cs [] hwf []
    simpa using h

/-- Witness of C18: the record of the scenario twice; the callback is called on
the views at the payload positions 8 and 24. -/
theorem xng_iterate_chunks_records_witness :
    xng_iterate_chunks false true (wire_records [test_chunk, test_chunk] ++ [])
        (wire_records [test_chunk, test_chunk]).length (some log_view) []
      = some (.ok (2,
          [{ id := test_chunk.id, length := 4, crc := test_chunk.crc, data := 8 },
           { id := test_chunk.id, length := 4, crc := test_chunk.crc, data := 24 }])) :=
  (xng_iterate_chunks_records false true [test_chunk, test_chunk] [] log_view []
    (by decide) (by decide) (by decide)).2.1



/-! ## The table and the signed reads -/

set_option maxRecDepth 100000 in
theorem crc32_table_length : crc32_table.length = 256 := by decide

/-- C21: the table has 256 entries, and for every index `n` in 0..255 the entry
`crc32_table[n]` is the value obtained from `n` by applying 8 times the step
`c -> (c >> 1) XOR 0xEDB88320` if `c` is odd, else `c >> 1`. -/
theorem crc32_table_is_polynomial_table :
    crc32_table.length = 256 ∧
    ∀ n, n < 256 →
      crc32_table[n]? = some
        ((fun c => if c % 2 = 1 then (c >>> 1) ^^^ 0xEDB88320 else c >>> 1)^[8] n) := by
  have hlen : crc32_table.length = 256 := crc32_table_length
  refine ⟨hlen, ?_⟩
  intro n hn
  have h := crc32_table_eq n hn
  rw [List.getD_eq_getElem _ _ (by omega)] at h
  rw [List.getElem?_eq_getElem (by omega), h]
  rfl

/-- Witness of C21: the entries at the indices 1 and 255. -/
theorem crc32_table_is_polynomial_table_witness :
    crc32_table[1]? = some 1996959894 ∧ crc32_table[255]? = some 755167117 :=
  ⟨crc32_table_is_polynomial_table.2 1 (by decide),
   crc32_table_is_polynomial_table.2 255 (by decide)⟩

theorem to_signed_8 (u : Nat) (h : u < 256) : to_signed 8 (u : Int) = twos_complement 8 u := by
  simp only [to_signed, twos_complement]
  norm_num
  split <;> omega

theorem to_signed_16 (u : Nat) (h : u < 2 ^ 16) :
    to_signed 16 (u : Int) = twos_complement 16 u := by
  simp only [to_signed, twos_complement]
  norm_num at h ⊢
  split <;> omega

theorem to_signed_32 (u : Nat) (h : u < 2 ^ 32) :
    to_signed 32 (u : Int) = twos_complement 32 u := by
  simp only [to_signed, twos_complement]
  norm_num at h ⊢
  split <;> omega

theorem storage_of_signed_16 (u : Nat) (h : u < 2 ^ 16) :
    storage_of_signed 16 (to_signed 16 (u : Int)) = u := by
  simp only [to_signed, storage_of_signed]
  norm_num at h ⊢
  omega

theorem storage_of_signed_32 (u : Nat) (h : u < 2 ^ 32) :
    storage_of_signed 32 (to_signed 32 (u : Int)) = u := by
  simp only [to_signed, storage_of_signed]
  norm_num at h ⊢
  omega

theorem to_signed_32_mod (n : Nat) :
    to_signed 32 ((n % 2 ^ 32 : Nat) : Int) = to_signed 32 (n : Int) := by
  simp only [to_signed]
  norm_num

theorem to_signed_16_mod (n : Nat) :
    to_signed 16 ((n % 2 ^ 16 : Nat) : Int) = to_signed 16 (n : Int) := by
  simp only [to_signed]
  norm_num

theorem load_uint32_lt (le : Bool) (b0 b1 b2 b3 : Nat)
    (h0 : b0 < 256) (h1 : b1 < 256) (h2 : b2 < 256) (h3 : b3 < 256) :
    load_uint32 le b0 b1 b2 b3 < 2 ^ 32 := by
  cases le <;> simp only [load_uint32] <;> norm_num <;> omega

theorem load_uint16_lt (le : Bool) (b0 b1 : Nat) (h0 : b0 < 256) (h1 : b1 < 256) :
    load_uint16 le b0 b1 < 2 ^ 16 := by
  cases le <;> simp only [load_uint16] <;> norm_num <;> omega

/-- The signed swap of a loaded value is the signed reading of the unsigned
swap. -/
theorem endian_swap_int32_load (le : Bool) (b0 b1 b2 b3 : Nat)
    (h0 : b0 < 256) (h1 : b1 < 256) (h2 : b2 < 256) (h3 : b3 < 256) :
    endian_swap_int32 le (to_signed 32 (load_uint32 le b0 b1 b2 b3 : Nat))
      = to_signed 32 (endian_swap_uint32 le (load_uint32 le b0 b1 b2 b3) : Nat) := by
  simp only [endian_swap_int32, endian_swap_uint32,
    storage_of_signed_32 _ (load_uint32_lt le b0 b1 b2 b3 h0 h1 h2 h3)]
  rw [to_signed_32_mod]

theorem endian_swap_int16_load (le : Bool) (b0 b1 : Nat) (h0 : b0 < 256) (h1 : b1 < 256) :
    endian_swap_int16 le (to_signed 16 (load_uint16 le b0 b1 : Nat))
      = to_signed 16 (endian_swap_uint16 le (load_uint16 le b0 b1) : Nat) := by
  simp only [endian_swap_int16, endian_swap_uint16,
    storage_of_signed_16 _ (load_uint16_lt le b0 b1 h0 h1)]
  rw [to_signed_16_mod]

theorem be32_lt (b0 b1 b2 b3 : Nat)
    (h0 : b0 < 256) (h1 : b1 < 256) (h2 : b2 < 256) (h3 : b3 < 256) :
    be32 b0 b1 b2 b3 < 2 ^ 32 := by
  simp only [be32]; norm_num; omega

theorem read_int32_t_eq (le : Bool) (filedata : List Nat) (off : Nat) (slot : Option Nat)
    (hb : bytes_ok filedata) (h : off + 4 ≤ filedata.length) :
    read_int32_t le filedata off slot
      = .ok (twos_complement 32 (be32 (byte_at filedata off) (byte_at filedata (off + 1))
          (byte_at filedata (off + 2)) (byte_at filedata (off + 3))),
          store_next slot (off + 4)) := by
  have l0 := byte_at_lt hb off
  have l1 := byte_at_lt hb (off + 1)
  have l2 := byte_at_lt hb (off + 2)
  have l3 := byte_at_lt hb (off + 3)
  simp only [read_int32_t, getElem?_eq_byte_at (show off < filedata.length by omega),
    getElem?_eq_byte_at (show off + 1 < filedata.length by omega),
    getElem?_eq_byte_at (show off + 2 < filedata.length by omega),
    getElem?_eq_byte_at (show off + 3 < filedata.length by omega)]
  rw [← to_signed_32 _ (be32_lt _ _ _ _ l0 l1 l2 l3)]
  cases le
  · simp [load_uint32, be32]
  · simp [endian_swap_int32_load true _ _ _ _ l0 l1 l2 l3, endian_swap_load _ _ _ _ l0 l1 l2 l3]

theorem read_int16_t_eq (le : Bool) (filedata : List Nat) (off : Nat) (slot : Option Nat)
    (hb : bytes_ok filedata) (h : off + 2 ≤ filedata.length) :
    read_int16_t le filedata off slot
      = .ok (twos_complement 16 (byte_at filedata off * 2 ^ 8 + byte_at filedata (off + 1)),
          store_next slot (off + 2)) := by
  have l0 := byte_at_lt hb off
  have l1 := byte_at_lt hb (off + 1)
  simp only [read_int16_t, getElem?_eq_byte_at (show off < filedata.length by omega),
    getElem?_eq_byte_at (show off + 1 < filedata.length by omega)]
  rw [← to_signed_16 _ (by norm_num; omega)]
  cases le
  · simp [load_uint16]
  · simp [endian_swap_int16_load true _ _ l0 l1, endian_swap_load_uint16 _ _ l0 l1]

theorem read_int8_t_eq (filedata : List Nat) (off : Nat) (slot : Option Nat)
    (hb : bytes_ok filedata) (h : off + 1 ≤ filedata.length) :
    read_int8_t filedata off slot
      = .ok (twos_complement 8 (byte_at filedata off), store_next slot (off + 1)) := by
  simp only [read_int8_t, getElem?_eq_byte_at (show off < filedata.length by omega),
    to_signed_8 _ (byte_at_lt hb off)]

/-- C22: with enough bytes available at offset `o`, `read_int8_t`,
`read_int16_t` and `read_int32_t` return the two's-complement signed reading, at
width 8, 16 and 32, of the value that `read_uint8_t`, `read_uint16_t` and
`read_uint32_t` return for the same bytes, and store the same next position,
`o + 1`, `o + 2` and `o + 4`. -/
theorem signed_cursor_reads (le : Bool) (b : List Nat) (o : Nat) (next_filedata : Option Nat)
    (hb : bytes_ok b) :
    (o + 1 ≤ b.length → ∃ v next,
      read_uint8_t b o next_filedata = .ok (v, next) ∧
      read_int8_t b o next_filedata = .ok (twos_complement 8 v, next) ∧
      next = next_filedata.map (fun _ => o + 1)) ∧
    (o + 2 ≤ b.length → ∃ v next,
      read_uint16_t le b o next_filedata = .ok (v, next) ∧
      read_int16_t le b o next_filedata = .ok (twos_complement 16 v, next) ∧
      next = next_filedata.map (fun _ => o + 2)) ∧
    (o + 4 ≤ b.length → ∃ v next,
      read_uint32_t le b o next_filedata = .ok (v, next) ∧
      read_int32_t le b o next_filedata = .ok (twos_complement 32 v, next) ∧
      next = next_filedata.map (fun _ => o + 4)) :=
  ⟨fun h => ⟨_, _, read_uint8_t_eq b o next_filedata h, read_int8_t_eq b o next_filedata hb h,
      rfl⟩,
   fun h => ⟨_, _, read_uint16_t_eq le b o next_filedata hb h,
      read_int16_t_eq le b o next_filedata hb h, rfl⟩,
   fun h => ⟨_, _, read_uint32_t_eq le b o next_filedata hb h,
      read_int32_t_eq le b o next_filedata hb h, rfl⟩⟩

/-- Witness of C22: bytes with the top bit set, read at offset 1 on a
little-endian host. -/
theorem signed_cursor_reads_witness :
    (∃ v next, read_uint8_t [0, 0xFF, 0xFF, 0xFF, 0xFE] 1 (some 1) = .ok (v, next) ∧
      read_int8_t [0, 0xFF, 0xFF, 0xFF, 0xFE] 1 (some 1) = .ok (twos_complement 8 v, next) ∧
      next = (some 1).map (fun _ => 1 + 1)) ∧
    (∃ v next, read_uint16_t true [0, 0xFF, 0xFF, 0xFF, 0xFE] 1 (some 1) = .ok (v, next) ∧
      read_int16_t true [0, 0xFF, 0xFF, 0xFF, 0xFE] 1 (some 1)
        = .ok (twos_complement 16 v, next) ∧
      next = (some 1).map (fun _ => 1 + 2)) ∧
    (∃ v next, read_uint32_t true [0, 0xFF, 0xFF, 0xFF, 0xFE] 1 (some 1) = .ok (v, next) ∧
      read_int32_t true [0, 0xFF, 0xFF, 0xFF, 0xFE] 1 (some 1)
        = .ok (twos_complement 32 v, next) ∧
      next = (some 1).map (fun _ => 1 + 4)) :=
  ⟨(signed_cursor_reads true [0, 0xFF, 0xFF, 0xFF, 0xFE] 1 (some 1) (by decide)).1 (by decide),
   (signed_cursor_reads true [0, 0xFF, 0xFF, 0xFF, 0xFE] 1 (some 1) (by decide)).2.1
     (by decide),
   (signed_cursor_reads true [0, 0xFF, 0xFF, 0xFF, 0xFE] 1 (some 1) (by decide)).2.2
     (by decide)⟩



/-! ## Claims on the loop of `xng_iterate_chunks` -/

/-- The loop of `xng_iterate_chunks` ends before its fuel does, and a count it
returns stays below `length / 12 + 1`. -/
theorem xng_iterate_chunks_loop_bounded {σ : Type} (le : Bool) (data : List Nat) (length : Nat)
    (cb : Option (xng_chunk_iteration_func_t σ)) :
    ∀ (fuel data_iter iter_length chunk_count : Nat) (context : σ),
      1 ≤ fuel → length ≤ 12 * (fuel - 1) + iter_length →
      12 * chunk_count ≤ iter_length → 12 * chunk_count < length + 12 →
      ∃ r, xng_iterate_chunks_loop le data length cb fuel data_iter iter_length chunk_count
          context = some r ∧
        ∀ n c, r = .ok (n, c) → 12 * n < length + 12 := by
  intro fuel
  induction fuel with
  | zero => intro _ _ _ _ h; omega
  | succ fuel ih =>
    intro data_iter iter_length chunk_count context _ hfuel hcnt hbound
    rw [xng_iterate_chunks_loop_succ]
    by_cases hg : iter_length < length
    · rw [if_pos hg]
      cases hr : xng_get_next_chunk le data data_iter (some data_iter) with
      | error e => exact ⟨_, rfl, fun n c h => by cases h⟩
      | ok v =>
        obtain ⟨chunk, slot⟩ := v
        simp only
        cases hz : chunk.id.is_zero
        · simp only [Bool.false_eq_true, if_false]
          have h12 : xng_chunkheader_min_size = 12 := rfl
          rw [h12]
          exact ih _ _ _ _ (by omega) (by omega) (by omega) (by omega)
        · simp only [if_true]
          refine ⟨_, rfl, fun n c h => ?_⟩
          simp only [Except.ok.injEq, Prod.mk.injEq] at h
          omega
    · rw [if_neg hg]
      refine ⟨_, rfl, fun n c h => ?_⟩
      simp only [Except.ok.injEq, Prod.mk.injEq] at h
      omega

/-- With counters that do not wrap, the call of `xng_iterate_chunks` ends for
every buffer, length and callback, and a chunk count it returns is at most
`ceil(length / 12)`: an iteration that does not stop on a zero tag goes on with
`iter_length` increased by `12 + chunk.length`, which is at least 12. -/
theorem xng_iterate_chunks_returns {σ : Type} (ndebug le : Bool) (data : List Nat)
    (length : Nat) (cb : Option (xng_chunk_iteration_func_t σ)) (context : σ) :
    (∃ r, xng_iterate_chunks ndebug le data length cb context = some r) ∧
    (∀ n c, xng_iterate_chunks ndebug le data length cb context = some (.ok (n, c)) →
      n ≤ (length + 11) / 12) ∧
    (∀ (fuel data_iter iter_length chunk_count : Nat) (ctx : σ) (chunk : xng_chunk_t)
        (slot : Option Nat),
      iter_length < length →
      xng_get_next_chunk le data data_iter (some data_iter) = .ok (chunk, slot) →
      chunk.id.is_zero = false →
      xng_iterate_chunks_loop le data length cb (fuel + 1) data_iter iter_length chunk_count ctx
        = xng_iterate_chunks_loop le data length cb fuel (slot.getD data_iter)
            (iter_length + (12 + chunk.length)) (chunk_count + 1) (visit cb ctx chunk) ∧
      iter_length + 12 ≤ iter_length + (12 + chunk.length)) := by
  refine ⟨?_, ?_, ?_⟩
  · unfold xng_iterate_chunks
    split
    · exact ⟨_, rfl⟩
    · obtain ⟨r, hr, -⟩ := xng_iterate_chunks_loop_bounded le data length cb (length + 1) 0 0 0
        context (by omega) (by omega) (by omega) (by omega)
      exact ⟨r, hr⟩
  · intro n c h
    unfold xng_iterate_chunks at h
    split at h
    · cases h
    · obtain ⟨r, hr, hb⟩ := xng_iterate_chunks_loop_bounded le data length cb (length + 1) 0 0 0
        context (by omega) (by omega) (by omega) (by omega)
      rw [hr] at h
      simp only [Option.some.injEq] at h
      have := hb n c h
      omega
  · intro fuel data_iter iter_length chunk_count ctx chunk slot hg hr hz
    refine ⟨?_, by omega⟩
    rw [xng_iterate_chunks_loop_succ, if_pos hg, hr]
    simp only [hz, Bool.false_eq_true, if_false]
    rfl

/-- The record of the scenario twice with length 32: the count 2 is at most
`ceil(32 / 12) = 3`. -/
theorem xng_iterate_chunks_returns_example :
    xng_iterate_chunks false true (test_buffer ++ test_buffer) 32 (some (constant_status 0)) ()
      = some (.ok (2, ())) ∧
    (2 : Nat) ≤ (32 + 11) / 12 :=
  ⟨rfl, (xng_iterate_chunks_returns false true (test_buffer ++ test_buffer) 32
    (some (constant_status 0)) ()).2.1 2 () rfl⟩

theorem map_result_map_result {α β γ : Type} (f : α → β) (g : β → γ)
    (r : Option (Except fault α)) :
    map_result g (map_result f r) = map_result (fun a => g (f a)) r := by
  cases r with
  | none => rfl
  | some e => cases e <;> rfl

/-- The views logged from a log that is not empty are the log followed by the
views logged from the empty log. -/
theorem xng_iterate_chunks_loop_log (le : Bool) (data : List Nat) (length : Nat) :
    ∀ (fuel data_iter iter_length chunk_count : Nat) (log : List xng_chunk_t),
      xng_iterate_chunks_loop le data length (some log_view) fuel data_iter iter_length
          chunk_count log
        = map_result (fun r => (r.1, log ++ r.2))
            (xng_iterate_chunks_loop le data length (some log_view) fuel data_iter iter_length
              chunk_count []) := by
  intro fuel
  induction fuel with
  | zero => intro _ _ _ _; rfl
  | succ fuel ih =>
    intro data_iter iter_length chunk_count log
    rw [xng_iterate_chunks_loop_succ, xng_iterate_chunks_loop_succ]
    by_cases hg : iter_length < length
    · rw [if_pos hg, if_pos hg]
      cases hr : xng_get_next_chunk le data data_iter (some data_iter) with
      | error e => rfl
      | ok v =>
        obtain ⟨chunk, slot⟩ := v
        simp only
        cases hz : chunk.id.is_zero
        · simp only [Bool.false_eq_true, if_false]
          rw [ih _ _ _ (visit (some log_view) log chunk),
            ih _ _ _ (visit (some log_view) [] chunk), map_result_map_result]
          simp only [visit, log_view, List.nil_append, List.append_assoc]
        · simp [map_result]
    · rw [if_neg hg, if_neg hg]
      simp [map_result]

/-- The loop of `xng_iterate_chunks` with any callback returns the count of the
logging run, and the context that the callback leaves when called on the logged
views in order. -/
theorem xng_iterate_chunks_loop_visits {σ : Type} (le : Bool) (data : List Nat) (length : Nat)
    (cb : Option (xng_chunk_iteration_func_t σ)) :
    ∀ (fuel data_iter iter_length chunk_count : Nat) (context : σ),
      xng_iterate_chunks_loop le data length cb fuel data_iter iter_length chunk_count context
        = map_result (fun r => (r.1, r.2.foldl (visit cb) context))
            (xng_iterate_chunks_loop le data length (some log_view) fuel data_iter iter_length
              chunk_count []) := by
  intro fuel
  induction fuel with
  | zero => intro _ _ _ _; rfl
  | succ fuel ih =>
    intro data_iter iter_length chunk_count context
    rw [xng_iterate_chunks_loop_succ, xng_iterate_chunks_loop_succ]
    by_cases hg : iter_length < length
    · rw [if_pos hg, if_pos hg]
      cases hr : xng_get_next_chunk le data data_iter (some data_iter) with
      | error e => rfl
      | ok v =>
        obtain ⟨chunk, slot⟩ := v
        simp only
        cases hz : chunk.id.is_zero
        · simp only [Bool.false_eq_true, if_false]
          rw [ih _ _ _ (visit cb context chunk),
            xng_iterate_chunks_loop_log le data length _ _ _ _ (visit (some log_view) [] chunk),
            map_result_map_result]
          simp only [visit, log_view, List.nil_append, List.foldl_append, List.foldl_cons,
            List.foldl_nil]
        · simp [map_result]
    · rw [if_neg hg, if_neg hg]
      simp [map_result]

theorem xng_iterate_chunks_visits {σ : Type} (ndebug le : Bool) (data : List Nat) (length : Nat)
    (cb : Option (xng_chunk_iteration_func_t σ)) (context : σ) :
    xng_iterate_chunks ndebug le data length cb context
      = map_result (fun r => (r.1, r.2.foldl (visit cb) context))
          (xng_iterate_chunks ndebug le data length (some log_view) []) := by
  unfold xng_iterate_chunks
  split
  · rfl
  · exact xng_iterate_chunks_loop_visits le data length cb _ 0 0 0 context

/-- C25: two callbacks that differ only in the integer they return give the same
call of `xng_iterate_chunks`, count and context; the count with a callback is
the count with a null callback; and every call visits, in order, the views that
the logging callback records, whatever the callback returns.  A callback that
returns 5 is called on both records of a two-record buffer. -/
theorem xng_iterate_chunks_ignores_status {σ : Type} (ndebug le : Bool) (data : List Nat)
    (length : Nat) (cb1 cb2 : xng_chunk_iteration_func_t σ) (context : σ)
    (hsame : ∀ v s, (cb1 v s).2 = (cb2 v s).2) :
    xng_iterate_chunks ndebug le data length (some cb1) context
      = xng_iterate_chunks ndebug le data length (some cb2) context ∧
    map_result Prod.fst (xng_iterate_chunks ndebug le data length (some cb1) context)
      = map_result Prod.fst
          (xng_iterate_chunks ndebug le data length
            (none : Option (xng_chunk_iteration_func_t σ)) context) ∧
    xng_iterate_chunks ndebug le data length (some cb1) context
      = map_result (fun r => (r.1, r.2.foldl (fun s v => (cb1 v s).2) context))
          (xng_iterate_chunks ndebug le data length (some log_view) []) ∧
    xng_iterate_chunks ndebug le (test_buffer ++ test_buffer ++ wire_record zero_chunk) 44
        (some (constant_status 5)) ()
      = xng_iterate_chunks ndebug le (test_buffer ++ test_buffer ++ wire_record zero_chunk) 44
        (some (constant_status 0)) () ∧
    xng_iterate_chunks ndebug le (test_buffer ++ test_buffer ++ wire_record zero_chunk) 44
        (some (constant_status 5)) () = some (.ok (2, ())) := by
  have hv : visit (some cb1) = visit (some cb2) := by
    funext s v
    exact hsame v s
  refine ⟨?_, ?_, xng_iterate_chunks_visits ndebug le data length (some cb1) context, ?_, ?_⟩
  · rw [xng_iterate_chunks_visits ndebug le data length (some cb1),
      xng_iterate_chunks_visits ndebug le data length (some cb2), hv]
  · rw [xng_iterate_chunks_visits ndebug le data length (some cb1),
      xng_iterate_chunks_visits ndebug le data length none, map_result_map_result,
      map_result_map_result]
  · cases ndebug <;> cases le <;> rfl
  · cases ndebug <;> cases le <;> rfl

/-- Witness of C25: callbacks that count the views and return 5 and 0. -/
theorem xng_iterate_chunks_ignores_status_witness :
    xng_iterate_chunks false true (test_buffer ++ test_buffer) 32
        (some (fun _ (n : Nat) => ((5 : Int), n + 1))) 0
      = xng_iterate_chunks false true (test_buffer ++ test_buffer) 32
        (some (fun _ (n : Nat) => ((0 : Int), n + 1))) 0 :=
  (xng_iterate_chunks_ignores_status false true (test_buffer ++ test_buffer) 32
    (fun _ (n : Nat) => ((5 : Int), n + 1)) (fun _ (n : Nat) => ((0 : Int), n + 1)) 0
    (fun _ _ => rfl)).1



/-! ## The two entry points -/

theorem copy_range_eq (filedata : List Nat) (first n : Nat) (data : List Nat)
    (h : copy_range filedata first n = .ok data) :
    data = (filedata.drop first).take n ∧ first + n ≤ filedata.length := by
  unfold copy_range at h
  split at h
  · rename_i hle
    simp only [Except.ok.injEq] at h
    exact ⟨h.symm, hle⟩
  · cases h

/-- What a successful `read_chunk` has read: the payload is the `length` bytes
behind the header, and the position stored is the one behind the crc, inside the
addressable bytes. -/
theorem read_chunk_ok_shape (le : Bool) (filedata : List Nat) (off : Nat) (chunk : chunk_t)
    (slot0 slot : Option Nat) (h : read_chunk le filedata off slot0 = .ok (chunk, slot)) :
    slot = store_next slot0 (off + (12 + chunk.length)) ∧
    chunk.data = (filedata.drop (off + 8)).take chunk.length ∧
    off + (12 + chunk.length) ≤ filedata.length := by
  simp only [read_chunk] at h
  rcases read_uint32_t_cases le filedata off (some off) with ⟨-, v1, r1⟩ | ⟨-, r1⟩
  swap
  · rw [r1] at h; cases h
  rw [r1] at h
  simp only [store_next, Option.map_some', Option.getD_some] at h
  rcases read_chunkid_t_cases le filedata (off + 4) (some (off + 4)) with ⟨-, v2, r2⟩ | ⟨-, r2⟩
  swap
  · rw [r2] at h; cases h
  rw [r2] at h
  simp only [store_next, Option.map_some', Option.getD_some] at h
  cases r3 : copy_range filedata (off + 4 + 4) v1 with
  | error e => rw [r3] at h; cases h
  | ok data =>
    rw [r3] at h
    simp only at h
    obtain ⟨hdata, -⟩ := copy_range_eq filedata _ _ data r3
    rcases read_uint32_t_cases le filedata (off + 4 + 4 + v1) (some (off + 4 + 4 + v1))
      with ⟨h4, v4, r4⟩ | ⟨-, r4⟩
    swap
    · rw [r4] at h; cases h
    rw [r4] at h
    simp only [store_next, Option.map_some', Option.getD_some, Except.ok.injEq,
      Prod.mk.injEq] at h
    obtain ⟨hc, hs⟩ := h
    subst hc
    have e1 : off + 4 + 4 + v1 + 4 = off + (12 + v1) := by omega
    have e2 : off + 4 + 4 = off + 8 := by omega
    simp only [e1, e2] at hs hdata h4
    exact ⟨by rw [← hs]; rfl, hdata, h4⟩

/-- Where the loop of `read_chunks`, run with the length of the buffer as
`filedata_size`, returns a sequence, the loop of `xng_iterate_chunks` started at
the same position visits the views of the chunks it appends, and counts
them. -/
theorem loops_agree {σ : Type} (le : Bool) (buffer : List Nat)
    (cb : Option (xng_chunk_iteration_func_t σ)) :
    ∀ (fuel1 fuel2 o sum_read chunk_count : Nat) (chunks cs : List chunk_t) (context : σ),
      sum_read ≤ o → 1 ≤ fuel2 → buffer.length ≤ 12 * (fuel2 - 1) + o →
      read_chunks_loop le buffer buffer.length fuel1 o sum_read chunks = some (.ok cs) →
      ∃ new, cs = chunks ++ new ∧
        xng_iterate_chunks_loop le buffer buffer.length cb fuel2 o o chunk_count context
          = some (.ok (chunk_count + new.length, (views_from o new).foldl (visit cb) context)) ∧
        (views_from o new).map (fun v => (buffer.drop v.data).take v.length)
          = new.map chunk_t.data := by
  intro fuel1
  induction fuel1 with
  | zero =>
    intro _ _ _ _ _ _ _ _ _ _ h
    cases h
  | succ fuel1 ih =>
    intro fuel2 o sum_read chunk_count chunks cs context hso hf2 hfuel h
    obtain ⟨f2, rfl⟩ : ∃ f2, fuel2 = f2 + 1 := ⟨fuel2 - 1, by omega⟩
    rw [read_chunks_loop_succ] at h
    rw [xng_iterate_chunks_loop_succ]
    by_cases hg : sum_read < buffer.length
    · rw [if_pos hg] at h
      cases hr : read_chunk le buffer o (some o) with
      | error e => rw [hr] at h; cases h
      | ok v =>
        obtain ⟨chunk, slot⟩ := v
        obtain ⟨hslot, hdata, hin⟩ := read_chunk_ok_shape le buffer o chunk _ slot hr
        rw [hr] at h
        simp only at h
        rw [if_pos (by omega), xng_get_next_chunk_of_read_chunk le buffer o chunk _ slot hr]
        simp only
        cases hz : chunk.id.is_zero
        · rw [hz] at h
          simp only [Bool.false_eq_true, if_false] at h ⊢
          subst hslot
          simp only [store_next, Option.map_some', Option.getD_some] at h ⊢
          have h12 : xng_chunkheader_min_size = 12 := rfl
          obtain ⟨new, hcs, hit, hpay⟩ := ih f2 (o + (12 + chunk.length)) (sum_read + chunk.length)
            (chunk_count + 1) (chunks ++ [chunk]) cs
            (visit cb context
              { id := chunk.id, length := chunk.length, crc := chunk.crc, data := o + 8 })
            (by omega) (by omega) (by omega) h
          refine ⟨chunk :: new, ?_, ?_, ?_⟩
          · rw [hcs, List.append_assoc, List.singleton_append]
          · rw [h12, hit]
            simp only [views_from, List.foldl_cons, List.length_cons]
            have e : chunk_count + 1 + new.length = chunk_count + (new.length + 1) := by omega
            rw [e]
          · simp only [views_from, List.map_cons, hpay, ← hdata]
        · rw [hz] at h
          simp only [if_true, Option.some.injEq, Except.ok.injEq] at h ⊢
          exact ⟨[], by rw [← h, List.append_nil], rfl, rfl⟩
    · rw [if_neg hg] at h
      simp only [Option.some.injEq, Except.ok.injEq] at h
      rw [if_neg (by omega)]
      exact ⟨[], by rw [← h, List.append_nil], rfl, rfl⟩

/-- Counterexample to C23 as stated: on the empty buffer with size 0 neither
function reads anything; `read_chunks` returns the empty sequence, and
`xng_iterate_chunks`, with assertions compiled in, returns no count:
`assert(length >= xng_chunkheader_min_size)` fails. -/
theorem xng_iterate_chunks_asserts_on_empty :
    read_chunks true [] 0 = some (.ok []) ∧
    xng_iterate_chunks false true [] 0 (some log_view) [] = some (.error .assert_failed) ∧
    ¬ ∃ n views, xng_iterate_chunks false true [] 0 (some log_view) []
      = some (.ok (n, views)) := by
  refine ⟨rfl, rfl, ?_⟩
  rintro ⟨n, views, h⟩
  cases h

/-- The counts of the two entry points for a size below the length of the
buffer: on two records and a zero-tag record, with size 16, `read_chunks`
returns both chunks (its running total counts payload bytes only) and
`xng_iterate_chunks` counts one. -/
theorem entry_points_differ_below_length (ndebug le : Bool) :
    read_chunks le (test_buffer ++ test_buffer ++ wire_record zero_chunk) 16
      = some (.ok [test_chunk, test_chunk]) ∧
    map_result Prod.fst
      (xng_iterate_chunks ndebug le (test_buffer ++ test_buffer ++ wire_record zero_chunk) 16
        (some log_view) []) = some (.ok 1) := by
  cases ndebug <;> cases le <;> exact ⟨rfl, rfl⟩

/-- For a buffer on which `read_chunks`, given the length of the buffer, returns
a sequence without reading outside it, and a length of at least 12 or assertions
compiled out, `xng_iterate_chunks` on the same buffer and length returns the
number of chunks of that sequence, and calls the callback, in order, on views
with the id, length, crc and payload of the chunks of the sequence. -/
theorem entry_points_agree_at_length {σ : Type} (ndebug le : Bool) (buffer : List Nat)
    (cs : List chunk_t) (cb : xng_chunk_iteration_func_t σ) (context : σ)
    (hassert : 12 ≤ buffer.length ∨ ndebug = true)
    (hread : read_chunks le buffer buffer.length = some (.ok cs)) :
    xng_iterate_chunks ndebug le buffer buffer.length (some cb) context
      = some (.ok (cs.length, (views_from 0 cs).foldl (fun s v => (cb v s).2) context)) ∧
    (views_from 0 cs).map (fun v => (v.id, v.length, v.crc, (buffer.drop v.data).take v.length))
      = cs.map (fun c => (c.id, c.length, c.crc, c.data)) := by
  obtain ⟨new, hcs, hit, hpay⟩ := loops_agree le buffer (some cb) (buffer.length + 1)
    (buffer.length + 1) 0 0 0 [] cs context (by omega) (by omega) (by omega) hread
  rw [List.nil_append] at hcs
  subst hcs
  have hbranch : (!ndebug && !(decide (buffer.length ≥ xng_chunkheader_min_size))) = false := by
    rcases hassert with h | h
    · have : buffer.length ≥ xng_chunkheader_min_size := h
      simp [this]
    · simp [h]
  constructor
  · unfold xng_iterate_chunks
    rw [hbranch]
    simp only [Bool.false_eq_true, if_false]
    rw [hit, Nat.zero_add]
    rfl
  · have hfields : ∀ (off : Nat) (l : List chunk_t),
        (views_from off l).map (fun v => (buffer.drop v.data).take v.length)
          = l.map chunk_t.data →
        (views_from off l).map
            (fun v => (v.id, v.length, v.crc, (buffer.drop v.data).take v.length))
          = l.map (fun c => (c.id, c.length, c.crc, c.data)) := by
      intro off l
      induction l generalizing off with
      | nil => intro _; rfl
      | cons c l ihl =>
        intro hp
        simp only [views_from, List.map_cons, List.cons.injEq] at hp ⊢
        exact ⟨by rw [hp.1], ihl _ hp.2⟩
    exact hfields 0 cs hpay

/-- Two records and a zero-tag record, with the length of the buffer. -/
theorem entry_points_agree_at_length_example :
    xng_iterate_chunks false true (test_buffer ++ test_buffer ++ wire_record zero_chunk)
        (test_buffer ++ test_buffer ++ wire_record zero_chunk).length (some log_view) []
      = some (.ok ([test_chunk, test_chunk].length,
          (views_from 0 [test_chunk, test_chunk]).foldl (fun s v => (log_view v s).2) [])) :=
  (entry_points_agree_at_length false true (test_buffer ++ test_buffer ++ wire_record zero_chunk)
    [test_chunk, test_chunk] log_view [] (Or.inl (by decide)) rfl).1

/-! ## The two entry points, for every size argument -/

/-- A sequence that the loop of `read_chunks` returns starts with the chunks it
had. -/
theorem read_chunks_loop_extends (le : Bool) (filedata : List Nat) (filedata_size : Nat) :
    ∀ (fuel filedata_iter sum_read : Nat) (chunks cs : List chunk_t),
      read_chunks_loop le filedata filedata_size fuel filedata_iter sum_read chunks
        = some (.ok cs) →
      ∃ new, cs = chunks ++ new := by
  intro fuel
  induction fuel with
  | zero => intro _ _ _ _ h; cases h
  | succ fuel ih =>
    intro filedata_iter sum_read chunks cs h
    rw [read_chunks_loop_succ] at h
    by_cases hg : sum_read < filedata_size
    · rw [if_pos hg] at h
      cases hr : read_chunk le filedata filedata_iter (some filedata_iter) with
      | error e => rw [hr] at h; cases h
      | ok v =>
        obtain ⟨chunk, slot⟩ := v
        rw [hr] at h
        simp only at h
        cases hz : chunk.id.is_zero
        · rw [hz] at h
          simp only [Bool.false_eq_true, if_false] at h
          obtain ⟨new, hnew⟩ := ih _ _ _ _ h
          exact ⟨chunk :: new, by rw [hnew, List.append_assoc, List.singleton_append]⟩
        · rw [hz] at h
          simp only [if_true, Option.some.injEq, Except.ok.injEq] at h
          exact ⟨[], by rw [← h, List.append_nil]⟩
    · rw [if_neg hg] at h
      simp only [Option.some.injEq, Except.ok.injEq] at h
      exact ⟨[], by rw [← h, List.append_nil]⟩

/-- Where the loop of `read_chunks` returns a sequence whose new chunks all
start below `size`, the loop of `xng_iterate_chunks` started at the same
position with the same `size` visits the views of these chunks, and counts
them. -/
theorem loops_agree_below {σ : Type} (le : Bool) (filedata : List Nat) (size : Nat)
    (cb : Option (xng_chunk_iteration_func_t σ)) :
    ∀ (fuel1 fuel2 o sum_read chunk_count : Nat) (chunks cs : List chunk_t) (context : σ),
      sum_read ≤ o → 1 ≤ fuel2 → size ≤ 12 * (fuel2 - 1) + o →
      read_chunks_loop le filedata size fuel1 o sum_read chunks = some (.ok cs) →
      (∀ new, cs = chunks ++ new → ∀ v ∈ views_from o new, v.data < size + 8) →
      ∃ new, cs = chunks ++ new ∧
        xng_iterate_chunks_loop le filedata size cb fuel2 o o chunk_count context
          = some (.ok (chunk_count + new.length, (views_from o new).foldl (visit cb) context)) ∧
        (views_from o new).map (fun v => (filedata.drop v.data).take v.length)
          = new.map chunk_t.data := by
  intro fuel1
  induction fuel1 with
  | zero =>
    intro _ _ _ _ _ _ _ _ _ _ h
    cases h
  | succ fuel1 ih =>
    intro fuel2 o sum_read chunk_count chunks cs context hso hf2 hfuel h hbelow
    obtain ⟨f2, rfl⟩ : ∃ f2, fuel2 = f2 + 1 := ⟨fuel2 - 1, by omega⟩
    rw [read_chunks_loop_succ] at h
    rw [xng_iterate_chunks_loop_succ]
    by_cases hg : sum_read < size
    · rw [if_pos hg] at h
      cases hr : read_chunk le filedata o (some o) with
      | error e => rw [hr] at h; cases h
      | ok v =>
        obtain ⟨chunk, slot⟩ := v
        obtain ⟨hslot, hdata, hin⟩ := read_chunk_ok_shape le filedata o chunk _ slot hr
        rw [hr] at h
        simp only at h
        have hview := xng_get_next_chunk_of_read_chunk le filedata o chunk _ slot hr
        cases hz : chunk.id.is_zero
        · rw [hz] at h
          simp only [Bool.false_eq_true, if_false] at h
          subst hslot
          simp only [store_next, Option.map_some', Option.getD_some] at h hview
          obtain ⟨new0, hnew0⟩ := read_chunks_loop_extends le filedata size _ _ _ _ _ h
          have hcs0 : cs = chunks ++ (chunk :: new0) := by
            rw [hnew0, List.append_assoc, List.singleton_append]
          have ho : o < size := by
            have := hbelow (chunk :: new0) hcs0
              { id := chunk.id, length := chunk.length, crc := chunk.crc, data := o + 8 }
              (by simp only [views_from]; exact List.mem_cons_self _ _)
            simpa using this
          have h12 : xng_chunkheader_min_size = 12 := rfl
          obtain ⟨new, hcs, hit, hpay⟩ := ih f2 (o + (12 + chunk.length)) (sum_read + chunk.length)
            (chunk_count + 1) (chunks ++ [chunk]) cs
            (visit cb context
              { id := chunk.id, length := chunk.length, crc := chunk.crc, data := o + 8 })
            (by omega) (by omega) (by omega) h
            (by
              intro new1 hnew1 v hv
              have hcs1 : cs = chunks ++ (chunk :: new1) := by
                rw [hnew1, List.append_assoc, List.singleton_append]
              exact hbelow (chunk :: new1) hcs1 v
                (by simp only [views_from]; exact List.mem_cons_of_mem _ hv))
          rw [if_pos ho, hview]
          simp only [hz, Bool.false_eq_true, if_false, store_next, Option.map_some',
            Option.getD_some]
          refine ⟨chunk :: new, ?_, ?_, ?_⟩
          · rw [hcs, List.append_assoc, List.singleton_append]
          · rw [h12, hit]
            simp only [views_from, List.foldl_cons, List.length_cons]
            have e : chunk_count + 1 + new.length = chunk_count + (new.length + 1) := by omega
            rw [e]
          · simp only [views_from, List.map_cons, hpay, ← hdata]
        · rw [hz] at h
          simp only [if_true, Option.some.injEq, Except.ok.injEq] at h
          refine ⟨[], by rw [← h, List.append_nil], ?_, rfl⟩
          by_cases ho : o < size
          · rw [if_pos ho, hview]
            simp only [hz, if_true]
            rfl
          · rw [if_neg ho]
            rfl
    · rw [if_neg hg] at h
      simp only [Option.some.injEq, Except.ok.injEq] at h
      rw [if_neg (by omega)]
      exact ⟨[], by rw [← h, List.append_nil], rfl, rfl⟩

/-- C23, amended: for every buffer and every size argument for which
`read_chunks` returns a sequence without reading outside the buffer, every
record of which starts at an offset below the size (`data` of its view, the
offset plus 8, is below the size plus 8): with a size of at least 12 or
assertions compiled out, `xng_iterate_chunks` returns without reading outside
the buffer either, its count is the number of chunks of the sequence, and it
calls the callback, in order, on views with the id, length, crc and payload of
the chunks of the sequence; with assertions compiled in and a size below 12 it
fails its assertion and returns no count. -/
theorem entry_points_agree {σ : Type} (ndebug le : Bool) (buffer : List Nat) (size : Nat)
    (cs : List chunk_t) (cb : xng_chunk_iteration_func_t σ) (context : σ)
    (hread : read_chunks le buffer size = some (.ok cs))
    (hbelow : ∀ v ∈ views_from 0 cs, v.data < size + 8) :
    ((12 ≤ size ∨ ndebug = true) →
      xng_iterate_chunks ndebug le buffer size (some cb) context
        = some (.ok (cs.length, (views_from 0 cs).foldl (fun s v => (cb v s).2) context))) ∧
    (views_from 0 cs).map (fun v => (v.id, v.length, v.crc, (buffer.drop v.data).take v.length))
      = cs.map (fun c => (c.id, c.length, c.crc, c.data)) ∧
    (size < 12 →
      xng_iterate_chunks false le buffer size (some cb) context
        = some (.error .assert_failed)) := by
  obtain ⟨new, hcs, hit, hpay⟩ := loops_agree_below le buffer size (some cb) (buffer.length + 1)
    (size + 1) 0 0 0 [] cs context (by omega) (by omega) (by omega) hread
    (by
      intro new hnew
      rw [List.nil_append] at hnew
      subst hnew
      exact hbelow)
  rw [List.nil_append] at hcs
  subst hcs
  refine ⟨?_, ?_, ?_⟩
  · intro hassert
    have hbranch : (!ndebug && !(decide (size ≥ xng_chunkheader_min_size))) = false := by
      rcases hassert with h | h
      · have : size ≥ xng_chunkheader_min_size := h
        simp [this]
      · simp [h]
    unfold xng_iterate_chunks
    rw [hbranch]
    simp only [Bool.false_eq_true, if_false]
    rw [hit, Nat.zero_add]
    rfl
  · have hfields : ∀ (off : Nat) (l : List chunk_t),
        (views_from off l).map (fun v => (buffer.drop v.data).take v.length)
          = l.map chunk_t.data →
        (views_from off l).map
            (fun v => (v.id, v.length, v.crc, (buffer.drop v.data).take v.length))
          = l.map (fun c => (c.id, c.length, c.crc, c.data)) := by
      intro off l
      induction l generalizing off with
      | nil => intro _; rfl
      | cons c l ihl =>
        intro hp
        simp only [views_from, List.map_cons, List.cons.injEq] at hp ⊢
        exact ⟨by rw [hp.1], ihl _ hp.2⟩
    exact hfields 0 cs hpay
  · intro hlt
    have hbranch : (!false && !(decide (size ≥ xng_chunkheader_min_size))) = true := by
      have : ¬ size ≥ xng_chunkheader_min_size := by
        simp only [xng_chunkheader_min_size]; omega
      simp [this]
    unfold xng_iterate_chunks
    rw [hbranch]
    rfl

/-- Witness of C23, amended: the record of the scenario and a zero-tag record,
28 bytes, with the size arguments 20 and 1000; and the zero-tag record alone
with size 5 and assertions compiled in. -/
theorem entry_points_agree_witness :
    xng_iterate_chunks false true (test_buffer ++ wire_record zero_chunk) 20 (some log_view) []
      = some (.ok (1, [{ id := test_chunk.id, length := 4, crc := test_chunk.crc, data := 8 }])) ∧
    xng_iterate_chunks false true (test_buffer ++ wire_record zero_chunk) 1000 (some log_view) []
      = some (.ok (1, [{ id := test_chunk.id, length := 4, crc := test_chunk.crc, data := 8 }])) ∧
    xng_iterate_chunks false true (wire_record zero_chunk) 5 (some log_view) []
      = some (.error .assert_failed) :=
  ⟨(entry_points_agree false true (test_buffer ++ wire_record zero_chunk) 20 [test_chunk]
      log_view [] rfl (by decide)).1 (Or.inl (by decide)),
   (entry_points_agree false true (test_buffer ++ wire_record zero_chunk) 1000 [test_chunk]
      log_view [] rfl (by decide)).1 (Or.inl (by decide)),
   (entry_points_agree false true (wire_record zero_chunk) 5 [] log_view [] rfl
      (by decide)).2.2 (by decide)⟩

/-! ## Termination of `xng_iterate_chunks` with a `size_t` of a given width -/

theorem xng_iterate_chunks_loop_w_succ {σ : Type} (bits : Nat) (le : Bool) (data : List Nat)
    (length : Nat) (cb : Option (xng_chunk_iteration_func_t σ))
    (fuel data_iter iter_length chunk_count : Nat) (context : σ) :
    xng_iterate_chunks_loop_w bits le data length cb (fuel + 1) data_iter iter_length
        chunk_count context
      = if iter_length < length then
          match xng_get_next_chunk_w bits le data data_iter (some data_iter) with
          | .error e => some (.error e)
          | .ok (chunk, slot) =>
            if chunk.id.is_zero then some (.ok (chunk_count, context))
            else xng_iterate_chunks_loop_w bits le data length cb fuel (slot.getD data_iter)
              ((iter_length + (xng_chunkheader_min_size + chunk.length) % 2 ^ bits) % 2 ^ bits)
              ((chunk_count + 1) % 2 ^ bits) (visit cb context chunk)
        else some (.ok (chunk_count, context)) := by
  cases cb <;> rfl

theorem xng_iterate_chunks_steps_w_succ (bits : Nat) (le : Bool) (data : List Nat)
    (length fuel data_iter iter_length : Nat) :
    xng_iterate_chunks_steps_w bits le data length (fuel + 1) data_iter iter_length
      = if iter_length < length then
          match xng_get_next_chunk_w bits le data data_iter (some data_iter) with
          | .error _ => []
          | .ok (chunk, slot) =>
            if chunk.id.is_zero then []
            else (iter_length, chunk) ::
              xng_iterate_chunks_steps_w bits le data length fuel (slot.getD data_iter)
                ((iter_length + (xng_chunkheader_min_size + chunk.length) % 2 ^ bits)
                  % 2 ^ bits)
        else [] := rfl

/-- The length of a view that `xng_get_next_chunk_w` returns is the big-endian
value of the four bytes at the cursor. -/
theorem xng_get_next_chunk_w_length (bits : Nat) (le : Bool) (data : List Nat) (off : Nat)
    (slot0 slot : Option Nat) (chunk : xng_chunk_t) (hb : bytes_ok data)
    (h : xng_get_next_chunk_w bits le data off slot0 = .ok (chunk, slot)) :
    off + 4 ≤ data.length ∧
    chunk.length = be32 (byte_at data off) (byte_at data (off + 1)) (byte_at data (off + 2))
      (byte_at data (off + 3)) := by
  simp only [xng_get_next_chunk_w] at h
  by_cases h4 : off + 4 ≤ data.length
  swap
  · rw [read_uint32_t_oob le data off _ (by omega)] at h
    cases h
  refine ⟨h4, ?_⟩
  rw [read_uint32_t_eq le data off _ hb h4] at h
  simp only [store_next, Option.map_some', Option.getD_some] at h
  rcases read_chunkid_t_cases le data (off + 4) (some (off + 4)) with ⟨-, v2, r2⟩ | ⟨-, r2⟩
  swap
  · rw [r2] at h; cases h
  rw [r2] at h
  simp only [store_next, Option.map_some', Option.getD_some] at h
  generalize hp : (off + 4 + 4 + be32 (byte_at data off) (byte_at data (off + 1))
    (byte_at data (off + 2)) (byte_at data (off + 3))) % 2 ^ bits = p at h
  rcases read_uint32_t_cases le data p (some p) with ⟨-, v4, r4⟩ | ⟨-, r4⟩
  swap
  · rw [r4] at h; cases h
  rw [r4] at h
  simp only [Except.ok.injEq, Prod.mk.injEq] at h
  rw [← h.1]

/-- The length of a view that `xng_get_next_chunk_w` returns is below `2 ^ 32`. -/
theorem xng_get_next_chunk_w_length_lt (bits : Nat) (le : Bool) (data : List Nat) (off : Nat)
    (slot0 slot : Option Nat) (chunk : xng_chunk_t) (hb : bytes_ok data)
    (h : xng_get_next_chunk_w bits le data off slot0 = .ok (chunk, slot)) :
    chunk.length < 2 ^ 32 := by
  rw [(xng_get_next_chunk_w_length bits le data off slot0 slot chunk hb h).2]
  exact be32_lt _ _ _ _ (byte_at_lt hb off) (byte_at_lt hb (off + 1)) (byte_at_lt hb (off + 2))
    (byte_at_lt hb (off + 3))

/-- Where none of the iterations that go on makes `iter_length` wrap, the loop
of `xng_iterate_chunks` ends before its fuel does, and a count it returns stays
below `length / 12 + 1`. -/
theorem xng_iterate_chunks_loop_w_bounded {σ : Type} (bits : Nat) (le : Bool) (data : List Nat)
    (length : Nat) (cb : Option (xng_chunk_iteration_func_t σ)) :
    ∀ (fuel data_iter iter_length chunk_count : Nat) (context : σ),
      1 ≤ fuel → length ≤ 12 * (fuel - 1) + iter_length →
      12 * chunk_count ≤ iter_length → 12 * chunk_count < length + 12 →
      (∀ p ∈ xng_iterate_chunks_steps_w bits le data length fuel data_iter iter_length,
        p.1 + (12 + p.2.length) < 2 ^ bits) →
      ∃ r, xng_iterate_chunks_loop_w bits le data length cb fuel data_iter iter_length
          chunk_count context = some r ∧
        ∀ n c, r = .ok (n, c) → 12 * n < length + 12 := by
  intro fuel
  induction fuel with
  | zero => intro _ _ _ _ h; omega
  | succ fuel ih =>
    intro data_iter iter_length chunk_count context _ hfuel hcnt hbound hsteps
    rw [xng_iterate_chunks_loop_w_succ]
    rw [xng_iterate_chunks_steps_w_succ] at hsteps
    by_cases hg : iter_length < length
    · rw [if_pos hg]
      rw [if_pos hg] at hsteps
      cases hr : xng_get_next_chunk_w bits le data data_iter (some data_iter) with
      | error e => exact ⟨_, rfl, fun n c h => by cases h⟩
      | ok v =>
        obtain ⟨chunk, slot⟩ := v
        rw [hr] at hsteps
        simp only
        simp only at hsteps
        cases hz : chunk.id.is_zero
        · simp only [Bool.false_eq_true, if_false]
          rw [hz] at hsteps
          simp only [Bool.false_eq_true, if_false] at hsteps
          have hw : iter_length + (12 + chunk.length) < 2 ^ bits :=
            hsteps (iter_length, chunk) (List.mem_cons_self _ _)
          have h12 : xng_chunkheader_min_size = 12 := rfl
          rw [h12] at hsteps
          rw [h12, Nat.mod_eq_of_lt (show 12 + chunk.length < 2 ^ bits by omega),
            Nat.mod_eq_of_lt hw,
            Nat.mod_eq_of_lt (show chunk_count + 1 < 2 ^ bits by omega)]
          rw [Nat.mod_eq_of_lt (show 12 + chunk.length < 2 ^ bits by omega),
            Nat.mod_eq_of_lt hw] at hsteps
          exact ih _ _ _ _ (by omega) (by omega) (by omega) (by omega)
            (fun p hp => hsteps p (List.mem_cons_of_mem _ hp))
        · simp only [if_true]
          refine ⟨_, rfl, fun n c h => ?_⟩
          simp only [Except.ok.injEq, Prod.mk.injEq] at h
          omega
    · rw [if_neg hg]
      refine ⟨_, rfl, fun n c h => ?_⟩
      simp only [Except.ok.injEq, Prod.mk.injEq] at h
      omega

/-- An iteration that goes on starts with `iter_length` below `length` and has
read a length field, which is below `2 ^ 32`. -/
theorem xng_iterate_chunks_steps_w_mem (bits : Nat) (le : Bool) (data : List Nat)
    (length : Nat) (hb : bytes_ok data) :
    ∀ (fuel data_iter iter_length : Nat),
      ∀ p ∈ xng_iterate_chunks_steps_w bits le data length fuel data_iter iter_length,
        p.1 < length ∧ p.2.length < 2 ^ 32 := by
  intro fuel
  induction fuel with
  | zero => intro _ _ p hp; cases hp
  | succ fuel ih =>
    intro data_iter iter_length p hp
    rw [xng_iterate_chunks_steps_w_succ] at hp
    by_cases hg : iter_length < length
    · rw [if_pos hg] at hp
      cases hr : xng_get_next_chunk_w bits le data data_iter (some data_iter) with
      | error e => rw [hr] at hp; cases hp
      | ok v =>
        obtain ⟨chunk, slot⟩ := v
        rw [hr] at hp
        simp only at hp
        cases hz : chunk.id.is_zero
        · rw [hz] at hp
          simp only [Bool.false_eq_true, if_false, List.mem_cons] at hp
          rcases hp with rfl | hp
          · exact ⟨hg, xng_get_next_chunk_w_length_lt bits le data data_iter _ slot chunk hb hr⟩
          · exact ih _ _ p hp
        · rw [hz] at hp
          simp only [if_true] at hp
          cases hp
    · rw [if_neg hg] at hp
      cases hp

/-- With a `size_t` wide enough for `length + 12 + 2 ^ 32`, as on a 64-bit
target, no iteration makes `iter_length` wrap. -/
theorem no_wrap_of_wide_size_t (bits : Nat) (le : Bool) (data : List Nat) (length : Nat)
    (hb : bytes_ok data) (hwide : length + 12 + 2 ^ 32 ≤ 2 ^ bits)
    (fuel data_iter iter_length : Nat) :
    ∀ p ∈ xng_iterate_chunks_steps_w bits le data length fuel data_iter iter_length,
      p.1 + (12 + p.2.length) < 2 ^ bits := by
  intro p hp
  have := xng_iterate_chunks_steps_w_mem bits le data length hb fuel data_iter iter_length p hp
  omega

/-- The loop on `wrap_buffer` with a `size_t` of 32 bits, once behind the first
record: the second header adds `12 + 0xFFFFFFF4 = 2 ^ 32` to `iter_length`,
which stays 12, and the cursor comes back to offset 12. -/
theorem wrap_buffer_loops {σ : Type} (le : Bool) (cb : Option (xng_chunk_iteration_func_t σ)) :
    ∀ (fuel chunk_count : Nat) (context : σ),
      xng_iterate_chunks_loop_w 32 le wrap_buffer 20 cb fuel 12 12 chunk_count context
        = none := by
  intro fuel
  induction fuel with
  | zero => intro _ _; rfl
  | succ fuel ih =>
    intro chunk_count context
    rw [xng_iterate_chunks_loop_w_succ, if_pos (by decide)]
    have hr : xng_get_next_chunk_w 32 le wrap_buffer 12 (some 12)
        = .ok ({ id := { type0 := 66, type1 := 66, type2 := 66, type3 := 66 },
                 length := 0xFFFFFFF4, crc := 0, data := 20 }, some 12) := by
      cases le <;> rfl
    rw [hr]
    simp only [Option.getD_some]
    have hz : ({ type0 := 66, type1 := 66, type2 := 66, type3 := 66 } : chunkid_t).is_zero
        = false := rfl
    rw [hz]
    simp only [Bool.false_eq_true, if_false]
    have hi : (12 + (xng_chunkheader_min_size + 0xFFFFFFF4) % 2 ^ 32) % 2 ^ 32 = 12 := by
      decide
    rw [hi]
    exact ih _ _

/-- Counterexample to C24 as stated: with a `size_t` of 32 bits, on the 20 bytes
of `wrap_buffer` and the length 20, the second iteration reads the length field
`0xFFFFFFF4` at `iter_length = 12` and leaves `iter_length` at 12
(`12 + 12 + 0xFFFFFFF4 = 2 ^ 32 + 12`); every read is inside the buffer and the
loop of `xng_iterate_chunks` does not end, whatever the number of iterations. -/
theorem xng_iterate_chunks_wraps :
    wrap_buffer.length = 20 ∧ bytes_ok wrap_buffer ∧
    xng_iterate_chunks_steps_w 32 true wrap_buffer 20 2 0 0
      = [(0, { id := { type0 := 65, type1 := 65, type2 := 65, type3 := 65 },
               length := 0, crc := 0, data := 8 }),
         (12, { id := { type0 := 66, type1 := 66, type2 := 66, type3 := 66 },
                length := 0xFFFFFFF4, crc := 0, data := 20 })] ∧
    (12 + (12 + 0xFFFFFFF4)) % 2 ^ 32 = 12 ∧
    ¬ ∃ fuel r, xng_iterate_chunks_w 32 false true wrap_buffer 20
      (some (constant_status 0)) () fuel = some r := by
  refine ⟨rfl, by decide, rfl, by decide, ?_⟩
  rintro ⟨fuel, r, h⟩
  unfold xng_iterate_chunks_w at h
  rw [if_neg (by decide)] at h
  cases fuel with
  | zero => cases h
  | succ fuel =>
    rw [xng_iterate_chunks_loop_w_succ, if_pos (by decide)] at h
    have hr : xng_get_next_chunk_w 32 true wrap_buffer 0 (some 0)
        = .ok ({ id := { type0 := 65, type1 := 65, type2 := 65, type3 := 65 },
                 length := 0, crc := 0, data := 8 }, some 12) := rfl
    rw [hr] at h
    simp only [Option.getD_some] at h
    have hz : ({ type0 := 65, type1 := 65, type2 := 65, type3 := 65 } : chunkid_t).is_zero
        = false := rfl
    rw [hz] at h
    simp only [Bool.false_eq_true, if_false] at h
    have hi : (0 + (xng_chunkheader_min_size + 0) % 2 ^ 32) % 2 ^ 32 = 12 := by decide
    rw [hi, wrap_buffer_loops] at h
    cases h

/-- C24, amended: an iteration of `xng_iterate_chunks` that does not stop on a
zero tag goes on with `iter_length` increased by `12 + chunk.length` modulo
`2 ^ bits`, the width of `size_t`: by `12 + chunk.length >= 12` where this sum
stays below `2 ^ bits`.  For every buffer and every length argument such that
none of the first `length + 1` iterations makes the sum reach `2 ^ bits`, the
loop ends within these iterations (by a return, or by a read outside the memory)
and a chunk count it returns is at most `ceil(length / 12)`.  No iteration does
so, whatever the buffer, where `length + 12 + 2 ^ 32 <= 2 ^ bits`. -/
theorem xng_iterate_chunks_terminates {σ : Type} (bits : Nat) (ndebug le : Bool)
    (data : List Nat) (length : Nat) (cb : Option (xng_chunk_iteration_func_t σ)) (context : σ)
    (hnowrap : ∀ p ∈ xng_iterate_chunks_steps_w bits le data length (length + 1) 0 0,
      p.1 + (12 + p.2.length) < 2 ^ bits) :
    (∃ r, xng_iterate_chunks_w bits ndebug le data length cb context (length + 1) = some r) ∧
    (∀ n c, xng_iterate_chunks_w bits ndebug le data length cb context (length + 1)
        = some (.ok (n, c)) → n ≤ (length + 11) / 12) ∧
    (∀ (fuel data_iter iter_length chunk_count : Nat) (ctx : σ) (chunk : xng_chunk_t)
        (slot : Option Nat),
      iter_length < length →
      xng_get_next_chunk_w bits le data data_iter (some data_iter) = .ok (chunk, slot) →
      chunk.id.is_zero = false →
      xng_iterate_chunks_loop_w bits le data length cb (fuel + 1) data_iter iter_length
          chunk_count ctx
        = xng_iterate_chunks_loop_w bits le data length cb fuel (slot.getD data_iter)
            ((iter_length + (12 + chunk.length) % 2 ^ bits) % 2 ^ bits)
            ((chunk_count + 1) % 2 ^ bits) (visit cb ctx chunk) ∧
      (iter_length + (12 + chunk.length) < 2 ^ bits →
        (iter_length + (12 + chunk.length) % 2 ^ bits) % 2 ^ bits
          = iter_length + (12 + chunk.length) ∧
        iter_length + 12 ≤ iter_length + (12 + chunk.length))) ∧
    (length + 12 + 2 ^ 32 ≤ 2 ^ bits → ∀ data2 : List Nat, bytes_ok data2 →
      (∃ r, xng_iterate_chunks_w bits ndebug le data2 length cb context (length + 1)
        = some r) ∧
      ∀ n c, xng_iterate_chunks_w bits ndebug le data2 length cb context (length + 1)
        = some (.ok (n, c)) → n ≤ (length + 11) / 12) := by
  have total : ∀ d : List Nat,
      (∀ p ∈ xng_iterate_chunks_steps_w bits le d length (length + 1) 0 0,
        p.1 + (12 + p.2.length) < 2 ^ bits) →
      ∃ r, xng_iterate_chunks_w bits ndebug le d length cb context (length + 1) = some r ∧
        ∀ n c, r = .ok (n, c) → n ≤ (length + 11) / 12 := by
    intro d hw
    unfold xng_iterate_chunks_w
    split
    · exact ⟨_, rfl, fun n c h => by cases h⟩
    · obtain ⟨r, hr, hbd⟩ := xng_iterate_chunks_loop_w_bounded bits le d length cb
        (length + 1) 0 0 0 context (by omega) (by omega) (by omega) (by omega) hw
      refine ⟨r, hr, fun n c h => ?_⟩
      have := hbd n c h
      omega
  refine ⟨?_, ?_, ?_, ?_⟩
  · obtain ⟨r, hr, -⟩ := total data hnowrap
    exact ⟨r, hr⟩
  · intro n c h
    obtain ⟨r, hr, hbd⟩ := total data hnowrap
    rw [hr] at h
    simp only [Option.some.injEq] at h
    exact hbd n c h
  · intro fuel data_iter iter_length chunk_count ctx chunk slot hg hr hz
    refine ⟨?_, fun hlt => ⟨?_, by omega⟩⟩
    · rw [xng_iterate_chunks_loop_w_succ, if_pos hg, hr]
      simp only [hz, Bool.false_eq_true, if_false]
      rfl
    · rw [Nat.mod_eq_of_lt (show 12 + chunk.length < 2 ^ bits by omega),
        Nat.mod_eq_of_lt hlt]
  · intro hwide data2 hd2
    obtain ⟨r, hr, hbd⟩ := total data2
      (no_wrap_of_wide_size_t bits le data2 length hd2 hwide (length + 1) 0 0)
    refine ⟨⟨r, hr⟩, fun n c h => ?_⟩
    rw [hr] at h
    simp only [Option.some.injEq] at h
    exact hbd n c h

/-- A buffer of 20 bytes: one record tagged `AAAA` whose payload of eight bytes
holds `FF FF FF F4`, bytes that the loop of `xng_iterate_chunks` does not read
as a length field. -/
theorem payload_buffer_steps :
    xng_iterate_chunks_steps_w 32 true
        [0, 0, 0, 8, 65, 65, 65, 65, 0xFF, 0xFF, 0xFF, 0xF4, 66, 66, 66, 66, 0, 0, 0, 0]
        20 (20 + 1) 0 0
      = [(0, { id := { type0 := 65, type1 := 65, type2 := 65, type3 := 65 },
               length := 8, crc := 0, data := 8 })] := rfl

/-- Witness of C24, amended, with a `size_t` of 32 bits: a record whose payload
holds the bytes `FF FF FF F4`, where the loop returns the count 1; and
`wrap_buffer` with a `size_t` of 64 bits, where the second iteration reads
outside the 20 bytes. -/
theorem xng_iterate_chunks_terminates_witness :
    (∃ r, xng_iterate_chunks_w 32 false true
      [0, 0, 0, 8, 65, 65, 65, 65, 0xFF, 0xFF, 0xFF, 0xF4, 66, 66, 66, 66, 0, 0, 0, 0] 20
      (some (constant_status 0)) () (20 + 1) = some r) ∧
    (∃ r, xng_iterate_chunks_w 64 false true wrap_buffer 20 (some (constant_status 0)) ()
      (20 + 1) = some r) ∧
    xng_iterate_chunks_w 32 false true
      [0, 0, 0, 8, 65, 65, 65, 65, 0xFF, 0xFF, 0xFF, 0xF4, 66, 66, 66, 66, 0, 0, 0, 0] 20
      (some (constant_status 0)) () (20 + 1) = some (.ok (1, ())) ∧
    xng_iterate_chunks_w 64 false true wrap_buffer 20 (some (constant_status 0)) () (20 + 1)
      = some (.error .out_of_bounds) :=
  ⟨(xng_iterate_chunks_terminates 32 false true
      [0, 0, 0, 8, 65, 65, 65, 65, 0xFF, 0xFF, 0xFF, 0xF4, 66, 66, 66, 66, 0, 0, 0, 0] 20
      (some (constant_status 0)) () (by
        rw [payload_buffer_steps]
        intro p hp
        simp only [List.mem_singleton] at hp
        subst hp
        decide)).1,
   (xng_iterate_chunks_terminates 64 false true wrap_buffer 20 (some (constant_status 0)) ()
      (no_wrap_of_wide_size_t 64 true wrap_buffer 20 (by decide) (by decide) (20 + 1) 0 0)).1,
   rfl, rfl⟩

/-! ## The records that `xng_iterate_chunks` leaves out below the size -/

/-- Where the loop of `read_chunks` returns a sequence, the loop of
`xng_iterate_chunks` started at the same position with the same `size` visits
the views of its new chunks up to the first one that starts at or behind `size`,
and counts them. -/
theorem loops_agree_prefix {σ : Type} (le : Bool) (filedata : List Nat) (size : Nat)
    (cb : Option (xng_chunk_iteration_func_t σ)) :
    ∀ (fuel1 fuel2 o sum_read chunk_count : Nat) (chunks cs : List chunk_t) (context : σ),
      sum_read ≤ o → 1 ≤ fuel2 → size ≤ 12 * (fuel2 - 1) + o →
      read_chunks_loop le filedata size fuel1 o sum_read chunks = some (.ok cs) →
      ∃ new, cs = chunks ++ new ∧
        xng_iterate_chunks_loop le filedata size cb fuel2 o o chunk_count context
          = some (.ok
              (chunk_count
                + ((views_from o new).takeWhile (fun v => decide (v.data < size + 8))).length,
               ((views_from o new).takeWhile (fun v => decide (v.data < size + 8))).foldl
                 (visit cb) context)) := by
  intro fuel1
  induction fuel1 with
  | zero =>
    intro _ _ _ _ _ _ _ _ _ _ h
    cases h
  | succ fuel1 ih =>
    intro fuel2 o sum_read chunk_count chunks cs context hso hf2 hfuel h
    obtain ⟨f2, rfl⟩ : ∃ f2, fuel2 = f2 + 1 := ⟨fuel2 - 1, by omega⟩
    rw [read_chunks_loop_succ] at h
    rw [xng_iterate_chunks_loop_succ]
    by_cases hg : sum_read < size
    · rw [if_pos hg] at h
      cases hr : read_chunk le filedata o (some o) with
      | error e => rw [hr] at h; cases h
      | ok v =>
        obtain ⟨chunk, slot⟩ := v
        obtain ⟨hslot, hdata, hin⟩ := read_chunk_ok_shape le filedata o chunk _ slot hr
        rw [hr] at h
        simp only at h
        have hview := xng_get_next_chunk_of_read_chunk le filedata o chunk _ slot hr
        cases hz : chunk.id.is_zero
        · rw [hz] at h
          simp only [Bool.false_eq_true, if_false] at h
          subst hslot
          simp only [store_next, Option.map_some', Option.getD_some] at h hview
          have h12 : xng_chunkheader_min_size = 12 := rfl
          by_cases ho : o < size
          · obtain ⟨new, hcs, hit⟩ := ih f2 (o + (12 + chunk.length))
              (sum_read + chunk.length) (chunk_count + 1) (chunks ++ [chunk]) cs
              (visit cb context
                { id := chunk.id, length := chunk.length, crc := chunk.crc, data := o + 8 })
              (by omega) (by omega) (by omega) h
            rw [if_pos ho, hview]
            simp only [hz, Bool.false_eq_true, if_false, store_next, Option.map_some',
              Option.getD_some]
            refine ⟨chunk :: new, ?_, ?_⟩
            · rw [hcs, List.append_assoc, List.singleton_append]
            · rw [h12, hit]
              have hp : (fun v : xng_chunk_t => decide (v.data < size + 8))
                  { id := chunk.id, length := chunk.length, crc := chunk.crc, data := o + 8 }
                  = true := by
                simp only [decide_eq_true_eq]; omega
              have e : ∀ k, chunk_count + 1 + k = chunk_count + (k + 1) := by intro k; omega
              rw [e]
              simp only [views_from]
              rw [@List.takeWhile_cons_of_pos _ (fun v : xng_chunk_t => decide (v.data < size + 8)) _ _ hp]
              rfl
          · obtain ⟨new0, hnew0⟩ := read_chunks_loop_extends le filedata size _ _ _ _ _ h
            rw [if_neg ho]
            refine ⟨chunk :: new0, ?_, ?_⟩
            · rw [hnew0, List.append_assoc, List.singleton_append]
            · have hp : ¬ (fun v : xng_chunk_t => decide (v.data < size + 8))
                  { id := chunk.id, length := chunk.length, crc := chunk.crc, data := o + 8 }
                  = true := by
                simp only [decide_eq_true_eq]; omega
              simp only [views_from]
              rw [@List.takeWhile_cons_of_neg _ (fun v : xng_chunk_t => decide (v.data < size + 8)) _ _ hp]
              rfl
        · rw [hz] at h
          simp only [if_true, Option.some.injEq, Except.ok.injEq] at h
          refine ⟨[], by rw [← h, List.append_nil], ?_⟩
          by_cases ho : o < size
          · rw [if_pos ho, hview]
            simp only [hz, if_true]
            rfl
          · rw [if_neg ho]
            rfl
    · rw [if_neg hg] at h
      simp only [Option.some.injEq, Except.ok.injEq] at h
      rw [if_neg (by omega)]
      exact ⟨[], by rw [← h, List.append_nil], rfl⟩

theorem views_from_length (cs : List chunk_t) : ∀ off, (views_from off cs).length = cs.length := by
  induction cs with
  | nil => intro _; rfl
  | cons c cs ih => intro off; simp only [views_from, List.length_cons, ih]

/-- For every buffer and size argument for which `read_chunks` returns a
sequence, with a size of at least 12 or assertions compiled out:
`xng_iterate_chunks` returns the number of records of the sequence before the
first one that starts at or behind the size, and this is the number of chunks of
the sequence exactly when every record starts below the size. -/
theorem entry_points_count {σ : Type} (ndebug le : Bool) (buffer : List Nat) (size : Nat)
    (cs : List chunk_t) (cb : xng_chunk_iteration_func_t σ) (context : σ)
    (hread : read_chunks le buffer size = some (.ok cs))
    (hassert : 12 ≤ size ∨ ndebug = true) :
    xng_iterate_chunks ndebug le buffer size (some cb) context
      = some (.ok
          (((views_from 0 cs).takeWhile (fun v => decide (v.data < size + 8))).length,
           ((views_from 0 cs).takeWhile (fun v => decide (v.data < size + 8))).foldl
             (fun s v => (cb v s).2) context)) ∧
    (((views_from 0 cs).takeWhile (fun v => decide (v.data < size + 8))).length = cs.length
      ↔ ∀ v ∈ views_from 0 cs, v.data < size + 8) := by
  obtain ⟨new, hcs, hit⟩ := loops_agree_prefix le buffer size (some cb) (buffer.length + 1)
    (size + 1) 0 0 0 [] cs context (by omega) (by omega) (by omega) hread
  rw [List.nil_append] at hcs
  subst hcs
  refine ⟨?_, ?_⟩
  · have hbranch : (!ndebug && !(decide (size ≥ xng_chunkheader_min_size))) = false := by
      rcases hassert with h | h
      · have : size ≥ xng_chunkheader_min_size := h
        simp [this]
      · simp [h]
    unfold xng_iterate_chunks
    rw [hbranch]
    simp only [Bool.false_eq_true, if_false]
    rw [hit, Nat.zero_add]
    rfl
  · constructor
    · intro hlen v hv
      rw [← views_from_length cs 0] at hlen
      have heq := List.Sublist.eq_of_length (List.takeWhile_sublist _) hlen
      have := List.takeWhile_eq_self_iff.1 heq v hv
      simpa using this
    · intro hall
      have heq : (views_from 0 cs).takeWhile (fun v => decide (v.data < size + 8))
          = views_from 0 cs :=
        List.takeWhile_eq_self_iff.2 (fun v hv => by simpa using hall v hv)
      rw [heq, views_from_length]

/-! ## A wide `size_t` -/

/-- Below `length`, with a `size_t` wide enough for `length + 12 + 2 ^ 32`,
`xng_get_next_chunk` is the same with and without the bound on `size_t`. -/
theorem xng_get_next_chunk_w_eq (bits : Nat) (le : Bool) (data : List Nat) (off : Nat)
    (slot0 : Option Nat) (hb : bytes_ok data) (hwide : off + 12 + 2 ^ 32 ≤ 2 ^ bits) :
    xng_get_next_chunk_w bits le data off slot0 = xng_get_next_chunk le data off slot0 := by
  simp only [xng_get_next_chunk_w, xng_get_next_chunk]
  by_cases h4 : off + 4 ≤ data.length
  swap
  · rw [read_uint32_t_oob le data off _ (by omega)]
  rw [read_uint32_t_eq le data off _ hb h4]
  simp only [store_next, Option.map_some', Option.getD_some]
  rcases read_chunkid_t_cases le data (off + 4) (some (off + 4)) with ⟨-, v2, r2⟩ | ⟨-, r2⟩
  swap
  · rw [r2]
  rw [r2]
  simp only [store_next, Option.map_some', Option.getD_some]
  have hl := be32_lt _ _ _ _ (byte_at_lt hb off) (byte_at_lt hb (off + 1))
    (byte_at_lt hb (off + 2)) (byte_at_lt hb (off + 3))
  rw [Nat.mod_eq_of_lt (by omega)]

/-- The position that `xng_get_next_chunk` stores is `12 + chunk.length` behind
the cursor, and the length is below `2 ^ 32`. -/
theorem xng_get_next_chunk_slot (le : Bool) (data : List Nat) (off : Nat)
    (slot : Option Nat) (chunk : xng_chunk_t) (hb : bytes_ok data)
    (h : xng_get_next_chunk le data off (some off) = .ok (chunk, slot)) :
    slot = some (off + (12 + chunk.length)) ∧ chunk.length < 2 ^ 32 := by
  simp only [xng_get_next_chunk] at h
  by_cases h4 : off + 4 ≤ data.length
  swap
  · rw [read_uint32_t_oob le data off _ (by omega)] at h
    cases h
  rw [read_uint32_t_eq le data off _ hb h4] at h
  simp only [store_next, Option.map_some', Option.getD_some] at h
  rcases read_chunkid_t_cases le data (off + 4) (some (off + 4)) with ⟨-, v2, r2⟩ | ⟨-, r2⟩
  swap
  · rw [r2] at h; cases h
  rw [r2] at h
  simp only [store_next, Option.map_some', Option.getD_some] at h
  have hl := be32_lt _ _ _ _ (byte_at_lt hb off) (byte_at_lt hb (off + 1))
    (byte_at_lt hb (off + 2)) (byte_at_lt hb (off + 3))
  generalize hp : off + 4 + 4 + be32 (byte_at data off) (byte_at data (off + 1))
    (byte_at data (off + 2)) (byte_at data (off + 3)) = p at h
  rcases read_uint32_t_cases le data p (some p) with ⟨-, v4, r4⟩ | ⟨-, r4⟩
  swap
  · rw [r4] at h; cases h
  rw [r4] at h
  simp only [store_next, Option.map_some', Option.getD_some, Except.ok.injEq,
    Prod.mk.injEq] at h
  obtain ⟨hc, hs⟩ := h
  subst hc
  simp only
  refine ⟨?_, hl⟩
  rw [← hs, ← hp]
  congr 1
  omega

/-- With a `size_t` wide enough for `length + 12 + 2 ^ 32`, the loop of
`xng_iterate_chunks` is the same with and without the bound on `size_t`. -/
theorem xng_iterate_chunks_loop_w_eq {σ : Type} (bits : Nat) (le : Bool) (data : List Nat)
    (length : Nat) (cb : Option (xng_chunk_iteration_func_t σ)) (hb : bytes_ok data)
    (hwide : length + 12 + 2 ^ 32 ≤ 2 ^ bits) :
    ∀ (fuel iter_length chunk_count : Nat) (context : σ),
      12 * chunk_count ≤ iter_length →
      xng_iterate_chunks_loop_w bits le data length cb fuel iter_length iter_length
          chunk_count context
        = xng_iterate_chunks_loop le data length cb fuel iter_length iter_length
          chunk_count context := by
  intro fuel
  induction fuel with
  | zero => intro _ _ _ _; rfl
  | succ fuel ih =>
    intro iter_length chunk_count context hcnt
    rw [xng_iterate_chunks_loop_w_succ, xng_iterate_chunks_loop_succ]
    by_cases hg : iter_length < length
    · rw [if_pos hg, if_pos hg,
        xng_get_next_chunk_w_eq bits le data iter_length _ hb (by omega)]
      cases hr : xng_get_next_chunk le data iter_length (some iter_length) with
      | error e => rfl
      | ok v =>
        obtain ⟨chunk, slot⟩ := v
        obtain ⟨hslot, hl⟩ := xng_get_next_chunk_slot le data iter_length slot chunk hb hr
        subst hslot
        simp only [Option.getD_some]
        have h12 : xng_chunkheader_min_size = 12 := rfl
        rw [h12, Nat.mod_eq_of_lt (show 12 + chunk.length < 2 ^ bits by omega),
          Nat.mod_eq_of_lt (show iter_length + (12 + chunk.length) < 2 ^ bits by omega),
          Nat.mod_eq_of_lt (show chunk_count + 1 < 2 ^ bits by omega)]
        cases hz : chunk.id.is_zero
        · simp only [Bool.false_eq_true, if_false]
          exact ih _ _ _ (by omega)
        · rfl
    · rw [if_neg hg, if_neg hg]

/-- With a `size_t` wide enough for `length + 12 + 2 ^ 32`, as on a 64-bit
target, `xng_iterate_chunks` is the same with and without the bound on
`size_t`. -/
theorem xng_iterate_chunks_w_eq {σ : Type} (bits : Nat) (ndebug le : Bool) (data : List Nat)
    (length : Nat) (cb : Option (xng_chunk_iteration_func_t σ)) (context : σ)
    (hb : bytes_ok data) (hwide : length + 12 + 2 ^ 32 ≤ 2 ^ bits) :
    xng_iterate_chunks_w bits ndebug le data length cb context (length + 1)
      = xng_iterate_chunks ndebug le data length cb context := by
  unfold xng_iterate_chunks_w xng_iterate_chunks
  rw [xng_iterate_chunks_loop_w_eq bits le data length cb hb hwide (length + 1) 0 0 context
    (by omega)]

end xng
